import Mathlib

/-!
# Heap management simulator (`heap_management.c`)

A shallow embedding of the allocator core of `heap_management.c`:
`init_heap`, `find_free_block`, `split_block`, `allocate_block`,
`get_prev_block`, `merge_block`, `free_block` and `change_strategy`.

Modelling conventions.

* A pointer into the arena `heap[HEAP_SIZE]` is its byte offset from `heap`
  (a `Nat`); a C pointer that may be `NULL` is an `Option Nat`.
* The arena is modelled at the granularity of header records: `Heap.mem o` is
  the `Block` header whose first byte is at offset `o`.  The three header
  fields are written one at a time, in the order of the C statements, so that
  aliasing between two header pointers is reproduced.  Footers are write-only
  in the C code; they are kept in the separate store `Heap.footer`.
  Overlap between the bytes of two different records is not modelled.
* `size_t` values are natural numbers; every `size_t` addition that can exceed
  the word is reduced modulo `2 ^ 64`.
* The C loops are given `FUEL = HEAP_SIZE + 1` iterations.  The loop of
  `find_free_block` only visits offsets below `HEAP_SIZE`, so a run of it that
  terminates visits at most `HEAP_SIZE` pairwise distinct offsets; the same
  holds for `get_prev_block` on a chain that lies in the arena.  A result
  `none` of a model function means that the C execution has no defined result
  there: the fuel ran out (the C loop would still be running), `heap_head` is
  `NULL`, or the pointer passed to `free_block` lies less than `HEADER_SIZE`
  bytes into the arena, so that its header would start before the arena.
* `allocated_pointers` and `allocation_count` belong to the interactive shell;
  they are kept in the state because `free_block` clears a tracking slot.
* In the reachable states every block holds at least a header, a footer and one
  byte, so the records of the chain never share a byte.  A total size below
  `HEADER_SIZE + FOOTER_SIZE` can only come from wraparound in
  `allocate_block`; there the header and the footer of a block overlap in the
  real arena.  The statements about such sizes only use the returned pointer
  and the `free` flag of the selected block, or the total size 0, for which
  `split_block` writes one header through two aliased pointers and its footer
  word falls in the footer of the block before: the model reproduces both.
-/

namespace HeapManagement

/-! ## Constants and data model -/

def HEAP_SIZE : Nat := 1024

/-- `sizeof(Block)` on an LP64 target: `size_t` (8), `int` (4), padding (4),
pointer (8). -/
def HEADER_SIZE : Nat := 24

/-- `sizeof(size_t)` on an LP64 target. -/
def FOOTER_SIZE : Nat := 8

def MAX_ALLOCATIONS : Nat := 10

def INT_MAX : Nat := 2147483647

/-- Number of values of `size_t`. -/
def SIZE_MOD : Nat := 2 ^ 64

/-- Iteration budget of the model loops. -/
def FUEL : Nat := HEAP_SIZE + 1

/-- The header `struct Block`. -/
structure Block where
  size : Nat
  free : Bool
  next : Option Nat
deriving DecidableEq, Repr

inductive Strategy where
  | FIRST_FIT
  | BEST_FIT
  | WORST_FIT
deriving DecidableEq, Repr

/-- The global state of the program: the arena (headers and footers) and the
global variables `heap_head`, `currStrategy`, `allocated_pointers`,
`allocation_count`. -/
structure Heap where
  mem : Nat → Block
  footer : Nat → Nat
  heap_head : Option Nat
  currStrategy : Strategy
  allocated_pointers : List (Option Nat)
  allocation_count : Nat

/-- Assignment `p->size = v`. -/
def wr_size (h : Heap) (p : Nat) (v : Nat) : Heap :=
  { h with mem := fun q => if q = p then { h.mem q with size := v } else h.mem q }

/-- Assignment `p->free = v`. -/
def wr_free (h : Heap) (p : Nat) (v : Bool) : Heap :=
  { h with mem := fun q => if q = p then { h.mem q with free := v } else h.mem q }

/-- Assignment `p->next = v`. -/
def wr_next (h : Heap) (p : Nat) (v : Option Nat) : Heap :=
  { h with mem := fun q => if q = p then { h.mem q with next := v } else h.mem q }

/-- The state of the program when `main` starts: static storage is zeroed,
`heap_head` is `NULL`, the strategy is `FIRST_FIT`. -/
def boot : Heap where
  mem := fun _ => ⟨0, false, none⟩
  footer := fun _ => 0
  heap_head := none
  currStrategy := Strategy.FIRST_FIT
  allocated_pointers := List.replicate MAX_ALLOCATIONS none
  allocation_count := 0

/-! ## The operations -/

/-- The function `set_footer`.  The footer word is kept in the store `footer`,
apart from the headers: this is what the C code does for a block of at least
`HEADER_SIZE + FOOTER_SIZE` bytes that lies in the arena, where the word falls
after the header of the block and inside the block.  For a shorter block of
positive size the word of the C code overlaps the header of the block, which
the header records of the model do not show; for a block of size 0 it is the
word just before the block. -/
def set_footer (h : Heap) (block : Nat) : Heap :=
  { h with footer := fun q =>
      if q = block + (h.mem block).size - FOOTER_SIZE then (h.mem block).size else h.footer q }

def init_heap (h : Heap) : Heap :=
  let h := { h with heap_head := some 0 }
  let h := wr_size h 0 HEAP_SIZE
  let h := wr_free h 0 true
  let h := wr_next h 0 none
  set_footer h 0

/-- The local variables of `find_free_block` that survive a loop iteration. -/
structure ScanVars where
  best_block : Option Nat
  worst_block : Option Nat
  min_remainder : Nat
  max_size : Nat
deriving DecidableEq, Repr

/-- How a piece of the scanning loop ends: with a `return` of a pointer, or by
going on with updated local variables. -/
inductive ScanExit where
  | ret (p : Option Nat)
  | cont (v : ScanVars)
deriving DecidableEq, Repr

/-- The `if (curr->free && curr->size >= total_size) { ... }` statement of the
loop body of `find_free_block`, for the header `b` read at `curr`. -/
def scan_body (b : Block) (curr total_size : Nat) (strategy : Strategy)
    (v : ScanVars) : ScanExit :=
  if b.free ∧ b.size ≥ total_size then
    match strategy with
    | Strategy.FIRST_FIT => ScanExit.ret (some curr)
    | Strategy.BEST_FIT =>
      let min_remainder := if v.best_block = none then INT_MAX else v.min_remainder
      let remainder := b.size - total_size
      if remainder < min_remainder then
        ScanExit.cont { v with min_remainder := remainder, best_block := some curr }
      else
        ScanExit.cont { v with min_remainder := min_remainder }
    | Strategy.WORST_FIT =>
      if b.size > v.max_size then
        ScanExit.cont { v with max_size := b.size, worst_block := some curr }
      else
        ScanExit.cont v
  else
    ScanExit.cont v

/-- The `while ((char*)curr < heap + HEAP_SIZE)` loop of `find_free_block`. -/
def find_loop (mem : Nat → Block) (total_size : Nat) (strategy : Strategy) :
    Nat → Nat → ScanVars → Option ScanExit
  | 0, _, _ => none
  | fuel + 1, curr, v =>
    if curr < HEAP_SIZE then
      match scan_body (mem curr) curr total_size strategy v with
      | ScanExit.ret p => some (ScanExit.ret p)
      | ScanExit.cont v1 =>
        match (mem curr).next with
        | none => some (ScanExit.cont v1)
        | some n => find_loop mem total_size strategy fuel n v1
    else
      some (ScanExit.cont v)

def find_free_block (h : Heap) (total_size : Nat) (strategy : Strategy) :
    Option (Option Nat) :=
  match h.heap_head with
  | none => none
  | some head =>
    match find_loop h.mem total_size strategy FUEL head ⟨none, none, INT_MAX, 0⟩ with
    | none => none
    | some (ScanExit.ret p) => some p
    | some (ScanExit.cont v) =>
      match strategy with
      | Strategy.BEST_FIT => some v.best_block
      | Strategy.WORST_FIT =>
        match v.worst_block with
        | some w => if (h.mem w).size ≥ total_size then some (some w) else some none
        | none => some none
      | Strategy.FIRST_FIT => some none

/-- The function `split_block`.  The headers at `block` and at
`block + total_size` are two records, or one record when `total_size` is 0.
This is what the C code does when `total_size` is at least
`HEADER_SIZE + FOOTER_SIZE`, as is every total size that `allocate_block`
computes without wraparound, and when `total_size` is 0, where the two headers
are one.  For a total size in between, which `allocate_block` only computes by
wraparound, the headers and footer words of the C code share bytes, and the
model does not follow them. -/
def split_block (h : Heap) (block total_size : Nat) : Heap :=
  if (h.mem block).size ≥ (total_size + HEADER_SIZE + FOOTER_SIZE + 1) % SIZE_MOD then
    let newBlock := block + total_size
    let h := wr_size h newBlock ((h.mem block).size - total_size)
    let h := wr_free h newBlock true
    let h := wr_next h newBlock (h.mem block).next
    let h := wr_size h block total_size
    let h := wr_free h block false
    let h := wr_next h block (some newBlock)
    let h := set_footer h block
    set_footer h newBlock
  else
    wr_free h block false

/-- The function `allocate_block`: the new state and the returned pointer
(`none` for `NULL`). -/
def allocate_block (h : Heap) (size : Nat) : Option (Heap × Option Nat) :=
  if size = 0 then some (h, none)
  else
    let total_size := (HEADER_SIZE + size + FOOTER_SIZE) % SIZE_MOD
    match find_free_block h total_size h.currStrategy with
    | none => none
    | some none => some (h, none)
    | some (some block) =>
      some (split_block h block total_size, some (block + HEADER_SIZE))

/-- The `while (curr && curr != block)` loop of `get_prev_block`. -/
def get_prev_loop (mem : Nat → Block) (block : Option Nat) :
    Nat → Option Nat → Option Nat → Option (Option Nat)
  | 0, _, _ => none
  | fuel + 1, curr, prev =>
    match curr with
    | none => some prev
    | some c =>
      if curr = block then some prev
      else get_prev_loop mem block fuel (mem c).next (some c)

def get_prev_block (h : Heap) (block : Option Nat) : Option (Option Nat) :=
  get_prev_loop h.mem block FUEL h.heap_head none

def merge_block (h : Heap) (block : Option Nat) : Option Heap :=
  match block with
  | none => some h
  | some b =>
    let h1 :=
      match (h.mem b).next with
      | some n =>
        if (h.mem n).free ∧ b + (h.mem b).size = n then
          let h := wr_size h b (((h.mem b).size + (h.mem n).size) % SIZE_MOD)
          let h := wr_next h b (h.mem n).next
          set_footer h b
        else h
      | none => h
    match get_prev_block h1 (some b) with
    | none => none
    | some none => some h1
    | some (some prev) =>
      if (h1.mem prev).free ∧ prev + (h1.mem prev).size = b then
        let h := wr_size h1 prev (((h1.mem prev).size + (h1.mem b).size) % SIZE_MOD)
        let h := wr_next h prev (h.mem b).next
        some (set_footer h prev)
      else some h1

/-- The `for` loop of `free_block` over the first `count` tracking slots: the
first slot holding `ptr` is set to `NULL`. -/
def clear_tracked : List (Option Nat) → Nat → Option Nat → List (Option Nat)
  | [], _, _ => []
  | a :: rest, 0, _ => a :: rest
  | a :: rest, count + 1, ptr =>
    if a = ptr then none :: rest else a :: clear_tracked rest count ptr

def free_block (h : Heap) (ptr : Option Nat) : Option Heap :=
  match ptr with
  | none => some h
  | some p =>
    if p < HEADER_SIZE then none
    else
      let block := p - HEADER_SIZE
      if (h.mem block).free then some h
      else
        match merge_block (wr_free h block true) (some block) with
        | none => none
        | some h1 =>
          some { h1 with
            allocated_pointers := clear_tracked h1.allocated_pointers h1.allocation_count ptr }

def change_strategy (h : Heap) (strategy : Strategy) : Heap :=
  { h with currStrategy := strategy }

/-! ## The block chain -/

/-- The blocks met from pointer `p` by following `next`, each with its offset. -/
def chainFrom (mem : Nat → Block) : Nat → Option Nat → List (Nat × Block)
  | 0, _ => []
  | _ + 1, none => []
  | fuel + 1, some o => (o, mem o) :: chainFrom mem fuel (mem o).next

/-- The chain followed from `heap_head`. -/
def chain (h : Heap) : List (Nat × Block) :=
  chainFrom h.mem FUEL h.heap_head

/-! ## Specification vocabulary -/

/-- The block `x` (offset and header) can serve a request of total size `T`:
it is free and at least `T` bytes long. -/
def Qualifies (T : Nat) (x : Nat × Block) : Prop :=
  x.2.free = true ∧ T ≤ x.2.size

instance instDecidableQualifies (T : Nat) (x : Nat × Block) : Decidable (Qualifies T x) := by
  unfold Qualifies
  infer_instance

/-- Invariants I1 and I2 on a chain that is expected to start at offset `a`:
each block starts where the previous one ends, its `next` is the block that
follows it in the chain, the last block has no successor and ends at the end
of the arena. -/
def Covers : Nat → List (Nat × Block) → Prop
  | a, [] => a = HEAP_SIZE
  | a, x :: rest =>
    x.1 = a ∧ x.2.next = rest.head?.map Prod.fst ∧ Covers (a + x.2.size) rest

instance instDecidableCovers : (a : Nat) → (l : List (Nat × Block)) → Decidable (Covers a l)
  | a, [] => by
    unfold Covers
    infer_instance
  | a, x :: rest => by
    unfold Covers
    have := instDecidableCovers (a + x.2.size) rest
    infer_instance

/-- A well-formed chain state: the chain starts at the first byte of the
arena, covers it (I1, I2) and every block has a positive size. -/
def WellFormed (h : Heap) : Prop :=
  h.heap_head = some 0 ∧ Covers 0 (chain h) ∧ ∀ x ∈ chain h, 0 < x.2.size

instance instDecidableWellFormed (h : Heap) : Decidable (WellFormed h) := by
  unfold WellFormed
  infer_instance

/-- Invariant I4: no block of the chain that is free is followed by a free
block. -/
def NoAdjacentFree (l : List (Nat × Block)) : Prop :=
  List.Chain' (fun x y => ¬ (x.2.free = true ∧ y.2.free = true)) l

/-- One step of the scan of the specification for WORST_FIT: a block that is
not free is skipped; a free block replaces the block kept so far only if it is
strictly larger, so that ties keep the earliest block. -/
def keep_larger (acc : Option (Nat × Block)) (x : Nat × Block) : Option (Nat × Block) :=
  if x.2.free = true then
    match acc with
    | none => some x
    | some y => if x.2.size > y.2.size then some x else some y
  else acc

/-- The policy of the specification for WORST_FIT: scan all free blocks,
whatever the request, and keep the block of globally maximal size (the
earliest one on ties). -/
def largest_free (l : List (Nat × Block)) : Option (Nat × Block) :=
  l.foldl keep_larger none

/-- The policy of the specification for WORST_FIT, continued: the block kept by
the scan is returned only if its size is at least `T`. -/
def worst_fit_spec (l : List (Nat × Block)) (T : Nat) : Option Nat :=
  match largest_free l with
  | some y => if y.2.size ≥ T then some y.1 else none
  | none => none

/-- States of the program reachable from `init_heap` by calls of
`allocate_block` whose total size does not wrap, `free_block` on an
outstanding pointer, and `change_strategy`.  The second component lists the
outstanding payload pointers: those returned by `allocate_block` and not yet
passed to `free_block`. -/
inductive Reachable : Heap → List Nat → Prop where
  | init : Reachable (init_heap boot) []
  | alloc_ok (h : Heap) (out : List Nat) (S : Nat) (h1 : Heap) (p : Nat) :
      Reachable h out → HEADER_SIZE + S + FOOTER_SIZE < SIZE_MOD →
      allocate_block h S = some (h1, some p) → Reachable h1 (p :: out)
  | alloc_fail (h : Heap) (out : List Nat) (S : Nat) (h1 : Heap) :
      Reachable h out → HEADER_SIZE + S + FOOTER_SIZE < SIZE_MOD →
      allocate_block h S = some (h1, none) → Reachable h1 out
  | release (h : Heap) (out : List Nat) (p : Nat) (h1 : Heap) :
      Reachable h out → p ∈ out →
      free_block h (some p) = some h1 → Reachable h1 (out.erase p)
  | strategy (h : Heap) (out : List Nat) (s : Strategy) :
      Reachable h out → Reachable (change_strategy h s) out

/-- Calls `free_block` on each pointer of the list, in order. -/
def free_all : Heap → List Nat → Option Heap
  | h, [] => some h
  | h, p :: ps =>
    match free_block h (some p) with
    | none => none
    | some h1 => free_all h1 ps

/-- The state after `allocate_block(S)`, for building sample states. -/
def run_alloc (h : Heap) (S : Nat) : Heap :=
  match allocate_block h S with
  | some (h1, _) => h1
  | none => h

/-- The state after `free_block(heap + p)`, for building sample states. -/
def run_free (h : Heap) (p : Nat) : Heap :=
  match free_block h (some p) with
  | some h1 => h1
  | none => h

/-- Sample state: `init_heap(); allocate_block(100); allocate_block(200);`.
The chain is 132 allocated, 232 allocated, 660 free. -/
def demo_two : Heap :=
  run_alloc (run_alloc (init_heap boot) 100) 200

/-- Sample state: `demo_two` followed by `free_block` of the first pointer.
The chain is 132 free, 232 allocated, 660 free. -/
def demo_hole : Heap :=
  run_free demo_two 24

/-- Sample state: `init_heap(); allocate_block(100);`.  The chain is 132
allocated, 892 free. -/
def demo_one : Heap :=
  run_alloc (init_heap boot) 100

/-- Sample state: `demo_hole` followed by `allocate_block(50)`.  The chain is
82 allocated, 50 free, 232 allocated, 660 free. -/
def demo_reuse : Heap :=
  run_alloc demo_hole 50

/-- The reachable states with, for each outstanding payload pointer, the size
that was requested from `allocate_block` when the pointer was returned. -/
inductive ReachableReq : Heap → List (Nat × Nat) → Prop where
  | init : ReachableReq (init_heap boot) []
  | alloc_ok (h : Heap) (reqs : List (Nat × Nat)) (S : Nat) (h1 : Heap) (p : Nat) :
      ReachableReq h reqs → HEADER_SIZE + S + FOOTER_SIZE < SIZE_MOD →
      allocate_block h S = some (h1, some p) → ReachableReq h1 ((p, S) :: reqs)
  | alloc_fail (h : Heap) (reqs : List (Nat × Nat)) (S : Nat) (h1 : Heap) :
      ReachableReq h reqs → HEADER_SIZE + S + FOOTER_SIZE < SIZE_MOD →
      allocate_block h S = some (h1, none) → ReachableReq h1 reqs
  | release (h : Heap) (reqs : List (Nat × Nat)) (p S : Nat) (h1 : Heap) :
      ReachableReq h reqs → (p, S) ∈ reqs →
      free_block h (some p) = some h1 → ReachableReq h1 (reqs.erase (p, S))
  | strategy (h : Heap) (reqs : List (Nat × Nat)) (s : Strategy) :
      ReachableReq h reqs → ReachableReq (change_strategy h s) reqs

/-! ## Auxiliary notions for the proofs -/

/-- The blocks of `l` tile the byte range from `a` to `e`. -/
def Tiles : Nat → List (Nat × Block) → Nat → Prop
  | a, [], e => a = e
  | a, x :: rest, e => x.1 = a ∧ Tiles (a + x.2.size) rest e

/-- The pointer that designates arena offset `a`; the end of the arena stands
for `NULL`. -/
def ptrAt (a : Nat) : Option Nat :=
  if a = HEAP_SIZE then none else some a

/-- The `next` field a block must hold in a chain that tiles the arena. -/
def nextOf (x : Nat × Block) : Option Nat :=
  ptrAt (x.1 + x.2.size)

/-- Following `next` in memory from pointer `p` visits exactly `l` and arrives
at pointer `q`. -/
def Walk (mem : Nat → Block) : Option Nat → List (Nat × Block) → Option Nat → Prop
  | p, [], q => p = q
  | p, x :: rest, q => p = some x.1 ∧ mem x.1 = x.2 ∧ Walk mem x.2.next rest q

/-- The chain `l` is laid out in the memory of `h`: it tiles the arena with
blocks of positive size, linked in address order. -/
structure Rep (h : Heap) (l : List (Nat × Block)) : Prop where
  head : h.heap_head = some 0
  tiles : Tiles 0 l HEAP_SIZE
  pos : ∀ x ∈ l, 0 < x.2.size
  link : ∀ x ∈ l, x.2.next = nextOf x
  agrees : ∀ x ∈ l, h.mem x.1 = x.2

/-- The scanning loop of `find_free_block` run over a list of blocks. -/
def scan_list (T : Nat) (s : Strategy) : List (Nat × Block) → ScanVars → ScanExit
  | [], v => ScanExit.cont v
  | x :: rest, v =>
    match scan_body x.2 x.1 T s v with
    | ScanExit.ret p => ScanExit.ret p
    | ScanExit.cont v1 => scan_list T s rest v1

/-- The value `find_free_block` returns after its loop. -/
def scan_result (mem : Nat → Block) (T : Nat) (s : Strategy) : ScanExit → Option Nat
  | ScanExit.ret p => p
  | ScanExit.cont v =>
    match s with
    | Strategy.BEST_FIT => v.best_block
    | Strategy.WORST_FIT =>
      match v.worst_block with
      | some w => if (mem w).size ≥ T then some w else none
      | none => none
    | Strategy.FIRST_FIT => none

/-- What the BEST_FIT variables hold after the blocks of `l` have been
scanned. -/
def BestInv (T : Nat) (l : List (Nat × Block)) (v : ScanVars) : Prop :=
  (v.best_block = none ∧ ∀ x ∈ l, ¬ Qualifies T x) ∨
  (∃ l1 y l2, l = l1 ++ y :: l2 ∧ v.best_block = some y.1 ∧
    v.min_remainder = y.2.size - T ∧ Qualifies T y ∧
    (∀ x ∈ l1, Qualifies T x → y.2.size < x.2.size) ∧
    (∀ x ∈ l2, Qualifies T x → y.2.size ≤ x.2.size))

/-- What the WORST_FIT variables hold after the blocks of `l` have been
scanned, next to the block `g` that the scan of the specification keeps. -/
def WorstInv (T : Nat) (l : List (Nat × Block)) (v : ScanVars)
    (g : Option (Nat × Block)) : Prop :=
  (v.worst_block = none ∧ v.max_size = 0 ∧ (∀ x ∈ l, ¬ Qualifies T x) ∧
    ∀ y, g = some y → y.2.size < T) ∨
  (∃ y ∈ l, v.worst_block = some y.1 ∧ g = some y ∧ v.max_size = y.2.size ∧ Qualifies T y)

/-- The invariant of the reachable states, for the chain `l` laid out in `h`
and the outstanding payload pointers `out`: blocks are large enough to hold a
header, a footer and one byte of payload; two blocks that touch are never both
free; a block is allocated exactly when its payload pointer is outstanding;
every outstanding pointer is the payload pointer of a block of the chain. -/
structure Inv (h : Heap) (l : List (Nat × Block)) (out : List Nat) : Prop where
  rep : Rep h l
  minsize : ∀ x ∈ l, HEADER_SIZE + FOOTER_SIZE + 1 ≤ x.2.size
  noadj : ∀ x ∈ l, ∀ y ∈ l, x.1 + x.2.size = y.1 → ¬ (x.2.free = true ∧ y.2.free = true)
  acc : ∀ x ∈ l, (x.2.free = false ↔ x.1 + HEADER_SIZE ∈ out)
  nodup : out.Nodup
  owned : ∀ p ∈ out, ∃ x ∈ l, x.1 + HEADER_SIZE = p

/-- The chain after `split_block` has been applied to the block `x` for a
request of total size `T`. -/
def split_list (pre : List (Nat × Block)) (x : Nat × Block) (post : List (Nat × Block))
    (T : Nat) : List (Nat × Block) :=
  if x.2.size ≥ T + HEADER_SIZE + FOOTER_SIZE + 1 then
    pre ++ (x.1, ⟨T, false, some (x.1 + T)⟩) :: (x.1 + T, ⟨x.2.size - T, true, x.2.next⟩) :: post
  else
    pre ++ (x.1, ⟨x.2.size, false, x.2.next⟩) :: post

/-- The first half of `merge_block`: the merge of block `b` with its next
block. -/
def merge_forward (h : Heap) (b : Nat) : Heap :=
  match (h.mem b).next with
  | some n =>
    if (h.mem n).free ∧ b + (h.mem b).size = n then
      let h := wr_size h b (((h.mem b).size + (h.mem n).size) % SIZE_MOD)
      let h := wr_next h b (h.mem n).next
      set_footer h b
    else h
  | none => h

/-- The second half of `merge_block`: the merge of block `b` into the block
found by `get_prev_block`. -/
def merge_backward (h1 : Heap) (b : Nat) : Option Nat → Heap
  | none => h1
  | some prev =>
    if (h1.mem prev).free ∧ prev + (h1.mem prev).size = b then
      let h := wr_size h1 prev (((h1.mem prev).size + (h1.mem b).size) % SIZE_MOD)
      let h := wr_next h prev (h.mem b).next
      set_footer h prev
    else h1

/-- The offset of the last block of a list, or `prev` for the empty list: the
value of the variable `prev` of `get_prev_block` after the list is walked. -/
def last_off : List (Nat × Block) → Option Nat → Option Nat
  | [], prev => prev
  | y :: r, _ => last_off r (some y.1)

/-- The chain after the block `x` has been merged with its next block, when
that block is free. -/
def merged_next (x : Nat × Block) : List (Nat × Block) → List (Nat × Block)
  | [] => [x]
  | n :: post =>
    if n.2.free = true then (x.1, ⟨x.2.size + n.2.size, x.2.free, n.2.next⟩) :: post
    else x :: n :: post

/-- The chain after the first block of `rest` has been merged into the last
block of `pre`, when that block is free. -/
def merged_prev (pre : List (Nat × Block)) : List (Nat × Block) → List (Nat × Block)
  | [] => pre
  | cur :: rest =>
    match pre.getLast? with
    | none => cur :: rest
    | some q =>
      if q.2.free = true then
        pre.dropLast ++ (q.1, ⟨q.2.size + cur.2.size, q.2.free, cur.2.next⟩) :: rest
      else pre ++ cur :: rest

/-- The chain after the allocated block `x` has been released: it is marked
free, merged with its next block if that one is free, and the result is merged
into the previous block if that one is free. -/
def released (pre : List (Nat × Block)) (x : Nat × Block) (post : List (Nat × Block)) :
    List (Nat × Block) :=
  merged_prev pre (merged_next (x.1, ⟨x.2.size, true, x.2.next⟩) post)

/-- The invariant of the reachable states with requested sizes: the
invariant `Inv` for the outstanding pointers, and every outstanding request of
`S` bytes is positive and owns a block of the chain whose size is at least the
total size of the request and exceeds it by at most one header and footer. -/
structure InvReq (h : Heap) (l : List (Nat × Block)) (reqs : List (Nat × Nat)) : Prop where
  inv : Inv h l (reqs.map Prod.fst)
  sized : ∀ r ∈ reqs, 0 < r.2 ∧ ∃ x ∈ l, x.1 + HEADER_SIZE = r.1 ∧
    HEADER_SIZE + r.2 + FOOTER_SIZE ≤ x.2.size ∧
    x.2.size ≤ HEADER_SIZE + r.2 + FOOTER_SIZE + (HEADER_SIZE + FOOTER_SIZE)

/-! ## Basic facts on tilings and walks -/

theorem tiles_append (l1 l2 : List (Nat × Block)) (a e : Nat) :
    Tiles a (l1 ++ l2) e ↔ ∃ m, Tiles a l1 m ∧ Tiles m l2 e := by
  induction l1 generalizing a with
  | nil => simp [Tiles]
  | cons x r ih =>
    show (x.1 = a ∧ Tiles (a + x.2.size) (r ++ l2) e) ↔
      ∃ m, (x.1 = a ∧ Tiles (a + x.2.size) r m) ∧ Tiles m l2 e
    rw [ih]
    constructor
    · rintro ⟨hx, m, h1, h2⟩
      exact ⟨m, ⟨hx, h1⟩, h2⟩
    · rintro ⟨m, ⟨hx, h1⟩, h2⟩
      exact ⟨hx, m, h1, h2⟩

theorem tiles_le (l : List (Nat × Block)) (a e : Nat) (ht : Tiles a l e) : a ≤ e := by
  induction l generalizing a with
  | nil => simp [Tiles] at ht; omega
  | cons x r ih =>
    obtain ⟨_, h2⟩ := ht
    have := ih _ h2
    omega

theorem tiles_bounds (l : List (Nat × Block)) (a e : Nat) (ht : Tiles a l e)
    (x : Nat × Block) (hx : x ∈ l) : a ≤ x.1 ∧ x.1 + x.2.size ≤ e := by
  induction l generalizing a with
  | nil => simp at hx
  | cons y r ih =>
    obtain ⟨h1, h2⟩ := ht
    rcases List.mem_cons.1 hx with rfl | hx
    · have := tiles_le _ _ _ h2
      omega
    · have := ih _ h2 hx
      omega

theorem tiles_length (l : List (Nat × Block)) (a e : Nat) (ht : Tiles a l e)
    (hpos : ∀ x ∈ l, 0 < x.2.size) : a + l.length ≤ e := by
  induction l generalizing a with
  | nil => simp [Tiles] at ht; simp; omega
  | cons x r ih =>
    obtain ⟨_, h2⟩ := ht
    have := ih _ h2 (fun y hy => hpos y (List.mem_cons_of_mem _ hy))
    have := hpos x (List.mem_cons_self _ _)
    simp only [List.length_cons]
    omega

theorem tiles_sum (l : List (Nat × Block)) (a e : Nat) (ht : Tiles a l e) :
    a + (l.map (fun x => x.2.size)).sum = e := by
  induction l generalizing a with
  | nil => simpa [Tiles] using ht
  | cons x r ih =>
    obtain ⟨_, h2⟩ := ht
    have := ih _ h2
    simp only [List.map_cons, List.sum_cons]
    omega

theorem covers_iff (l : List (Nat × Block)) (a : Nat) (hpos : ∀ x ∈ l, 0 < x.2.size) :
    Covers a l ↔ Tiles a l HEAP_SIZE ∧ ∀ x ∈ l, x.2.next = nextOf x := by
  induction l generalizing a with
  | nil => simp [Covers, Tiles]
  | cons x r ih =>
    have hposr : ∀ y ∈ r, 0 < y.2.size := fun y hy => hpos y (List.mem_cons_of_mem _ hy)
    simp only [Covers, Tiles, ih _ hposr, List.forall_mem_cons]
    constructor
    · rintro ⟨hx, hn, ht, hl⟩
      refine ⟨⟨hx, ht⟩, ?_, hl⟩
      rw [hn]
      cases r with
      | nil =>
        simp only [Tiles] at ht
        simp [nextOf, ptrAt, hx, ht]
      | cons y r2 =>
        obtain ⟨hy, ht2⟩ := ht
        have := tiles_le _ _ _ ht2
        have := hposr y (List.mem_cons_self _ _)
        have hne : ¬ (a + x.2.size = HEAP_SIZE) := by omega
        simp [nextOf, ptrAt, hne, hy, hx]
    · rintro ⟨⟨hx, ht⟩, hn, hl⟩
      refine ⟨hx, ?_, ht, hl⟩
      rw [hn]
      cases r with
      | nil =>
        simp only [Tiles] at ht
        simp [nextOf, ptrAt, hx, ht]
      | cons y r2 =>
        obtain ⟨hy, ht2⟩ := ht
        have := tiles_le _ _ _ ht2
        have := hposr y (List.mem_cons_self _ _)
        have hne : ¬ (a + x.2.size = HEAP_SIZE) := by omega
        simp [nextOf, ptrAt, hne, hy, hx]

theorem walk_of_tiles (mem : Nat → Block) (l : List (Nat × Block)) (a : Nat)
    (ht : Tiles a l HEAP_SIZE) (hpos : ∀ x ∈ l, 0 < x.2.size)
    (hl : ∀ x ∈ l, x.2.next = nextOf x) (hm : ∀ x ∈ l, mem x.1 = x.2) :
    Walk mem (ptrAt a) l none := by
  induction l generalizing a with
  | nil =>
    simp only [Tiles] at ht
    simp [Walk, ptrAt, ht]
  | cons x r ih =>
    obtain ⟨hx, ht2⟩ := ht
    simp only [List.forall_mem_cons] at hpos hl hm
    have := tiles_le _ _ _ ht2
    have hne : ¬ (a = HEAP_SIZE) := by omega
    refine ⟨by simp [ptrAt, hne, hx], hm.1, ?_⟩
    rw [hl.1, nextOf, hx]
    exact ih _ ht2 hpos.2 hl.2 hm.2

theorem chainFrom_of_walk (mem : Nat → Block) (l : List (Nat × Block)) (p : Option Nat)
    (fuel : Nat) (hw : Walk mem p l none) (hf : l.length ≤ fuel) :
    chainFrom mem fuel p = l := by
  induction l generalizing p fuel with
  | nil =>
    simp only [Walk] at hw
    subst hw
    cases fuel <;> rfl
  | cons x r ih =>
    obtain ⟨hp, hm, hw2⟩ := hw
    subst hp
    cases fuel with
    | zero => simp at hf
    | succ n =>
      simp only [List.length_cons, Nat.add_le_add_iff_right] at hf
      simp only [chainFrom, hm]
      rw [ih _ _ hw2 hf]

theorem chainFrom_agrees (mem : Nat → Block) (fuel : Nat) (p : Option Nat) :
    ∀ x ∈ chainFrom mem fuel p, mem x.1 = x.2 := by
  induction fuel generalizing p with
  | zero => simp [chainFrom]
  | succ n ih =>
    cases p with
    | none => simp [chainFrom]
    | some o =>
      simp only [chainFrom, List.forall_mem_cons, true_and]
      exact ih _

theorem rep_chain (h : Heap) (l : List (Nat × Block)) (hr : Rep h l) : chain h = l := by
  have hw := walk_of_tiles h.mem l 0 hr.tiles hr.pos hr.link hr.agrees
  have hlen := tiles_length l 0 HEAP_SIZE hr.tiles hr.pos
  unfold chain
  rw [hr.head]
  have h0 : ptrAt 0 = some 0 := by decide
  rw [h0] at hw
  exact chainFrom_of_walk _ _ _ _ hw (by unfold FUEL; omega)

theorem wf_rep (h : Heap) (hw : WellFormed h) : Rep h (chain h) := by
  obtain ⟨hh, hc, hp⟩ := hw
  have := (covers_iff _ _ hp).1 hc
  exact ⟨hh, this.1, hp, this.2, chainFrom_agrees _ _ _⟩

theorem rep_wf (h : Heap) (l : List (Nat × Block)) (hr : Rep h l) : WellFormed h := by
  have hc := rep_chain h l hr
  refine ⟨hr.head, ?_, ?_⟩
  · rw [hc]
    exact (covers_iff _ _ hr.pos).2 ⟨hr.tiles, hr.link⟩
  · rw [hc]
    exact hr.pos

/-! ## The scanning loop of `find_free_block` -/

theorem find_loop_eq (mem : Nat → Block) (T : Nat) (s : Strategy) (l : List (Nat × Block))
    (o fuel : Nat) (v : ScanVars) (hw : Walk mem (some o) l none)
    (hb : ∀ x ∈ l, x.1 < HEAP_SIZE) (hf : l.length ≤ fuel) :
    find_loop mem T s fuel o v = some (scan_list T s l v) := by
  induction l generalizing o fuel v with
  | nil => simp [Walk] at hw
  | cons x r ih =>
    obtain ⟨hp, hm, hw2⟩ := hw
    simp only [Option.some.injEq] at hp
    subst hp
    cases fuel with
    | zero => simp at hf
    | succ n =>
      simp only [List.length_cons, Nat.add_le_add_iff_right] at hf
      have hx := hb x (List.mem_cons_self _ _)
      simp only [find_loop, hx, if_true, hm, scan_list]
      cases hsb : scan_body x.2 x.1 T s v with
      | ret p => rfl
      | cont v1 =>
        simp only []
        cases r with
        | nil =>
          simp only [Walk] at hw2
          simp [hw2, scan_list]
        | cons y r2 =>
          have hy : x.2.next = some y.1 := hw2.1
          simp only [hy]
          exact ih _ _ _ (by rw [← hy]; exact hw2)
            (fun z hz => hb z (List.mem_cons_of_mem _ hz)) hf

theorem find_free_block_eq (h : Heap) (l : List (Nat × Block)) (T : Nat) (s : Strategy)
    (hr : Rep h l) :
    find_free_block h T s
      = some (scan_result h.mem T s (scan_list T s l ⟨none, none, INT_MAX, 0⟩)) := by
  have hw := walk_of_tiles h.mem l 0 hr.tiles hr.pos hr.link hr.agrees
  have h0 : ptrAt 0 = some 0 := by decide
  rw [h0] at hw
  have hlen := tiles_length l 0 HEAP_SIZE hr.tiles hr.pos
  have hb : ∀ x ∈ l, x.1 < HEAP_SIZE := by
    intro x hx
    have := tiles_bounds l 0 HEAP_SIZE hr.tiles x hx
    have := hr.pos x hx
    omega
  have := find_loop_eq h.mem T s l 0 FUEL ⟨none, none, INT_MAX, 0⟩ hw hb
    (by unfold FUEL; omega)
  unfold find_free_block
  rw [hr.head]
  simp only [this]
  cases hsl : scan_list T s l ⟨none, none, INT_MAX, 0⟩ with
  | ret p => rfl
  | cont v =>
    cases s with
    | FIRST_FIT => rfl
    | BEST_FIT => rfl
    | WORST_FIT =>
      simp only [scan_result]
      cases v.worst_block with
      | none => rfl
      | some w =>
        simp only []
        split <;> rfl

theorem tiles_split_order (l1 l2 : List (Nat × Block)) (y : Nat × Block) (a e : Nat)
    (ht : Tiles a (l1 ++ y :: l2) e) :
    Tiles a l1 y.1 ∧ Tiles (y.1 + y.2.size) l2 e ∧
      (∀ x ∈ l1, x.1 + x.2.size ≤ y.1) ∧ (∀ x ∈ l2, y.1 + y.2.size ≤ x.1) := by
  obtain ⟨m, h1, h2⟩ := (tiles_append _ _ _ _).1 ht
  obtain ⟨hy, h3⟩ := h2
  subst hy
  refine ⟨h1, h3, ?_, ?_⟩
  · intro x hx
    exact (tiles_bounds _ _ _ h1 x hx).2
  · intro x hx
    exact (tiles_bounds _ _ _ h3 x hx).1

/-- FIRST_FIT over a list: the scan returns the first qualifying block, or goes
through the whole list when there is none. -/
theorem first_scan (T : Nat) (l : List (Nat × Block)) (v : ScanVars) :
    (∃ l1 y l2, l = l1 ++ y :: l2 ∧ Qualifies T y ∧ (∀ x ∈ l1, ¬ Qualifies T x) ∧
        scan_list T Strategy.FIRST_FIT l v = ScanExit.ret (some y.1)) ∨
      ((∀ x ∈ l, ¬ Qualifies T x) ∧ scan_list T Strategy.FIRST_FIT l v = ScanExit.cont v) := by
  induction l with
  | nil => right; simp [scan_list]
  | cons x r ih =>
    by_cases hq : Qualifies T x
    · left
      refine ⟨[], x, r, rfl, hq, by simp, ?_⟩
      have hq2 : x.2.free = true ∧ x.2.size ≥ T := hq
      simp [scan_list, scan_body, hq2]
    · have hq2 : ¬ (x.2.free = true ∧ x.2.size ≥ T) := hq
      have hstep : scan_list T Strategy.FIRST_FIT (x :: r) v
          = scan_list T Strategy.FIRST_FIT r v := by
        simp [scan_list, scan_body, hq2]
      rcases ih with ⟨l1, y, l2, hl, hy, hn, hs⟩ | ⟨hn, hs⟩
      · left
        refine ⟨x :: l1, y, l2, by simp [hl], hy, ?_, by rw [hstep, hs]⟩
        intro z hz
        rcases List.mem_cons.1 hz with rfl | hz
        · exact hq
        · exact hn z hz
      · right
        refine ⟨?_, by rw [hstep, hs]⟩
        intro z hz
        rcases List.mem_cons.1 hz with rfl | hz
        · exact hq
        · exact hn z hz

theorem best_step (T : Nat) (l0 : List (Nat × Block)) (x : Nat × Block) (v : ScanVars)
    (hx : x.2.size - T < INT_MAX) (hi : BestInv T l0 v) :
    ∃ v1, scan_body x.2 x.1 T Strategy.BEST_FIT v = ScanExit.cont v1 ∧
      BestInv T (l0 ++ [x]) v1 := by
  by_cases hq : Qualifies T x
  · have hq2 : x.2.free = true ∧ x.2.size ≥ T := hq
    rcases hi with ⟨hn, hall⟩ | ⟨l1, y, l2, hl, hb, hm, hy, h1, h2⟩
    · refine ⟨{ v with min_remainder := x.2.size - T, best_block := some x.1 }, ?_, ?_⟩
      · simp [scan_body, hq2, hn, hx]
      · right
        refine ⟨l0, x, [], rfl, rfl, rfl, hq, ?_, by simp⟩
        intro z hz hzq
        exact absurd hzq (hall z hz)
    · by_cases hlt : x.2.size - T < y.2.size - T
      · refine ⟨{ v with min_remainder := x.2.size - T, best_block := some x.1 }, ?_, ?_⟩
        · simp [scan_body, hq2, hb, hm, hlt]
        · right
          refine ⟨l0, x, [], rfl, rfl, rfl, hq, ?_, by simp⟩
          intro z hz hzq
          have hy2 := hy.2
          have hx2 := hq.2
          rw [hl] at hz
          rcases List.mem_append.1 hz with hz | hz
          · have := h1 z hz hzq
            omega
          · rcases List.mem_cons.1 hz with rfl | hz
            · omega
            · have := h2 z hz hzq
              omega
      · refine ⟨{ v with min_remainder := v.min_remainder }, ?_, ?_⟩
        · simp [scan_body, hq2, hb, hm, hlt]
        · right
          refine ⟨l1, y, l2 ++ [x], by simp [hl], hb, hm, hy, h1, ?_⟩
          intro z hz hzq
          have hy2 := hy.2
          have hx2 := hq.2
          rcases List.mem_append.1 hz with hz | hz
          · exact h2 z hz hzq
          · simp only [List.mem_singleton] at hz
            subst hz
            omega
  · have hq2 : ¬ (x.2.free = true ∧ x.2.size ≥ T) := hq
    refine ⟨v, by simp [scan_body, hq2], ?_⟩
    rcases hi with ⟨hn, hall⟩ | ⟨l1, y, l2, hl, hb, hm, hy, h1, h2⟩
    · left
      refine ⟨hn, ?_⟩
      intro z hz
      rcases List.mem_append.1 hz with hz | hz
      · exact hall z hz
      · simp only [List.mem_singleton] at hz
        subst hz
        exact hq
    · right
      refine ⟨l1, y, l2 ++ [x], by simp [hl], hb, hm, hy, h1, ?_⟩
      intro z hz hzq
      rcases List.mem_append.1 hz with hz | hz
      · exact h2 z hz hzq
      · simp only [List.mem_singleton] at hz
        subst hz
        exact absurd hzq hq

theorem best_scan (T : Nat) (l l0 : List (Nat × Block)) (v : ScanVars)
    (hsz : ∀ x ∈ l, x.2.size - T < INT_MAX) (hi : BestInv T l0 v) :
    ∃ v1, scan_list T Strategy.BEST_FIT l v = ScanExit.cont v1 ∧ BestInv T (l0 ++ l) v1 := by
  induction l generalizing l0 v with
  | nil => exact ⟨v, rfl, by simpa using hi⟩
  | cons x r ih =>
    simp only [List.forall_mem_cons] at hsz
    obtain ⟨v1, hs, hi1⟩ := best_step T l0 x v hsz.1 hi
    obtain ⟨v2, hs2, hi2⟩ := ih (l0 ++ [x]) v1 hsz.2 hi1
    refine ⟨v2, ?_, by simpa using hi2⟩
    simp only [scan_list, hs]
    exact hs2

theorem worst_step (T : Nat) (l0 : List (Nat × Block)) (x : Nat × Block) (v : ScanVars)
    (g : Option (Nat × Block)) (hx : 0 < x.2.size) (hi : WorstInv T l0 v g) :
    ∃ v1, scan_body x.2 x.1 T Strategy.WORST_FIT v = ScanExit.cont v1 ∧
      WorstInv T (l0 ++ [x]) v1 (keep_larger g x) := by
  by_cases hfree : x.2.free = true
  · by_cases hsz : T ≤ x.2.size
    · have hq : Qualifies T x := ⟨hfree, hsz⟩
      have hq2 : x.2.free = true ∧ x.2.size ≥ T := hq
      rcases hi with ⟨hn, hm, hall, hg⟩ | ⟨y, hy, hw, hgy, hm, hyq⟩
      · refine ⟨{ v with max_size := x.2.size, worst_block := some x.1 }, ?_, ?_⟩
        · simp [scan_body, hq2, hm, hx]
        · right
          refine ⟨x, by simp, rfl, ?_, rfl, hq⟩
          cases g with
          | none => simp [keep_larger, hfree]
          | some y =>
            have := hg y rfl
            have hlt : y.2.size < x.2.size := by omega
            simp [keep_larger, hfree, hlt]
      · by_cases hgt : x.2.size > y.2.size
        · refine ⟨{ v with max_size := x.2.size, worst_block := some x.1 }, ?_, ?_⟩
          · simp [scan_body, hq2, hm, hgt]
          · right
            refine ⟨x, by simp, rfl, ?_, rfl, hq⟩
            simp [keep_larger, hfree, hgy, hgt]
        · refine ⟨v, ?_, ?_⟩
          · simp [scan_body, hq2, hm, hgt]
          · right
            refine ⟨y, by simp [hy], hw, ?_, hm, hyq⟩
            simp [keep_larger, hfree, hgy, hgt]
    · have hq : ¬ Qualifies T x := fun hq => hsz hq.2
      have hq2 : ¬ (x.2.free = true ∧ x.2.size ≥ T) := hq
      refine ⟨v, by simp [scan_body, hq2], ?_⟩
      rcases hi with ⟨hn, hm, hall, hg⟩ | ⟨y, hy, hw, hgy, hm, hyq⟩
      · left
        refine ⟨hn, hm, ?_, ?_⟩
        · intro z hz
          rcases List.mem_append.1 hz with hz | hz
          · exact hall z hz
          · simp only [List.mem_singleton] at hz
            subst hz
            exact hq
        · intro y hy
          cases g with
          | none =>
            simp only [keep_larger, hfree, if_true, Option.some.injEq] at hy
            subst hy
            omega
          | some y0 =>
            have := hg y0 rfl
            simp only [keep_larger, hfree, if_true] at hy
            split at hy
            · simp only [Option.some.injEq] at hy
              subst hy
              omega
            · simp only [Option.some.injEq] at hy
              subst hy
              omega
      · right
        refine ⟨y, by simp [hy], hw, ?_, hm, hyq⟩
        have hle : ¬ (x.2.size > y.2.size) := by
          have := hyq.2
          omega
        simp [keep_larger, hfree, hgy, hle]
  · have hq : ¬ Qualifies T x := fun hq => hfree hq.1
    have hq2 : ¬ (x.2.free = true ∧ x.2.size ≥ T) := hq
    refine ⟨v, by simp [scan_body, hq2], ?_⟩
    have hk : keep_larger g x = g := by simp [keep_larger, hfree]
    rw [hk]
    rcases hi with ⟨hn, hm, hall, hg⟩ | ⟨y, hy, hw, hgy, hm, hyq⟩
    · left
      refine ⟨hn, hm, ?_, hg⟩
      intro z hz
      rcases List.mem_append.1 hz with hz | hz
      · exact hall z hz
      · simp only [List.mem_singleton] at hz
        subst hz
        exact hq
    · right
      exact ⟨y, by simp [hy], hw, hgy, hm, hyq⟩

theorem worst_scan (T : Nat) (l l0 : List (Nat × Block)) (v : ScanVars)
    (g : Option (Nat × Block)) (hpos : ∀ x ∈ l, 0 < x.2.size) (hi : WorstInv T l0 v g) :
    ∃ v1, scan_list T Strategy.WORST_FIT l v = ScanExit.cont v1 ∧
      WorstInv T (l0 ++ l) v1 (l.foldl keep_larger g) := by
  induction l generalizing l0 v g with
  | nil => exact ⟨v, rfl, by simpa using hi⟩
  | cons x r ih =>
    simp only [List.forall_mem_cons] at hpos
    obtain ⟨v1, hs, hi1⟩ := worst_step T l0 x v g hpos.1 hi
    obtain ⟨v2, hs2, hi2⟩ := ih (l0 ++ [x]) v1 (keep_larger g x) hpos.2 hi1
    refine ⟨v2, ?_, by simpa using hi2⟩
    simp only [scan_list, hs]
    exact hs2

/-- FIRST_FIT on a laid-out chain. -/
theorem first_fit_rep (h : Heap) (l : List (Nat × Block)) (T : Nat) (hr : Rep h l) :
    ∃ r, find_free_block h T Strategy.FIRST_FIT = some r ∧
      (r = none ↔ ∀ x ∈ l, ¬ Qualifies T x) ∧
      (∀ o, r = some o → ∃ l1 b l2, l = l1 ++ (o, b) :: l2 ∧ Qualifies T (o, b) ∧
        ∀ x ∈ l1, ¬ Qualifies T x) := by
  rw [find_free_block_eq h l T _ hr]
  rcases first_scan T l ⟨none, none, INT_MAX, 0⟩ with ⟨l1, y, l2, hl, hy, hn, hs⟩ | ⟨hn, hs⟩
  · refine ⟨some y.1, by rw [hs]; rfl, ?_, ?_⟩
    · constructor
      · intro hc
        simp at hc
      · intro hall
        exact absurd hy (hall y (by simp [hl]))
    · intro o ho
      simp only [Option.some.injEq] at ho
      subst ho
      exact ⟨l1, y.2, l2, hl, hy, hn⟩
  · refine ⟨none, by rw [hs]; rfl, ?_, ?_⟩
    · simp only [true_iff]
      exact hn
    · intro o ho
      simp at ho

/-- BEST_FIT on a laid-out chain. -/
theorem best_fit_rep (h : Heap) (l : List (Nat × Block)) (T : Nat) (hr : Rep h l) :
    ∃ r, find_free_block h T Strategy.BEST_FIT = some r ∧
      (r = none ↔ ∀ x ∈ l, ¬ Qualifies T x) ∧
      (∀ o, r = some o → ∃ l1 b l2, l = l1 ++ (o, b) :: l2 ∧ Qualifies T (o, b) ∧
        (∀ x ∈ l1, Qualifies T x → b.size < x.2.size) ∧
        (∀ x ∈ l2, Qualifies T x → b.size ≤ x.2.size)) := by
  rw [find_free_block_eq h l T _ hr]
  have hsz : ∀ x ∈ l, x.2.size - T < INT_MAX := by
    intro x hx
    have := tiles_bounds l 0 HEAP_SIZE hr.tiles x hx
    unfold HEAP_SIZE at this
    unfold INT_MAX
    omega
  obtain ⟨v, hs, hi⟩ := best_scan T l [] ⟨none, none, INT_MAX, 0⟩ hsz (Or.inl ⟨rfl, by simp⟩)
  simp only [List.nil_append] at hi
  refine ⟨v.best_block, by rw [hs]; rfl, ?_, ?_⟩
  · rcases hi with ⟨hn, hall⟩ | ⟨l1, y, l2, hl, hb, hm, hy, h1, h2⟩
    · simp only [hn, true_iff]
      exact hall
    · constructor
      · intro hc
        rw [hb] at hc
        simp at hc
      · intro hall
        exact absurd hy (hall y (by simp [hl]))
  · intro o ho
    rcases hi with ⟨hn, hall⟩ | ⟨l1, y, l2, hl, hb, hm, hy, h1, h2⟩
    · rw [hn] at ho
      simp at ho
    · rw [hb] at ho
      simp only [Option.some.injEq] at ho
      subst ho
      exact ⟨l1, y.2, l2, hl, hy, h1, h2⟩

/-- WORST_FIT on a laid-out chain. -/
theorem worst_fit_rep (h : Heap) (l : List (Nat × Block)) (T : Nat) (hr : Rep h l) :
    ∃ r, find_free_block h T Strategy.WORST_FIT = some r ∧
      r = worst_fit_spec l T ∧
      (r = none ↔ ∀ x ∈ l, ¬ Qualifies T x) ∧
      (∀ o, r = some o → ∃ b, (o, b) ∈ l ∧ Qualifies T (o, b)) := by
  rw [find_free_block_eq h l T _ hr]
  obtain ⟨v, hs, hi⟩ := worst_scan T l [] ⟨none, none, INT_MAX, 0⟩ none hr.pos
    (Or.inl ⟨rfl, rfl, by simp, by simp⟩)
  simp only [List.nil_append] at hi
  rw [hs]
  rcases hi with ⟨hn, hm, hall, hg⟩ | ⟨y, hy, hw, hgy, hm, hyq⟩
  · refine ⟨none, by simp [scan_result, hn], ?_, ?_, ?_⟩
    · unfold worst_fit_spec largest_free
      cases hfold : l.foldl keep_larger none with
      | none => rfl
      | some y =>
        have := hg y hfold
        have hlt : ¬ (y.2.size ≥ T) := by omega
        simp [hlt]
    · simp only [true_iff]
      exact hall
    · intro o ho
      simp at ho
  · have hmem : (h.mem y.1).size ≥ T := by
      rw [hr.agrees y hy]
      exact hyq.2
    refine ⟨some y.1, by simp [scan_result, hw, hmem], ?_, ?_, ?_⟩
    · unfold worst_fit_spec largest_free
      rw [hgy]
      have := hyq.2
      simp [this]
    · constructor
      · intro hc
        simp at hc
      · intro hall
        exact absurd hyq (hall y hy)
    · intro o ho
      simp only [Option.some.injEq] at ho
      subst ho
      exact ⟨y.2, hy, hyq⟩

/-! ## Memory writes -/

@[simp]
theorem wr_size_mem (h : Heap) (p v q : Nat) :
    (wr_size h p v).mem q = if q = p then { h.mem q with size := v } else h.mem q := rfl

@[simp]
theorem wr_free_mem (h : Heap) (p : Nat) (v : Bool) (q : Nat) :
    (wr_free h p v).mem q = if q = p then { h.mem q with free := v } else h.mem q := rfl

@[simp]
theorem wr_next_mem (h : Heap) (p : Nat) (v : Option Nat) (q : Nat) :
    (wr_next h p v).mem q = if q = p then { h.mem q with next := v } else h.mem q := rfl

@[simp]
theorem set_footer_mem (h : Heap) (b : Nat) : (set_footer h b).mem = h.mem := rfl

@[simp]
theorem wr_size_head (h : Heap) (p v : Nat) :
    (wr_size h p v).heap_head = h.heap_head := rfl

@[simp]
theorem wr_free_head (h : Heap) (p : Nat) (v : Bool) :
    (wr_free h p v).heap_head = h.heap_head := rfl

@[simp]
theorem wr_next_head (h : Heap) (p : Nat) (v : Option Nat) :
    (wr_next h p v).heap_head = h.heap_head := rfl

@[simp]
theorem set_footer_head (h : Heap) (b : Nat) :
    (set_footer h b).heap_head = h.heap_head := rfl

@[simp]
theorem wr_size_strategy (h : Heap) (p v : Nat) :
    (wr_size h p v).currStrategy = h.currStrategy := rfl

@[simp]
theorem wr_free_strategy (h : Heap) (p : Nat) (v : Bool) :
    (wr_free h p v).currStrategy = h.currStrategy := rfl

@[simp]
theorem wr_next_strategy (h : Heap) (p : Nat) (v : Option Nat) :
    (wr_next h p v).currStrategy = h.currStrategy := rfl

@[simp]
theorem set_footer_strategy (h : Heap) (b : Nat) :
    (set_footer h b).currStrategy = h.currStrategy := rfl

/-- Replacing the blocks that tile the range from `a` to `e` by other blocks
that tile the same range, when memory changes inside that range only. -/
theorem rep_replace (h h1 : Heap) (l pre mid post : List (Nat × Block)) (a e : Nat)
    (hr : Rep h l) (hpre_sub : ∀ x ∈ pre, x ∈ l) (hpost_sub : ∀ x ∈ post, x ∈ l)
    (hpre : Tiles 0 pre a) (hmid : Tiles a mid e) (hpost : Tiles e post HEAP_SIZE)
    (hhead : h1.heap_head = some 0)
    (hpos : ∀ x ∈ mid, 0 < x.2.size) (hlink : ∀ x ∈ mid, x.2.next = nextOf x)
    (hag : ∀ x ∈ mid, h1.mem x.1 = x.2)
    (hframe : ∀ q, q < a ∨ e ≤ q → h1.mem q = h.mem q) :
    Rep h1 (pre ++ mid ++ post) := by
  refine ⟨hhead, ?_, ?_, ?_, ?_⟩
  · rw [List.append_assoc]
    exact (tiles_append _ _ _ _).2 ⟨a, hpre, (tiles_append _ _ _ _).2 ⟨e, hmid, hpost⟩⟩
  · intro x hx
    simp only [List.mem_append] at hx
    rcases hx with (hx | hx) | hx
    · exact hr.pos x (hpre_sub x hx)
    · exact hpos x hx
    · exact hr.pos x (hpost_sub x hx)
  · intro x hx
    simp only [List.mem_append] at hx
    rcases hx with (hx | hx) | hx
    · exact hr.link x (hpre_sub x hx)
    · exact hlink x hx
    · exact hr.link x (hpost_sub x hx)
  · intro x hx
    simp only [List.mem_append] at hx
    rcases hx with (hx | hx) | hx
    · have := (tiles_bounds _ _ _ hpre x hx).2
      have := hr.pos x (hpre_sub x hx)
      rw [hframe x.1 (by omega)]
      exact hr.agrees x (hpre_sub x hx)
    · exact hag x hx
    · have := (tiles_bounds _ _ _ hpost x hx).1
      rw [hframe x.1 (by omega)]
      exact hr.agrees x (hpost_sub x hx)

theorem init_rep : Rep (init_heap boot) [(0, ⟨HEAP_SIZE, true, none⟩)] := by
  refine ⟨rfl, ?_, ?_, ?_, ?_⟩
  · simp [Tiles]
  · simp [HEAP_SIZE]
  · simp [nextOf, ptrAt]
  · simp [init_heap]

theorem split_rep (h : Heap) (pre post : List (Nat × Block)) (x : Nat × Block) (T : Nat)
    (hr : Rep h (pre ++ x :: post)) (hT : 0 < T) (hle : T ≤ x.2.size) :
    Rep (split_block h x.1 T) (split_list pre x post T) := by
  obtain ⟨hpre, hpost, _, _⟩ := tiles_split_order _ _ _ _ _ hr.tiles
  have hx : x ∈ pre ++ x :: post := by simp
  have hmx := hr.agrees x hx
  have hbx := tiles_bounds _ _ _ hr.tiles x hx
  have hlx := hr.link x hx
  have hpx := hr.pos x hx
  have hsubpre : ∀ y ∈ pre, y ∈ pre ++ x :: post := fun y hy => List.mem_append_left _ hy
  have hsubpost : ∀ y ∈ post, y ∈ pre ++ x :: post :=
    fun y hy => List.mem_append_right _ (List.mem_cons_of_mem _ hy)
  have hmod : (T + HEADER_SIZE + FOOTER_SIZE + 1) % SIZE_MOD
      = T + HEADER_SIZE + FOOTER_SIZE + 1 := by
    apply Nat.mod_eq_of_lt
    unfold HEAP_SIZE at hbx
    unfold HEADER_SIZE FOOTER_SIZE SIZE_MOD
    omega
  by_cases hc : x.2.size ≥ T + HEADER_SIZE + FOOTER_SIZE + 1
  · have hc1 : (h.mem x.1).size ≥ (T + HEADER_SIZE + FOOTER_SIZE + 1) % SIZE_MOD := by
      rw [hmod, hmx]
      exact hc
    have e1 : split_list pre x post T = pre ++ [(x.1, ⟨T, false, some (x.1 + T)⟩),
        (x.1 + T, ⟨x.2.size - T, true, x.2.next⟩)] ++ post := by
      simp [split_list, hc]
    rw [e1]
    unfold split_block
    rw [if_pos hc1]
    have hsz : T + HEADER_SIZE + FOOTER_SIZE + 1 ≤ x.2.size := hc
    have hne : x.1 + T ≠ x.1 := by omega
    have hne2 : x.1 ≠ x.1 + T := by omega
    refine rep_replace h _ (pre ++ x :: post) pre _ post x.1 (x.1 + x.2.size) hr hsubpre
      hsubpost hpre ?_ hpost ?_ ?_ ?_ ?_ ?_
    · simp only [Tiles, true_and]
      omega
    · simp [hr.head]
    · simp only [List.mem_cons, List.mem_singleton, List.not_mem_nil, or_false]
      rintro y (rfl | rfl)
      · exact hT
      · simp only []
        unfold HEADER_SIZE FOOTER_SIZE at hsz
        omega
    · simp only [List.mem_cons, List.mem_singleton, List.not_mem_nil, or_false]
      rintro y (rfl | rfl)
      · have : ¬ (x.1 + T = HEAP_SIZE) := by omega
        simp [nextOf, ptrAt, this]
      · rw [hlx]
        simp only [nextOf]
        congr 1
        omega
    · simp only [List.mem_cons, List.mem_singleton, List.not_mem_nil, or_false]
      rintro y (rfl | rfl)
      · simp [hne2, hmx]
      · simp [hne, hne2, hmx]
    · intro q hq
      have h1 : q ≠ x.1 := by omega
      have h2 : q ≠ x.1 + T := by omega
      simp [h1, h2]
  · have hc1 : ¬ ((h.mem x.1).size ≥ (T + HEADER_SIZE + FOOTER_SIZE + 1) % SIZE_MOD) := by
      rw [hmod, hmx]
      exact hc
    have e1 : split_list pre x post T
        = pre ++ [(x.1, ⟨x.2.size, false, x.2.next⟩)] ++ post := by
      simp [split_list, hc]
    rw [e1]
    unfold split_block
    rw [if_neg hc1]
    refine rep_replace h _ (pre ++ x :: post) pre _ post x.1 (x.1 + x.2.size) hr hsubpre
      hsubpost hpre ?_ hpost ?_ ?_ ?_ ?_ ?_
    · simp [Tiles]
    · simp [hr.head]
    · simp only [List.mem_singleton]
      rintro y rfl
      exact hpx
    · simp only [List.mem_singleton]
      rintro y rfl
      exact hlx
    · simp only [List.mem_singleton]
      rintro y rfl
      simp [hmx]
    · intro q hq
      have h1 : q ≠ x.1 := by omega
      simp [h1]

/-! ## Release and coalescing -/

theorem merge_block_eq (h : Heap) (b : Nat) :
    merge_block h (some b)
      = (get_prev_block (merge_forward h b) (some b)).map
          (merge_backward (merge_forward h b) b) := by
  unfold merge_block
  simp only []
  change (match get_prev_block (merge_forward h b) (some b) with
    | none => none
    | some none => some (merge_forward h b)
    | some (some prev) =>
      if ((merge_forward h b).mem prev).free ∧
          prev + ((merge_forward h b).mem prev).size = b then
        some (set_footer (wr_next (wr_size (merge_forward h b) prev
          ((((merge_forward h b).mem prev).size + ((merge_forward h b).mem b).size) % SIZE_MOD))
          prev ((wr_size (merge_forward h b) prev
          ((((merge_forward h b).mem prev).size + ((merge_forward h b).mem b).size)
            % SIZE_MOD)).mem b).next) prev)
      else some (merge_forward h b)) = _
  cases get_prev_block (merge_forward h b) (some b) with
  | none => rfl
  | some r =>
    cases r with
    | none => rfl
    | some prev =>
      simp only [Option.map, merge_backward]
      split <;> rfl

theorem walk_append (mem : Nat → Block) (l1 l2 : List (Nat × Block)) (p q : Option Nat) :
    Walk mem p (l1 ++ l2) q ↔ ∃ m, Walk mem p l1 m ∧ Walk mem m l2 q := by
  induction l1 generalizing p with
  | nil => simp [Walk]
  | cons x r ih =>
    show (p = some x.1 ∧ mem x.1 = x.2 ∧ Walk mem x.2.next (r ++ l2) q) ↔
      ∃ m, (p = some x.1 ∧ mem x.1 = x.2 ∧ Walk mem x.2.next r m) ∧ Walk mem m l2 q
    rw [ih]
    constructor
    · rintro ⟨h1, h2, m, h3, h4⟩
      exact ⟨m, ⟨h1, h2, h3⟩, h4⟩
    · rintro ⟨m, ⟨h1, h2, h3⟩, h4⟩
      exact ⟨h1, h2, m, h3, h4⟩

theorem get_prev_loop_eq (mem : Nat → Block) (o : Nat) (pre : List (Nat × Block))
    (p prev : Option Nat) (fuel : Nat) (hw : Walk mem p pre (some o))
    (hne : ∀ y ∈ pre, y.1 ≠ o) (hf : pre.length < fuel) :
    get_prev_loop mem (some o) fuel p prev = some (last_off pre prev) := by
  induction pre generalizing p prev fuel with
  | nil =>
    simp only [Walk] at hw
    subst hw
    cases fuel with
    | zero => simp at hf
    | succ n => simp [get_prev_loop, last_off]
  | cons y r ih =>
    obtain ⟨hp, hm, hw2⟩ := hw
    subst hp
    cases fuel with
    | zero => simp at hf
    | succ n =>
      simp only [List.length_cons, Nat.add_lt_add_iff_right] at hf
      have hy : y.1 ≠ o := hne y (List.mem_cons_self _ _)
      simp only [get_prev_loop, Option.some.injEq, hy, if_false, hm, last_off]
      exact ih _ _ _ hw2 (fun z hz => hne z (List.mem_cons_of_mem _ hz)) hf

theorem last_off_concat (pre : List (Nat × Block)) (q : Nat × Block) (prev : Option Nat) :
    last_off (pre ++ [q]) prev = some q.1 := by
  induction pre generalizing prev with
  | nil => rfl
  | cons y r ih => exact ih _

theorem get_prev_rep (h : Heap) (pre rest : List (Nat × Block)) (x : Nat × Block)
    (hr : Rep h (pre ++ x :: rest)) :
    get_prev_block h (some x.1) = some (last_off pre none) := by
  have hw := walk_of_tiles h.mem _ 0 hr.tiles hr.pos hr.link hr.agrees
  have h0 : ptrAt 0 = some 0 := by decide
  rw [h0] at hw
  obtain ⟨m, hw1, hw2⟩ := (walk_append _ _ _ _ _).1 hw
  have hm : m = some x.1 := hw2.1
  subst hm
  obtain ⟨hpre, _, hlt, _⟩ := tiles_split_order _ _ _ _ _ hr.tiles
  have hlen := tiles_length _ 0 HEAP_SIZE hr.tiles hr.pos
  unfold get_prev_block
  rw [hr.head]
  apply get_prev_loop_eq _ _ _ _ _ _ hw1
  · intro y hy
    have := hlt y hy
    have := hr.pos y (List.mem_append_left _ hy)
    omega
  · simp only [List.length_append, List.length_cons] at hlen
    unfold FUEL
    omega

theorem merged_next_head (x : Nat × Block) (post : List (Nat × Block)) :
    ∃ cur rest, merged_next x post = cur :: rest ∧ cur.1 = x.1 := by
  cases post with
  | nil => exact ⟨x, [], rfl, rfl⟩
  | cons n post0 =>
    by_cases hn : n.2.free = true
    · exact ⟨(x.1, ⟨x.2.size + n.2.size, x.2.free, n.2.next⟩), post0,
        by simp [merged_next, hn], rfl⟩
    · exact ⟨x, n :: post0, by simp [merged_next, hn], rfl⟩

theorem merge_forward_strategy (h : Heap) (b : Nat) :
    (merge_forward h b).currStrategy = h.currStrategy := by
  unfold merge_forward
  split
  · split <;> simp
  · rfl

theorem merge_backward_strategy (h : Heap) (b : Nat) (prev : Option Nat) :
    (merge_backward h b prev).currStrategy = h.currStrategy := by
  cases prev with
  | none => rfl
  | some q =>
    simp only [merge_backward]
    split <;> simp

theorem merge_forward_rep (h : Heap) (pre post : List (Nat × Block)) (x : Nat × Block)
    (hr : Rep h (pre ++ x :: post)) :
    Rep (merge_forward h x.1) (pre ++ merged_next x post) := by
  obtain ⟨hpre, hpost, _, _⟩ := tiles_split_order _ _ _ _ _ hr.tiles
  have hx : x ∈ pre ++ x :: post := by simp
  have hmx := hr.agrees x hx
  have hlx := hr.link x hx
  have hpx := hr.pos x hx
  cases post with
  | nil =>
    simp only [Tiles] at hpost
    have hnone : (h.mem x.1).next = none := by
      rw [hmx, hlx]
      simp [nextOf, ptrAt, hpost]
    have : merge_forward h x.1 = h := by
      unfold merge_forward
      rw [hnone]
    rw [this]
    exact hr
  | cons n post0 =>
    obtain ⟨hn1, hpost0⟩ := hpost
    have hn : n ∈ pre ++ x :: n :: post0 := by simp
    have hmn := hr.agrees n hn
    have hpn := hr.pos n hn
    have hbn := tiles_bounds _ _ _ hr.tiles n hn
    have hsome : (h.mem x.1).next = some n.1 := by
      rw [hmx, hlx]
      have : ¬ (x.1 + x.2.size = HEAP_SIZE) := by omega
      simp [nextOf, ptrAt, this, hn1]
    by_cases hfree : n.2.free = true
    · have hcond : (h.mem n.1).free = true ∧ x.1 + (h.mem x.1).size = n.1 := by
        rw [hmn, hmx]
        exact ⟨hfree, hn1.symm⟩
      have e1 : pre ++ merged_next x (n :: post0)
          = pre ++ [(x.1, ⟨x.2.size + n.2.size, x.2.free, n.2.next⟩)] ++ post0 := by
        simp [merged_next, hfree]
      rw [e1]
      unfold merge_forward
      rw [hsome]
      simp only []
      rw [if_pos hcond]
      have hmod : (x.2.size + n.2.size) % SIZE_MOD = x.2.size + n.2.size := by
        apply Nat.mod_eq_of_lt
        unfold HEAP_SIZE at hbn
        unfold SIZE_MOD
        omega
      have hne : n.1 ≠ x.1 := by omega
      refine rep_replace h _ (pre ++ x :: n :: post0) pre _ post0 x.1 (n.1 + n.2.size) hr
        (fun y hy => List.mem_append_left _ hy)
        (fun y hy => List.mem_append_right _
          (List.mem_cons_of_mem _ (List.mem_cons_of_mem _ hy)))
        hpre ?_ (by rw [hn1]; exact hpost0) ?_ ?_ ?_ ?_ ?_
      · simp only [Tiles, true_and]
        omega
      · simp [hr.head]
      · simp only [List.mem_singleton]
        rintro y rfl
        simp only []
        omega
      · simp only [List.mem_singleton]
        rintro y rfl
        rw [hr.link n hn]
        simp only [nextOf]
        congr 1
        omega
      · simp only [List.mem_singleton]
        rintro y rfl
        simp [hne, hmx, hmn, hmod]
      · intro q hq
        have h1 : q ≠ x.1 := by omega
        simp [h1]
    · have hcond : ¬ ((h.mem n.1).free = true ∧ x.1 + (h.mem x.1).size = n.1) := by
        rw [hmn]
        exact fun hc => hfree hc.1
      have e1 : pre ++ merged_next x (n :: post0) = pre ++ x :: n :: post0 := by
        simp [merged_next, hfree]
      rw [e1]
      have : merge_forward h x.1 = h := by
        unfold merge_forward
        rw [hsome]
        simp only []
        rw [if_neg hcond]
      rw [this]
      exact hr

theorem merge_backward_rep (h : Heap) (pre0 rest : List (Nat × Block)) (q cur : Nat × Block)
    (hr : Rep h (pre0 ++ q :: cur :: rest)) :
    Rep (merge_backward h cur.1 (some q.1)) (merged_prev (pre0 ++ [q]) (cur :: rest)) := by
  obtain ⟨hpre, hpost, _, _⟩ := tiles_split_order _ _ _ _ _ hr.tiles
  obtain ⟨hc1, hrest⟩ := hpost
  have hq : q ∈ pre0 ++ q :: cur :: rest := by simp
  have hc : cur ∈ pre0 ++ q :: cur :: rest := by simp
  have hmq := hr.agrees q hq
  have hmc := hr.agrees cur hc
  have hpq := hr.pos q hq
  have hpc := hr.pos cur hc
  have hbc := tiles_bounds _ _ _ hr.tiles cur hc
  by_cases hfree : q.2.free = true
  · have hcond : (h.mem q.1).free = true ∧ q.1 + (h.mem q.1).size = cur.1 := by
      rw [hmq]
      exact ⟨hfree, hc1.symm⟩
    have e1 : merged_prev (pre0 ++ [q]) (cur :: rest)
        = pre0 ++ [(q.1, ⟨q.2.size + cur.2.size, q.2.free, cur.2.next⟩)] ++ rest := by
      simp [merged_prev, hfree]
    rw [e1]
    unfold merge_backward
    simp only []
    rw [if_pos hcond]
    have hmod : (q.2.size + cur.2.size) % SIZE_MOD = q.2.size + cur.2.size := by
      apply Nat.mod_eq_of_lt
      unfold HEAP_SIZE at hbc
      unfold SIZE_MOD
      omega
    have hne : cur.1 ≠ q.1 := by omega
    refine rep_replace h _ (pre0 ++ q :: cur :: rest) pre0 _ rest q.1 (cur.1 + cur.2.size) hr
      (fun y hy => List.mem_append_left _ hy)
      (fun y hy => List.mem_append_right _
        (List.mem_cons_of_mem _ (List.mem_cons_of_mem _ hy)))
      hpre ?_ (by rw [hc1]; exact hrest) ?_ ?_ ?_ ?_ ?_
    · simp only [Tiles, true_and]
      omega
    · simp [hr.head]
    · simp only [List.mem_singleton]
      rintro y rfl
      simp only []
      omega
    · simp only [List.mem_singleton]
      rintro y rfl
      rw [hr.link cur hc]
      simp only [nextOf]
      congr 1
      omega
    · simp only [List.mem_singleton]
      rintro y rfl
      simp [hne, hmq, hmc, hmod]
    · intro z hz
      have h1 : z ≠ q.1 := by omega
      simp [h1]
  · have hcond : ¬ ((h.mem q.1).free = true ∧ q.1 + (h.mem q.1).size = cur.1) := by
      rw [hmq]
      exact fun hc => hfree hc.1
    have e1 : merged_prev (pre0 ++ [q]) (cur :: rest) = pre0 ++ q :: cur :: rest := by
      simp [merged_prev, hfree]
    rw [e1]
    have : merge_backward h cur.1 (some q.1) = h := by
      unfold merge_backward
      simp only []
      rw [if_neg hcond]
    rw [this]
    exact hr

theorem free_rep (h : Heap) (pre post : List (Nat × Block)) (x : Nat × Block)
    (hr : Rep h (pre ++ x :: post)) (hx : x.2.free = false) :
    ∃ h1, free_block h (some (x.1 + HEADER_SIZE)) = some h1 ∧
      Rep h1 (released pre x post) ∧ h1.currStrategy = h.currStrategy := by
  obtain ⟨hpre, hpost, _, _⟩ := tiles_split_order _ _ _ _ _ hr.tiles
  have hxm : x ∈ pre ++ x :: post := by simp
  have hmx := hr.agrees x hxm
  have hr0 : Rep (wr_free h x.1 true) (pre ++ [(x.1, ⟨x.2.size, true, x.2.next⟩)] ++ post) := by
    refine rep_replace h _ (pre ++ x :: post) pre _ post x.1 (x.1 + x.2.size) hr
      (fun y hy => List.mem_append_left _ hy)
      (fun y hy => List.mem_append_right _ (List.mem_cons_of_mem _ hy))
      hpre ?_ hpost ?_ ?_ ?_ ?_ ?_
    · simp [Tiles]
    · simp [hr.head]
    · simp only [List.mem_singleton]
      rintro y rfl
      exact hr.pos x hxm
    · simp only [List.mem_singleton]
      rintro y rfl
      exact hr.link x hxm
    · simp only [List.mem_singleton]
      rintro y rfl
      simp [hmx]
    · intro q hq
      have := hr.pos x hxm
      have h1 : q ≠ x.1 := by omega
      simp [h1]
  simp only [List.append_assoc, List.singleton_append] at hr0
  have hrf := merge_forward_rep _ pre post (x.1, ⟨x.2.size, true, x.2.next⟩) hr0
  simp only [] at hrf
  obtain ⟨cur, rest, hmn, hcur⟩ := merged_next_head (x.1, ⟨x.2.size, true, x.2.next⟩) post
  simp only [] at hcur
  have hfree : ¬ ((h.mem (x.1 + HEADER_SIZE - HEADER_SIZE)).free = true) := by
    rw [Nat.add_sub_cancel, hmx, hx]
    simp
  have hge : ¬ (x.1 + HEADER_SIZE < HEADER_SIZE) := by omega
  unfold free_block
  simp only [hge, if_false, hfree]
  rw [Nat.add_sub_cancel, merge_block_eq]
  unfold released
  rw [hmn] at hrf ⊢
  have hgp := get_prev_rep _ pre rest cur hrf
  rw [hcur] at hgp
  rw [hgp]
  simp only [Option.map]
  refine ⟨_, rfl, ?_, ?_⟩
  · rcases List.eq_nil_or_concat pre with hnil | ⟨pre0, q, hq⟩
    · subst hnil
      have : merged_prev [] (cur :: rest) = cur :: rest := by simp [merged_prev]
      rw [this]
      simp only [last_off, merge_backward]
      refine ⟨hrf.head, ?_, ?_, ?_, ?_⟩
      · simpa using hrf.tiles
      · simpa using hrf.pos
      · simpa using hrf.link
      · simpa using hrf.agrees
    · rw [List.concat_eq_append] at hq
      subst hq
      rw [last_off_concat]
      rw [List.append_assoc, List.singleton_append] at hrf
      have := merge_backward_rep _ pre0 rest q cur hrf
      rw [hcur] at this
      exact ⟨this.head, this.tiles, this.pos, this.link, this.agrees⟩
  · simp only []
    rw [merge_backward_strategy, merge_forward_strategy]
    rfl

/-! ## The invariant of the reachable states -/

theorem find_sound (h : Heap) (l : List (Nat × Block)) (T : Nat) (s : Strategy)
    (hr : Rep h l) :
    ∃ r, find_free_block h T s = some r ∧
      (r = none ↔ ∀ x ∈ l, ¬ Qualifies T x) ∧
      ∀ o, r = some o → ∃ pre b post, l = pre ++ (o, b) :: post ∧ Qualifies T (o, b) := by
  cases s with
  | FIRST_FIT =>
    obtain ⟨r, h1, h2, h3⟩ := first_fit_rep h l T hr
    refine ⟨r, h1, h2, ?_⟩
    intro o ho
    obtain ⟨l1, b, l2, hl, hq, _⟩ := h3 o ho
    exact ⟨l1, b, l2, hl, hq⟩
  | BEST_FIT =>
    obtain ⟨r, h1, h2, h3⟩ := best_fit_rep h l T hr
    refine ⟨r, h1, h2, ?_⟩
    intro o ho
    obtain ⟨l1, b, l2, hl, hq, _⟩ := h3 o ho
    exact ⟨l1, b, l2, hl, hq⟩
  | WORST_FIT =>
    obtain ⟨r, h1, _, h2, h3⟩ := worst_fit_rep h l T hr
    refine ⟨r, h1, h2, ?_⟩
    intro o ho
    obtain ⟨b, hb, hq⟩ := h3 o ho
    obtain ⟨l1, l2, hl⟩ := List.append_of_mem hb
    exact ⟨l1, b, l2, hl, hq⟩

theorem inv_init : Inv (init_heap boot) [(0, ⟨HEAP_SIZE, true, none⟩)] [] := by
  refine ⟨init_rep, ?_, ?_, ?_, List.nodup_nil, ?_⟩
  · simp [HEAP_SIZE, HEADER_SIZE, FOOTER_SIZE]
  · simp [HEAP_SIZE]
  · simp
  · simp

theorem inv_split (h : Heap) (pre post : List (Nat × Block)) (x : Nat × Block)
    (out : List Nat) (T : Nat) (hi : Inv h (pre ++ x :: post) out) (hq : Qualifies T x)
    (hT : HEADER_SIZE + FOOTER_SIZE + 1 ≤ T) :
    Inv (split_block h x.1 T) (split_list pre x post T) ((x.1 + HEADER_SIZE) :: out) := by
  have hr1 := split_rep h pre post x T hi.rep (by omega) hq.2
  obtain ⟨hpre, hpost, hlo, hhi⟩ := tiles_split_order _ _ _ _ _ hi.rep.tiles
  have hxm : x ∈ pre ++ x :: post := by simp
  have hsubpre : ∀ y ∈ pre, y ∈ pre ++ x :: post := fun y hy => List.mem_append_left _ hy
  have hsubpost : ∀ y ∈ post, y ∈ pre ++ x :: post :=
    fun y hy => List.mem_append_right _ (List.mem_cons_of_mem _ hy)
  have hpospre : ∀ y ∈ pre, 0 < y.2.size := fun y hy => hi.rep.pos y (hsubpre y hy)
  have hxout : x.1 + HEADER_SIZE ∉ out := by
    intro hc
    have := (hi.acc x hxm).2 hc
    rw [hq.1] at this
    simp at this
  have hxT := hq.2
  -- old blocks other than `x` keep their place in the new chain
  have hold : ∀ y, y ∈ pre ∨ y ∈ post → y ∈ split_list pre x post T := by
    intro y hy
    unfold split_list
    split
    · rcases hy with hy | hy
      · simp [hy]
      · simp [hy]
    · rcases hy with hy | hy
      · simp [hy]
      · simp [hy]
  have hpx := hi.rep.pos x hxm
  have hne : ∀ y, y ∈ pre ∨ y ∈ post → y.1 ≠ x.1 ∧ (T < x.2.size → y.1 ≠ x.1 + T) := by
    intro y hy
    rcases hy with hy | hy
    · have := hlo y hy
      have := hpospre y hy
      omega
    · have := hhi y hy
      omega
  by_cases hc : x.2.size ≥ T + HEADER_SIZE + FOOTER_SIZE + 1
  · have e1 : split_list pre x post T = pre ++ (x.1, ⟨T, false, some (x.1 + T)⟩) ::
        (x.1 + T, ⟨x.2.size - T, true, x.2.next⟩) :: post := by
      simp [split_list, hc]
    have hmem : ∀ y, y ∈ split_list pre x post T ↔ (y ∈ pre ∨ y ∈ post) ∨
        y = (x.1, ⟨T, false, some (x.1 + T)⟩) ∨
        y = (x.1 + T, ⟨x.2.size - T, true, x.2.next⟩) := by
      intro y
      rw [e1]
      simp only [List.mem_append, List.mem_cons]
      tauto
    refine ⟨hr1, ?_, ?_, ?_, ?_, ?_⟩
    · intro y hy
      rcases (hmem y).1 hy with hy | rfl | rfl
      · exact hi.minsize y (hy.elim (hsubpre y) (hsubpost y))
      · exact hT
      · simp only []
        have hc2 : T + HEADER_SIZE + FOOTER_SIZE + 1 ≤ x.2.size := hc
        omega
    · intro u hu v hv huv hff
      rcases (hmem u).1 hu with hu | rfl | rfl
      · rcases (hmem v).1 hv with hv | rfl | rfl
        · exact hi.noadj u (hu.elim (hsubpre u) (hsubpost u)) v
            (hv.elim (hsubpre v) (hsubpost v)) huv hff
        · simp at hff
        · simp only [] at huv
          rcases hu with hu | hu
          · have := hlo u hu
            omega
          · have := hhi u hu
            have := hi.rep.pos u (hsubpost u hu)
            omega
      · simp at hff
      · rcases (hmem v).1 hv with hv | rfl | rfl
        · simp only [] at huv
          rcases hv with hv | hv
          · have := hlo v hv
            have := hpospre v hv
            omega
          · refine hi.noadj x hxm v (hsubpost v hv) (by omega) ⟨hq.1, hff.2⟩
        · simp at hff
        · simp only [] at huv
          have hc2 : T + HEADER_SIZE + FOOTER_SIZE + 1 ≤ x.2.size := hc
          omega
    · intro y hy
      rcases (hmem y).1 hy with hy | rfl | rfl
      · have h1 := hi.acc y (hy.elim (hsubpre y) (hsubpost y))
        have h2 := (hne y hy).1
        simp only [List.mem_cons]
        rw [h1]
        constructor
        · intro hh
          exact Or.inr hh
        · rintro (hh | hh)
          · omega
          · exact hh
      · simp
      · simp only [List.mem_cons, Bool.true_eq_false, false_iff, not_or]
        refine ⟨by omega, ?_⟩
        intro hc3
        obtain ⟨z, hz, hz2⟩ := hi.owned _ hc3
        have hc2 : T + HEADER_SIZE + FOOTER_SIZE + 1 ≤ x.2.size := hc
        rcases List.mem_append.1 hz with hz | hz
        · have := (hne z (Or.inl hz)).2 (by omega)
          omega
        · rcases List.mem_cons.1 hz with hzx | hz
          · rw [hzx] at hz2
            omega
          · have := (hne z (Or.inr hz)).2 (by omega)
            omega
    · exact List.nodup_cons.2 ⟨hxout, hi.nodup⟩
    · intro p hp
      rcases List.mem_cons.1 hp with rfl | hp2
      · exact ⟨_, (hmem _).2 (Or.inr (Or.inl rfl)), rfl⟩
      · obtain ⟨z, hz, hz2⟩ := hi.owned p hp2
        rcases List.mem_append.1 hz with hz | hz
        · exact ⟨z, hold z (Or.inl hz), hz2⟩
        · rcases List.mem_cons.1 hz with hzx | hz
          · rw [hzx] at hz2
            rw [hz2] at hxout
            exact absurd hp2 hxout
          · exact ⟨z, hold z (Or.inr hz), hz2⟩
  · have e1 : split_list pre x post T = pre ++ (x.1, ⟨x.2.size, false, x.2.next⟩) :: post := by
      simp [split_list, hc]
    have hmem : ∀ y, y ∈ split_list pre x post T ↔ (y ∈ pre ∨ y ∈ post) ∨
        y = (x.1, ⟨x.2.size, false, x.2.next⟩) := by
      intro y
      rw [e1]
      simp only [List.mem_append, List.mem_cons]
      tauto
    refine ⟨hr1, ?_, ?_, ?_, ?_, ?_⟩
    · intro y hy
      rcases (hmem y).1 hy with hy | rfl
      · exact hi.minsize y (hy.elim (hsubpre y) (hsubpost y))
      · exact hi.minsize x hxm
    · intro u hu v hv huv hff
      rcases (hmem u).1 hu with hu | rfl
      · rcases (hmem v).1 hv with hv | rfl
        · exact hi.noadj u (hu.elim (hsubpre u) (hsubpost u)) v
            (hv.elim (hsubpre v) (hsubpost v)) huv hff
        · simp at hff
      · simp at hff
    · intro y hy
      rcases (hmem y).1 hy with hy | rfl
      · have h1 := hi.acc y (hy.elim (hsubpre y) (hsubpost y))
        have h2 := (hne y hy).1
        simp only [List.mem_cons]
        rw [h1]
        constructor
        · intro hh
          exact Or.inr hh
        · rintro (hh | hh)
          · omega
          · exact hh
      · simp
    · exact List.nodup_cons.2 ⟨hxout, hi.nodup⟩
    · intro p hp
      rcases List.mem_cons.1 hp with rfl | hp2
      · exact ⟨_, (hmem _).2 (Or.inr rfl), rfl⟩
      · obtain ⟨z, hz, hz2⟩ := hi.owned p hp2
        rcases List.mem_append.1 hz with hz | hz
        · exact ⟨z, hold z (Or.inl hz), hz2⟩
        · rcases List.mem_cons.1 hz with hzx | hz
          · rw [hzx] at hz2
            rw [hz2] at hxout
            exact absurd hp2 hxout
          · exact ⟨z, hold z (Or.inr hz), hz2⟩

/-- Replacing a run `mid` of the chain, made of the allocated block `x` and of
free blocks, by one free block `M` of the same extent keeps the invariant, when
the blocks that touch the run on either side are allocated. -/
theorem inv_merge (h h1 : Heap) (pre mid post : List (Nat × Block)) (out : List Nat)
    (x M : Nat × Block) (hi : Inv h (pre ++ mid ++ post) out)
    (hr1 : Rep h1 (pre ++ [M] ++ post))
    (hM1 : ∀ y0 r, mid = y0 :: r → M.1 = y0.1)
    (hMs : M.2.size = (mid.map (fun y => y.2.size)).sum) (hMf : M.2.free = true)
    (hx : x ∈ mid) (hothers : ∀ y ∈ mid, y ≠ x → y.2.free = true)
    (hleft : ∀ y ∈ pre, y.1 + y.2.size = M.1 → y.2.free = false)
    (hright : ∀ y ∈ post, y.1 = M.1 + M.2.size → y.2.free = false) :
    Inv h1 (pre ++ [M] ++ post) (out.erase (x.1 + HEADER_SIZE)) := by
  obtain ⟨e, ht1, hpost⟩ := (tiles_append _ _ _ _).1 hi.rep.tiles
  obtain ⟨a, hpre, hmid⟩ := (tiles_append _ _ _ _).1 ht1
  have hsubpre : ∀ y ∈ pre, y ∈ pre ++ mid ++ post := fun y hy => by simp [hy]
  have hsubmid : ∀ y ∈ mid, y ∈ pre ++ mid ++ post := fun y hy => by simp [hy]
  have hsubpost : ∀ y ∈ post, y ∈ pre ++ mid ++ post := fun y hy => by simp [hy]
  obtain ⟨y0, r, hmid0⟩ : ∃ y0 r, mid = y0 :: r := by
    cases mid with
    | nil => simp at hx
    | cons y0 r => exact ⟨y0, r, rfl⟩
  have hMa : M.1 = a := by
    rw [hM1 y0 r hmid0]
    rw [hmid0] at hmid
    exact hmid.1
  have hMe : M.1 + M.2.size = e := by
    rw [hMa, hMs]
    exact tiles_sum _ _ _ hmid
  have hxb := tiles_bounds _ _ _ hmid x hx
  have hxs := hi.minsize x (hsubmid x hx)
  have hlo : ∀ y ∈ pre, y.1 + y.2.size ≤ a ∧ 0 < y.2.size := fun y hy =>
    ⟨(tiles_bounds _ _ _ hpre y hy).2, hi.rep.pos y (hsubpre y hy)⟩
  have hhi : ∀ y ∈ post, e ≤ y.1 ∧ 0 < y.2.size := fun y hy =>
    ⟨(tiles_bounds _ _ _ hpost y hy).1, hi.rep.pos y (hsubpost y hy)⟩
  have hmem : ∀ y, y ∈ pre ++ [M] ++ post ↔ y ∈ pre ∨ y = M ∨ y ∈ post := by
    intro y
    simp only [List.mem_append, List.mem_singleton]
    tauto
  refine ⟨hr1, ?_, ?_, ?_, hi.nodup.erase _, ?_⟩
  · intro y hy
    rcases (hmem y).1 hy with hy | rfl | hy
    · exact hi.minsize y (hsubpre y hy)
    · omega
    · exact hi.minsize y (hsubpost y hy)
  · intro u hu v hv huv hff
    rcases (hmem u).1 hu with hu1 | hu1 | hu1
    · rcases (hmem v).1 hv with hv1 | hv1 | hv1
      · exact hi.noadj u (hsubpre u hu1) v (hsubpre v hv1) huv hff
      · rw [hv1] at huv
        have := hleft u hu1 huv
        rw [this] at hff
        simp at hff
      · exact hi.noadj u (hsubpre u hu1) v (hsubpost v hv1) huv hff
    · rw [hu1] at huv
      rcases (hmem v).1 hv with hv1 | hv1 | hv1
      · have := hlo v hv1
        omega
      · rw [hv1] at huv
        omega
      · have := hright v hv1 huv.symm
        rw [this] at hff
        simp at hff
    · rcases (hmem v).1 hv with hv1 | hv1 | hv1
      · exact hi.noadj u (hsubpost u hu1) v (hsubpre v hv1) huv hff
      · rw [hv1] at huv
        have := hhi u hu1
        omega
      · exact hi.noadj u (hsubpost u hu1) v (hsubpost v hv1) huv hff
  · intro y hy
    rw [hi.nodup.mem_erase_iff]
    rcases (hmem y).1 hy with hy | rfl | hy
    · rw [hi.acc y (hsubpre y hy)]
      have := hlo y hy
      constructor
      · intro hh
        exact ⟨by omega, hh⟩
      · exact fun hh => hh.2
    · rw [hMf]
      simp only [Bool.true_eq_false, false_iff, not_and]
      intro hne hc
      have hy0 : y0 ∈ mid := by simp [hmid0]
      have hy0x : y0 ≠ x := by
        intro heq
        rw [hM1 y0 r hmid0, heq] at hne
        exact hne rfl
      have hf := hothers y0 hy0 hy0x
      have := (hi.acc y0 (hsubmid y0 hy0)).2 (by rw [← hM1 y0 r hmid0]; exact hc)
      rw [hf] at this
      simp at this
    · rw [hi.acc y (hsubpost y hy)]
      have := hhi y hy
      constructor
      · intro hh
        exact ⟨by omega, hh⟩
      · exact fun hh => hh.2
  · intro p hp
    rw [hi.nodup.mem_erase_iff] at hp
    obtain ⟨z, hz, hz2⟩ := hi.owned p hp.2
    simp only [List.mem_append] at hz
    rcases hz with (hz | hz) | hz
    · exact ⟨z, (hmem z).2 (Or.inl hz), hz2⟩
    · have hzx : z ≠ x := by
        intro heq
        rw [heq] at hz2
        exact hp.1 hz2.symm
      have hf := hothers z hz hzx
      have := (hi.acc z (hsubmid z hz)).2 (by rw [hz2]; exact hp.2)
      rw [hf] at this
      simp at this
    · exact ⟨z, (hmem z).2 (Or.inr (Or.inr hz)), hz2⟩

theorem merged_next_cases (x : Nat × Block) (post : List (Nat × Block)) :
    (merged_next x post = x :: post ∧ ∀ n post0, post = n :: post0 → n.2.free = false) ∨
    (∃ n post0, post = n :: post0 ∧ n.2.free = true ∧
      merged_next x post = (x.1, ⟨x.2.size + n.2.size, x.2.free, n.2.next⟩) :: post0) := by
  cases post with
  | nil => left; exact ⟨rfl, by simp⟩
  | cons n post0 =>
    by_cases hn : n.2.free = true
    · right
      exact ⟨n, post0, rfl, hn, by simp [merged_next, hn]⟩
    · left
      refine ⟨by simp [merged_next, hn], ?_⟩
      intro n1 p1 heq
      simp only [List.cons.injEq] at heq
      rw [← heq.1]
      simpa using hn

theorem merged_prev_cases (pre rest : List (Nat × Block)) (cur : Nat × Block) :
    (merged_prev pre (cur :: rest) = pre ++ cur :: rest ∧
      ∀ pre0 q, pre = pre0 ++ [q] → q.2.free = false) ∨
    (∃ pre0 q, pre = pre0 ++ [q] ∧ q.2.free = true ∧
      merged_prev pre (cur :: rest)
        = pre0 ++ (q.1, ⟨q.2.size + cur.2.size, q.2.free, cur.2.next⟩) :: rest) := by
  rcases List.eq_nil_or_concat pre with hnil | ⟨pre0, q, hq⟩
  · subst hnil
    left
    exact ⟨by simp [merged_prev], by simp⟩
  · rw [List.concat_eq_append] at hq
    subst hq
    by_cases hf : q.2.free = true
    · right
      exact ⟨pre0, q, rfl, hf, by simp [merged_prev, hf]⟩
    · left
      refine ⟨by simp [merged_prev, hf], ?_⟩
      intro p1 q1 heq
      have := List.append_inj_right' heq rfl
      simp only [List.cons.injEq, and_true] at this
      rw [← this]
      simpa using hf

theorem left_adj (pre : List (Nat × Block)) (a : Nat) (ht : Tiles 0 pre a)
    (hpos : ∀ y ∈ pre, 0 < y.2.size)
    (hq : ∀ pre0 q, pre = pre0 ++ [q] → q.2.free = false) :
    ∀ y ∈ pre, y.1 + y.2.size = a → y.2.free = false := by
  intro y hy hya
  rcases List.eq_nil_or_concat pre with hnil | ⟨pre0, q, hpq⟩
  · subst hnil
    simp at hy
  · rw [List.concat_eq_append] at hpq
    subst hpq
    obtain ⟨_, h2, h3, _⟩ := tiles_split_order _ _ _ _ _ ht
    simp only [Tiles] at h2
    rcases List.mem_append.1 hy with hy1 | hy1
    · have := h3 y hy1
      have := hpos q (by simp)
      omega
    · simp only [List.mem_singleton] at hy1
      rw [hy1]
      exact hq pre0 q rfl

theorem right_adj (post : List (Nat × Block)) (e E : Nat) (ht : Tiles e post E)
    (hpos : ∀ y ∈ post, 0 < y.2.size)
    (hn : ∀ n post0, post = n :: post0 → n.2.free = false) :
    ∀ y ∈ post, y.1 = e → y.2.free = false := by
  intro y hy hye
  cases post with
  | nil => simp at hy
  | cons n post0 =>
    obtain ⟨h1, h2⟩ := ht
    rcases List.mem_cons.1 hy with hy1 | hy1
    · rw [hy1]
      exact hn n post0 rfl
    · have := (tiles_bounds _ _ _ h2 y hy1).1
      have := hpos n (by simp)
      omega

theorem inv_release (h h1 : Heap) (pre post : List (Nat × Block)) (x : Nat × Block)
    (out : List Nat) (hi : Inv h (pre ++ x :: post) out)
    (hr1 : Rep h1 (released pre x post)) :
    Inv h1 (released pre x post) (out.erase (x.1 + HEADER_SIZE)) := by
  obtain ⟨hpre, hpost, _, _⟩ := tiles_split_order _ _ _ _ _ hi.rep.tiles
  have hpospre : ∀ y ∈ pre, 0 < y.2.size := fun y hy => hi.rep.pos y (by simp [hy])
  have hpospost : ∀ y ∈ post, 0 < y.2.size := fun y hy => hi.rep.pos y (by simp [hy])
  have hxm : x ∈ pre ++ x :: post := by simp
  have hfalse : ∀ b : Bool, ¬ (b = true) → b = false := by simp
  unfold released at hr1 ⊢
  rcases merged_next_cases (x.1, ⟨x.2.size, true, x.2.next⟩) post with
    ⟨hmn, hnf⟩ | ⟨n, post0, hpost0, hnfree, hmn⟩
  · rw [hmn] at hr1 ⊢
    have hright := right_adj post _ _ hpost hpospost hnf
    rcases merged_prev_cases pre post (x.1, ⟨x.2.size, true, x.2.next⟩) with
      ⟨hmp, hqf⟩ | ⟨pre0, q, hpre0, hqfree, hmp⟩
    · rw [hmp] at hr1 ⊢
      have hleft := left_adj pre _ hpre hpospre hqf
      have e0 : pre ++ x :: post = pre ++ [x] ++ post := by simp
      have e1 : pre ++ (x.1, (⟨x.2.size, true, x.2.next⟩ : Block)) :: post
          = pre ++ [(x.1, ⟨x.2.size, true, x.2.next⟩)] ++ post := by simp
      rw [e0] at hi
      rw [e1] at hr1 ⊢
      refine inv_merge h h1 pre [x] post out x _ hi hr1 ?_ (by simp) rfl (by simp) (by simp)
        hleft hright
      intro y0 r heq
      simp only [List.cons.injEq] at heq
      rw [← heq.1]
    · rw [hmp] at hr1 ⊢
      subst hpre0
      have hqm : q ∈ pre0 ++ [q] ++ x :: post := by simp
      have hx1 : x.1 = q.1 + q.2.size := by
        obtain ⟨_, h2, _, _⟩ := tiles_split_order _ _ _ _ _ hpre
        simp only [Tiles] at h2
        omega
      have hleft : ∀ y ∈ pre0, y.1 + y.2.size = q.1 → y.2.free = false := by
        intro y hy hyq
        apply hfalse
        intro hyf
        exact hi.noadj y (by simp [hy]) q hqm hyq ⟨hyf, hqfree⟩
      have e0 : pre0 ++ [q] ++ x :: post = pre0 ++ [q, x] ++ post := by simp
      have e1 : pre0 ++ (q.1, (⟨q.2.size + x.2.size, q.2.free, x.2.next⟩ : Block)) :: post
          = pre0 ++ [(q.1, ⟨q.2.size + x.2.size, q.2.free, x.2.next⟩)] ++ post := by simp
      rw [e0] at hi
      simp only [] at hr1 ⊢
      rw [e1] at hr1 ⊢
      refine inv_merge h h1 pre0 [q, x] post out x _ hi hr1 ?_ (by simp) hqfree (by simp) ?_
        hleft ?_
      · intro y0 r heq
        simp only [List.cons.injEq] at heq
        rw [← heq.1]
      · intro y hy hne
        simp only [List.mem_cons, List.mem_singleton, List.not_mem_nil, or_false] at hy
        rcases hy with hy | hy
        · rw [hy]
          exact hqfree
        · exact absurd hy hne
      · intro y hy hye
        apply hright y hy
        simp only [] at hye
        omega
  · rw [hmn] at hr1 ⊢
    subst hpost0
    have hnm : n ∈ pre ++ x :: n :: post0 := by simp
    have hn1 : n.1 = x.1 + x.2.size := hpost.1
    have hright : ∀ y ∈ post0, y.1 = n.1 + n.2.size → y.2.free = false := by
      intro y hy hyn
      apply hfalse
      intro hyf
      exact hi.noadj n hnm y (by simp [hy]) hyn.symm ⟨hnfree, hyf⟩
    rcases merged_prev_cases pre post0 (x.1, ⟨x.2.size + n.2.size, true, n.2.next⟩) with
      ⟨hmp, hqf⟩ | ⟨pre0, q, hpre0, hqfree, hmp⟩
    · rw [hmp] at hr1 ⊢
      have hleft := left_adj pre _ hpre hpospre hqf
      have e0 : pre ++ x :: n :: post0 = pre ++ [x, n] ++ post0 := by simp
      have e1 : pre ++ (x.1, (⟨x.2.size + n.2.size, true, n.2.next⟩ : Block)) :: post0
          = pre ++ [(x.1, ⟨x.2.size + n.2.size, true, n.2.next⟩)] ++ post0 := by simp
      rw [e0] at hi
      rw [e1] at hr1 ⊢
      refine inv_merge h h1 pre [x, n] post0 out x _ hi hr1 ?_ (by simp) rfl (by simp) ?_
        hleft ?_
      · intro y0 r heq
        simp only [List.cons.injEq] at heq
        rw [← heq.1]
      · intro y hy hne
        simp only [List.mem_cons, List.mem_singleton, List.not_mem_nil, or_false] at hy
        rcases hy with hy | hy
        · exact absurd hy hne
        · rw [hy]
          exact hnfree
      · intro y hy hye
        apply hright y hy
        simp only [] at hye
        omega
    · rw [hmp] at hr1 ⊢
      subst hpre0
      have hqm : q ∈ pre0 ++ [q] ++ x :: n :: post0 := by simp
      have hx1 : x.1 = q.1 + q.2.size := by
        obtain ⟨_, h2, _, _⟩ := tiles_split_order _ _ _ _ _ hpre
        simp only [Tiles] at h2
        omega
      have hleft : ∀ y ∈ pre0, y.1 + y.2.size = q.1 → y.2.free = false := by
        intro y hy hyq
        apply hfalse
        intro hyf
        exact hi.noadj y (by simp [hy]) q hqm hyq ⟨hyf, hqfree⟩
      have e0 : pre0 ++ [q] ++ x :: n :: post0 = pre0 ++ [q, x, n] ++ post0 := by simp
      have e1 : pre0 ++ (q.1, (⟨q.2.size + (x.2.size + n.2.size), q.2.free, n.2.next⟩ : Block))
          :: post0
          = pre0 ++ [(q.1, ⟨q.2.size + (x.2.size + n.2.size), q.2.free, n.2.next⟩)]
            ++ post0 := by simp
      rw [e0] at hi
      simp only [] at hr1 ⊢
      rw [e1] at hr1 ⊢
      refine inv_merge h h1 pre0 [q, x, n] post0 out x _ hi hr1 ?_ (by simp) hqfree
        (by simp) ?_ hleft ?_
      · intro y0 r heq
        simp only [List.cons.injEq] at heq
        rw [← heq.1]
      · intro y hy hne
        simp only [List.mem_cons, List.mem_singleton, List.not_mem_nil, or_false] at hy
        rcases hy with hy | hy | hy
        · rw [hy]
          exact hqfree
        · exact absurd hy hne
        · rw [hy]
          exact hnfree
      · intro y hy hye
        apply hright y hy
        simp only [] at hye
        omega

theorem released_frame (pre post : List (Nat × Block)) (x y : Nat × Block)
    (hy : y ∈ pre ++ x :: post) (hyf : y.2.free = false) (hyx : y ≠ x) :
    y ∈ released pre x post := by
  have hy2 : y ∈ pre ∨ y ∈ post := by
    simp only [List.mem_append, List.mem_cons] at hy
    tauto
  unfold released
  rcases merged_next_cases (x.1, ⟨x.2.size, true, x.2.next⟩) post with
    ⟨hmn, _⟩ | ⟨n, post0, hpost0, hnfree, hmn⟩
  · rw [hmn]
    rcases merged_prev_cases pre post (x.1, ⟨x.2.size, true, x.2.next⟩) with
      ⟨hmp, _⟩ | ⟨pre0, q, hpre0, hqfree, hmp⟩
    · rw [hmp]
      simp only [List.mem_append, List.mem_cons]
      tauto
    · rw [hmp]
      subst hpre0
      simp only [List.mem_append, List.mem_cons, List.mem_singleton, List.not_mem_nil,
        or_false] at hy2 ⊢
      rcases hy2 with (hy2 | hy2) | hy2
      · exact Or.inl hy2
      · rw [hy2, hqfree] at hyf
        simp at hyf
      · exact Or.inr (Or.inr hy2)
  · rw [hmn]
    subst hpost0
    have hy3 : y ∈ pre ∨ y ∈ post0 := by
      rcases hy2 with hy2 | hy2
      · exact Or.inl hy2
      · rcases List.mem_cons.1 hy2 with hy2 | hy2
        · rw [hy2, hnfree] at hyf
          simp at hyf
        · exact Or.inr hy2
    rcases merged_prev_cases pre post0 (x.1, ⟨x.2.size + n.2.size, true, n.2.next⟩) with
      ⟨hmp, _⟩ | ⟨pre0, q, hpre0, hqfree, hmp⟩
    · rw [hmp]
      simp only [List.mem_append, List.mem_cons]
      tauto
    · rw [hmp]
      subst hpre0
      simp only [List.mem_append, List.mem_cons, List.mem_singleton, List.not_mem_nil,
        or_false] at hy3 ⊢
      rcases hy3 with (hy3 | hy3) | hy3
      · exact Or.inl hy3
      · rw [hy3, hqfree] at hyf
        simp at hyf
      · exact Or.inr (Or.inr hy3)

theorem split_frame (pre post : List (Nat × Block)) (x y : Nat × Block) (T : Nat)
    (hy : y ∈ pre ++ x :: post) (hyx : y ≠ x) : y ∈ split_list pre x post T := by
  have hy2 : y ∈ pre ∨ y ∈ post := by
    simp only [List.mem_append, List.mem_cons] at hy
    tauto
  unfold split_list
  split
  · simp only [List.mem_append, List.mem_cons]
    tauto
  · simp only [List.mem_append, List.mem_cons]
    tauto

/-- What a call of `allocate_block` does in a state that satisfies the
invariant. -/
theorem alloc_step (h : Heap) (l : List (Nat × Block)) (out : List Nat) (S : Nat)
    (hi : Inv h l out) (hS : HEADER_SIZE + S + FOOTER_SIZE < SIZE_MOD) :
    (allocate_block h S = some (h, none) ∧
      (S = 0 ∨ find_free_block h (HEADER_SIZE + S + FOOTER_SIZE) h.currStrategy = some none)) ∨
    (∃ pre x post, 0 < S ∧ l = pre ++ x :: post ∧
      Qualifies (HEADER_SIZE + S + FOOTER_SIZE) x ∧
      find_free_block h (HEADER_SIZE + S + FOOTER_SIZE) h.currStrategy = some (some x.1) ∧
      allocate_block h S = some (split_block h x.1 (HEADER_SIZE + S + FOOTER_SIZE),
        some (x.1 + HEADER_SIZE)) ∧
      Inv (split_block h x.1 (HEADER_SIZE + S + FOOTER_SIZE))
        (split_list pre x post (HEADER_SIZE + S + FOOTER_SIZE)) ((x.1 + HEADER_SIZE) :: out)) := by
  by_cases hS0 : S = 0
  · left
    exact ⟨by simp [allocate_block, hS0], Or.inl hS0⟩
  · have hmod : (HEADER_SIZE + S + FOOTER_SIZE) % SIZE_MOD = HEADER_SIZE + S + FOOTER_SIZE :=
      Nat.mod_eq_of_lt hS
    obtain ⟨r, hf, _, hsome⟩ :=
      find_sound h l (HEADER_SIZE + S + FOOTER_SIZE) h.currStrategy hi.rep
    cases r with
    | none =>
      left
      refine ⟨?_, Or.inr hf⟩
      unfold allocate_block
      simp only [hS0, if_false, hmod, hf]
    | some o =>
      right
      obtain ⟨pre, b, post, hl, hq⟩ := hsome o rfl
      subst hl
      refine ⟨pre, (o, b), post, by omega, rfl, hq, hf, ?_, ?_⟩
      · unfold allocate_block
        simp only [hS0, if_false, hmod, hf]
      · apply inv_split h pre post (o, b) out _ hi hq
        have : 0 < S := by omega
        omega

/-- What a call of `free_block` on an outstanding pointer does in a state that
satisfies the invariant. -/
theorem free_step (h : Heap) (l : List (Nat × Block)) (out : List Nat) (p : Nat)
    (hi : Inv h l out) (hp : p ∈ out) :
    ∃ pre x post h1, l = pre ++ x :: post ∧ x.1 + HEADER_SIZE = p ∧ x.2.free = false ∧
      free_block h (some p) = some h1 ∧ Inv h1 (released pre x post) (out.erase p) ∧
      h1.currStrategy = h.currStrategy := by
  obtain ⟨x, hx, hxp⟩ := hi.owned p hp
  have hxf : x.2.free = false := (hi.acc x hx).2 (by rw [hxp]; exact hp)
  obtain ⟨pre, post, hl⟩ := List.append_of_mem hx
  subst hl
  obtain ⟨h1, hfree, hr1, hstr⟩ := free_rep h pre post x hi.rep hxf
  refine ⟨pre, x, post, h1, rfl, hxp, hxf, by rw [← hxp]; exact hfree, ?_, hstr⟩
  rw [← hxp]
  exact inv_release h h1 pre post x out hi hr1

theorem inv_strategy (h : Heap) (l : List (Nat × Block)) (out : List Nat) (s : Strategy)
    (hi : Inv h l out) : Inv (change_strategy h s) l out :=
  ⟨⟨hi.rep.head, hi.rep.tiles, hi.rep.pos, hi.rep.link, hi.rep.agrees⟩,
    hi.minsize, hi.noadj, hi.acc, hi.nodup, hi.owned⟩

/-- Every reachable state satisfies the invariant, for its own chain. -/
theorem reachable_inv (h : Heap) (out : List Nat) (hr : Reachable h out) :
    Inv h (chain h) out := by
  have key : ∃ l, Inv h l out := by
    induction hr with
    | init => exact ⟨_, inv_init⟩
    | alloc_ok h out S h1 p _ hS heq ih =>
      obtain ⟨l, hi⟩ := ih
      rcases alloc_step h l out S hi hS with ⟨ha, _⟩ | ⟨pre, x, post, _, _, _, _, ha, hinv⟩
      · rw [ha] at heq
        simp at heq
      · rw [ha] at heq
        simp only [Option.some.injEq, Prod.mk.injEq] at heq
        rw [← heq.1, ← heq.2]
        exact ⟨_, hinv⟩
    | alloc_fail h out S h1 _ hS heq ih =>
      obtain ⟨l, hi⟩ := ih
      rcases alloc_step h l out S hi hS with ⟨ha, _⟩ | ⟨pre, x, post, _, _, _, _, ha, hinv⟩
      · rw [ha] at heq
        simp only [Option.some.injEq, Prod.mk.injEq, and_true] at heq
        rw [← heq]
        exact ⟨l, hi⟩
      · rw [ha] at heq
        simp at heq
    | release h out p h1 _ hp heq ih =>
      obtain ⟨l, hi⟩ := ih
      obtain ⟨pre, x, post, h2, _, _, _, hf, hinv, _⟩ := free_step h l out p hi hp
      rw [hf] at heq
      simp only [Option.some.injEq] at heq
      rw [← heq]
      exact ⟨_, hinv⟩
    | strategy h out s _ ih =>
      obtain ⟨l, hi⟩ := ih
      exact ⟨l, inv_strategy h l out s hi⟩
  obtain ⟨l, hi⟩ := key
  rw [rep_chain h l hi.rep]
  exact hi

/-! ## From the invariant to the statements on the chain -/

theorem tiles_head (l : List (Nat × Block)) (a e : Nat) (ht : Tiles a l e) (hae : a ≠ e) :
    l.head?.map Prod.fst = some a := by
  cases l with
  | nil => exact absurd ht hae
  | cons x r => simp [ht.1]

theorem tiles_chain (l : List (Nat × Block)) (a : Nat) (ht : Tiles a l HEAP_SIZE)
    (hpos : ∀ x ∈ l, 0 < x.2.size) (hlink : ∀ x ∈ l, x.2.next = nextOf x) :
    List.Chain' (fun x y => x.2.next = some y.1 ∧ x.1 + x.2.size = y.1 ∧ x.1 < y.1) l := by
  induction l generalizing a with
  | nil => exact List.chain'_nil
  | cons x r ih =>
    cases r with
    | nil => exact List.chain'_singleton _
    | cons y r2 =>
      obtain ⟨hx, ht2⟩ := ht
      have hy : y.1 = a + x.2.size := ht2.1
      have hle := tiles_le _ _ _ ht2.2
      have hpy := hpos y (by simp)
      have hpx := hpos x (by simp)
      refine List.chain'_cons.2 ⟨⟨?_, by omega, by omega⟩, ?_⟩
      · rw [hlink x (by simp)]
        have : ¬ (x.1 + x.2.size = HEAP_SIZE) := by omega
        simp only [nextOf, ptrAt, this, if_false]
        congr 1
        omega
      · exact ih _ ht2 (fun z hz => hpos z (List.mem_cons_of_mem _ hz))
          (fun z hz => hlink z (List.mem_cons_of_mem _ hz))

theorem tiles_last (l : List (Nat × Block)) (a e : Nat) (ht : Tiles a l e) (hne : l ≠ []) :
    ∃ t, l.getLast? = some t ∧ t ∈ l ∧ t.1 + t.2.size = e := by
  induction l generalizing a with
  | nil => exact absurd rfl hne
  | cons x r ih =>
    cases r with
    | nil =>
      obtain ⟨hx, ht2⟩ := ht
      simp only [Tiles] at ht2
      exact ⟨x, rfl, by simp, by omega⟩
    | cons y r2 =>
      obtain ⟨t, h1, h2, h3⟩ := ih _ ht.2 (by simp)
      exact ⟨t, by rw [List.getLast?_cons_cons]; exact h1, List.mem_cons_of_mem _ h2, h3⟩

theorem noadj_chain (l : List (Nat × Block)) (a e : Nat) (ht : Tiles a l e)
    (hna : ∀ x ∈ l, ∀ y ∈ l, x.1 + x.2.size = y.1 → ¬ (x.2.free = true ∧ y.2.free = true)) :
    NoAdjacentFree l := by
  unfold NoAdjacentFree
  induction l generalizing a with
  | nil => exact List.chain'_nil
  | cons x r ih =>
    cases r with
    | nil => exact List.chain'_singleton _
    | cons y r2 =>
      obtain ⟨hx, ht2⟩ := ht
      have hy : y.1 = a + x.2.size := ht2.1
      refine List.chain'_cons.2 ⟨hna x (by simp) y (by simp) (by omega), ?_⟩
      exact ih _ ht2 (fun u hu v hv => hna u (List.mem_cons_of_mem _ hu) v
        (List.mem_cons_of_mem _ hv))

/-- With no outstanding pointer the chain is the single free block that
`init_heap` installs. -/
theorem all_free_single (h : Heap) (l : List (Nat × Block)) (hi : Inv h l []) :
    l = [(0, ⟨HEAP_SIZE, true, none⟩)] := by
  have hfree : ∀ x ∈ l, x.2.free = true := by
    intro x hx
    have := hi.acc x hx
    simp only [List.not_mem_nil, iff_false] at this
    simpa using this
  have ht := hi.rep.tiles
  cases l with
  | nil =>
    simp only [Tiles, HEAP_SIZE] at ht
    omega
  | cons x r =>
    cases r with
    | cons y r2 =>
      have hy : y.1 = 0 + x.2.size := ht.2.1
      have hx : x.1 = 0 := ht.1
      exact absurd ⟨hfree x (by simp), hfree y (by simp)⟩
        (hi.noadj x (by simp) y (by simp) (by omega))
    | nil =>
      obtain ⟨hx, ht2⟩ := ht
      simp only [Tiles] at ht2
      have hn := hi.rep.link x (by simp)
      have hf := hfree x (by simp)
      have hsz : x.2.size = HEAP_SIZE := by omega
      have hnx : x.2.next = none := by
        rw [hn]
        simp [nextOf, ptrAt, hx, hsz]
      obtain ⟨o, b⟩ := x
      obtain ⟨sz, fr, nx⟩ := b
      simp only [] at hx hf hsz hnx
      subst hx hf hsz hnx
      rfl

theorem free_all_inv (ps : List Nat) (h : Heap) (l : List (Nat × Block)) (out : List Nat)
    (hi : Inv h l out) (hperm : ps.Perm out) :
    ∃ h1 l1, free_all h ps = some h1 ∧ Inv h1 l1 [] := by
  induction ps generalizing h l out with
  | nil =>
    have : out = [] := List.Perm.eq_nil (List.Perm.symm hperm)
    subst this
    exact ⟨h, l, rfl, hi⟩
  | cons p ps ih =>
    have hp : p ∈ out := hperm.subset (List.mem_cons_self _ _)
    obtain ⟨pre, x, post, h1, _, _, _, hf, hinv, _⟩ := free_step h l out p hi hp
    have hperm2 : ps.Perm (out.erase p) := by
      have := List.Perm.erase p hperm
      simpa using this
    obtain ⟨h2, l2, hfa, hinv2⟩ := ih h1 _ _ hinv hperm2
    refine ⟨h2, l2, ?_, hinv2⟩
    simp only [free_all, hf]
    exact hfa

/-! ## Sample states -/

theorem demo_two_reachable : Reachable demo_two [156, 24] :=
  Reachable.alloc_ok _ [24] 200 _ 156
    (Reachable.alloc_ok _ [] 100 _ 24 Reachable.init (by decide) rfl) (by decide) rfl

theorem demo_hole_reachable : Reachable demo_hole [156] :=
  Reachable.release _ [156, 24] 24 _ demo_two_reachable (by decide) rfl

/-! ## WORST_FIT against FIRST_FIT on an arbitrary memory -/

theorem worst_loop_keeps (mem : Nat → Block) (T fuel curr : Nat) (v : ScanVars) (e : ScanExit)
    (hv : ∃ w, v.worst_block = some w ∧ T ≤ (mem w).size)
    (hl : find_loop mem T Strategy.WORST_FIT fuel curr v = some e) :
    ∃ v1, e = ScanExit.cont v1 ∧ ∃ w, v1.worst_block = some w ∧ T ≤ (mem w).size := by
  induction fuel generalizing curr v with
  | zero => simp [find_loop] at hl
  | succ n ih =>
    simp only [find_loop] at hl
    by_cases hc : curr < HEAP_SIZE
    · simp only [hc, if_true] at hl
      have hbody : ∃ v2, scan_body (mem curr) curr T Strategy.WORST_FIT v = ScanExit.cont v2 ∧
          ∃ w, v2.worst_block = some w ∧ T ≤ (mem w).size := by
        unfold scan_body
        by_cases hq : (mem curr).free = true ∧ (mem curr).size ≥ T
        · simp only [hq, and_self, if_true]
          by_cases hgt : (mem curr).size > v.max_size
          · exact ⟨{ v with max_size := (mem curr).size, worst_block := some curr },
              by simp [hgt], curr, rfl, hq.2⟩
          · exact ⟨v, by simp [hgt], hv⟩
        · exact ⟨v, by simp [hq], hv⟩
      obtain ⟨v2, hb, hv2⟩ := hbody
      rw [hb] at hl
      simp only [] at hl
      cases hn : (mem curr).next with
      | none =>
        rw [hn] at hl
        simp only [Option.some.injEq] at hl
        exact ⟨v2, hl.symm, hv2⟩
      | some nx =>
        rw [hn] at hl
        exact ih _ _ hv2 hl
    · simp only [hc, if_false, Option.some.injEq] at hl
      exact ⟨v, hl.symm, hv⟩

theorem worst_loop_finds (mem : Nat → Block) (T fuel curr : Nat) (v v0 : ScanVars)
    (e : ScanExit) (o : Nat) (hT : 0 < T) (hv : v.worst_block = none → v.max_size = 0)
    (hv2 : ∀ w, v.worst_block = some w → T ≤ (mem w).size)
    (hfirst : find_loop mem T Strategy.FIRST_FIT fuel curr v0 = some (ScanExit.ret (some o)))
    (hl : find_loop mem T Strategy.WORST_FIT fuel curr v = some e) :
    ∃ v1, e = ScanExit.cont v1 ∧ ∃ w, v1.worst_block = some w ∧ T ≤ (mem w).size := by
  induction fuel generalizing curr v with
  | zero => simp [find_loop] at hl
  | succ n ih =>
    simp only [find_loop] at hl hfirst
    by_cases hc : curr < HEAP_SIZE
    · simp only [hc, if_true] at hl hfirst
      by_cases hq : (mem curr).free = true ∧ (mem curr).size ≥ T
      · have hbody : ∃ v2, scan_body (mem curr) curr T Strategy.WORST_FIT v = ScanExit.cont v2 ∧
            ∃ w, v2.worst_block = some w ∧ T ≤ (mem w).size := by
          unfold scan_body
          simp only [hq, and_self, if_true]
          by_cases hgt : (mem curr).size > v.max_size
          · exact ⟨{ v with max_size := (mem curr).size, worst_block := some curr },
              by simp [hgt], curr, rfl, hq.2⟩
          · refine ⟨v, by simp [hgt], ?_⟩
            cases hw : v.worst_block with
            | none =>
              have := hv hw
              have := hq.2
              omega
            | some w => exact ⟨w, rfl, hv2 w hw⟩
        obtain ⟨v2, hb, hv3⟩ := hbody
        rw [hb] at hl
        simp only [] at hl
        cases hn : (mem curr).next with
        | none =>
          rw [hn] at hl
          simp only [Option.some.injEq] at hl
          exact ⟨v2, hl.symm, hv3⟩
        | some nx =>
          rw [hn] at hl
          exact worst_loop_keeps mem T n nx v2 e hv3 hl
      · have hb1 : scan_body (mem curr) curr T Strategy.WORST_FIT v = ScanExit.cont v := by
          simp [scan_body, hq]
        have hb2 : scan_body (mem curr) curr T Strategy.FIRST_FIT v0 = ScanExit.cont v0 := by
          simp [scan_body, hq]
        rw [hb1] at hl
        rw [hb2] at hfirst
        simp only [] at hl hfirst
        cases hn : (mem curr).next with
        | none =>
          rw [hn] at hfirst
          simp at hfirst
        | some nx =>
          rw [hn] at hl hfirst
          exact ih _ _ hv hv2 hfirst hl
    · simp only [hc, if_false] at hfirst
      simp at hfirst

/-- On any memory state and for any positive total size, WORST_FIT does not
return `NULL` when FIRST_FIT returns a block. -/
theorem worst_not_null_of_first (h : Heap) (T o : Nat) (hT : 0 < T)
    (hfirst : find_free_block h T Strategy.FIRST_FIT = some (some o)) :
    find_free_block h T Strategy.WORST_FIT ≠ some none := by
  unfold find_free_block at hfirst ⊢
  cases hh : h.heap_head with
  | none => simp
  | some head =>
    rw [hh] at hfirst
    simp only [] at hfirst ⊢
    cases hl1 : find_loop h.mem T Strategy.FIRST_FIT FUEL head ⟨none, none, INT_MAX, 0⟩ with
    | none =>
      rw [hl1] at hfirst
      simp at hfirst
    | some e1 =>
      rw [hl1] at hfirst
      cases e1 with
      | cont v => simp at hfirst
      | ret r =>
        simp only [Option.some.injEq] at hfirst
        subst hfirst
        cases hl2 : find_loop h.mem T Strategy.WORST_FIT FUEL head ⟨none, none, INT_MAX, 0⟩ with
        | none => simp
        | some e2 =>
          obtain ⟨v1, he, w, hw, hsz⟩ := worst_loop_finds h.mem T FUEL head
            ⟨none, none, INT_MAX, 0⟩ ⟨none, none, INT_MAX, 0⟩ e2 o hT (fun _ => rfl)
            (by simp) hl1 hl2
          subst he
          simp only [hw]
          have : (h.mem w).size ≥ T := hsz
          simp [this]

/-! ## The claims -/

/-- C1, coverage invariant (I1, I2).  In every state reachable from
`init_heap` by calls of `allocate_block` with a total size that does not wrap,
`free_block` on outstanding pointers and `change_strategy`: the chain followed
from `heap_head` starts at arena offset 0; each block's `next` is the block that
follows it, which starts exactly where the block ends, at a strictly larger
offset; the last block has no successor and ends at offset `HEAP_SIZE`; the
block sizes sum to `HEAP_SIZE`.  In particular the state is well formed. -/
theorem C1_coverage (h : Heap) (out : List Nat) (hr : Reachable h out) :
    WellFormed h ∧
    h.heap_head = some 0 ∧
    (chain h).head?.map Prod.fst = some 0 ∧
    List.Chain' (fun x y => x.2.next = some y.1 ∧ x.1 + x.2.size = y.1 ∧ x.1 < y.1)
      (chain h) ∧
    (∃ t, (chain h).getLast? = some t ∧ t.2.next = none ∧ t.1 + t.2.size = HEAP_SIZE) ∧
    ((chain h).map (fun x => x.2.size)).sum = HEAP_SIZE := by
  have hi := reachable_inv h out hr
  have hrep := hi.rep
  refine ⟨rep_wf h _ hrep, hrep.head, ?_, ?_, ?_, ?_⟩
  · exact tiles_head _ _ _ hrep.tiles (by decide)
  · exact tiles_chain _ _ hrep.tiles hrep.pos hrep.link
  · have hne : chain h ≠ [] := by
      intro hnil
      have ht := hrep.tiles
      rw [hnil] at ht
      simp only [Tiles, HEAP_SIZE] at ht
      omega
    obtain ⟨t, h1, h2, h3⟩ := tiles_last _ _ _ hrep.tiles hne
    refine ⟨t, h1, ?_, h3⟩
    rw [hrep.link t h2]
    simp [nextOf, ptrAt, h3]
  · have := tiles_sum _ _ _ hrep.tiles
    omega

/-- Witness of C1 at the sample state `demo_hole`. -/
theorem C1_coverage_witness :
    WellFormed demo_hole ∧
    demo_hole.heap_head = some 0 ∧
    (chain demo_hole).head?.map Prod.fst = some 0 ∧
    List.Chain' (fun x y => x.2.next = some y.1 ∧ x.1 + x.2.size = y.1 ∧ x.1 < y.1)
      (chain demo_hole) ∧
    (∃ t, (chain demo_hole).getLast? = some t ∧ t.2.next = none ∧
      t.1 + t.2.size = HEAP_SIZE) ∧
    ((chain demo_hole).map (fun x => x.2.size)).sum = HEAP_SIZE :=
  C1_coverage demo_hole [156] demo_hole_reachable

/-- C2, no-adjacent-free invariant (I4).  In every reachable state, a call of
`free_block` on an outstanding pointer returns, and in the chain it leaves no
free block is followed by a free block: the single forward-then-backward pass
of `merge_block` is enough, because no free block is followed by a free block
before the call either. -/
theorem C2_no_adjacent_free (h : Heap) (out : List Nat) (p : Nat)
    (hr : Reachable h out) (hp : p ∈ out) :
    NoAdjacentFree (chain h) ∧
    ∃ h1, free_block h (some p) = some h1 ∧ NoAdjacentFree (chain h1) := by
  have hi := reachable_inv h out hr
  obtain ⟨pre, x, post, h1, _, _, _, hf, hinv, _⟩ := free_step h _ out p hi hp
  refine ⟨noadj_chain _ _ _ hi.rep.tiles hi.noadj, h1, hf, ?_⟩
  rw [rep_chain h1 _ hinv.rep]
  exact noadj_chain _ _ _ hinv.rep.tiles hinv.noadj

/-- Witness of C2: releasing the block between two free blocks in
`demo_hole`. -/
theorem C2_no_adjacent_free_witness :
    NoAdjacentFree (chain demo_hole) ∧
    ∃ h1, free_block demo_hole (some 156) = some h1 ∧ NoAdjacentFree (chain h1) :=
  C2_no_adjacent_free demo_hole [156] 156 demo_hole_reachable (by decide)

/-- C3, full reclamation.  In every reachable state, calling `free_block` on
the outstanding pointers, each once, in any order, returns and leaves the chain
as the single free block of `HEAP_SIZE` bytes at offset 0 with no successor:
the chain that `init_heap` produces. -/
theorem C3_full_reclamation (h : Heap) (out ps : List Nat) (hr : Reachable h out)
    (hperm : ps.Perm out) :
    ∃ h1, free_all h ps = some h1 ∧ chain h1 = [(0, ⟨HEAP_SIZE, true, none⟩)] ∧
      chain h1 = chain (init_heap boot) := by
  have hi := reachable_inv h out hr
  obtain ⟨h1, l1, hfa, hinv⟩ := free_all_inv ps h _ out hi hperm
  have hl := all_free_single h1 l1 hinv
  have hc := rep_chain h1 l1 hinv.rep
  refine ⟨h1, hfa, by rw [hc, hl], ?_⟩
  rw [hc, hl, rep_chain _ _ init_rep]

/-- Witness of C3: the two outstanding pointers of `demo_two`, released in the
order of their allocation (the reverse of the order of the list). -/
theorem C3_full_reclamation_witness :
    ∃ h1, free_all demo_two [24, 156] = some h1 ∧
      chain h1 = [(0, ⟨HEAP_SIZE, true, none⟩)] ∧ chain h1 = chain (init_heap boot) :=
  C3_full_reclamation demo_two [156, 24] [24, 156] demo_two_reachable
    (List.Perm.swap 156 24 [])

/-- Free accuracy (I3) and untouched allocations, for requests whose total
size does not wrap.  In every reachable state a block of the chain is allocated
exactly when its payload pointer (offset plus `HEADER_SIZE`) is outstanding.
Every call of `allocate_block` with a total size that does not wrap returns,
and whether it succeeds or fails, every block that was allocated before the
call is in the chain after it with the same offset, size, flag and successor.
Every call of `free_block` on an outstanding pointer returns, and every
allocated block other than the released one is in the chain after it,
unchanged. -/
theorem free_accuracy_frames (h : Heap) (out : List Nat) (hr : Reachable h out) :
    (∀ x ∈ chain h, (x.2.free = false ↔ x.1 + HEADER_SIZE ∈ out)) ∧
    (∀ S, HEADER_SIZE + S + FOOTER_SIZE < SIZE_MOD →
      ∃ h1 r, allocate_block h S = some (h1, r) ∧
        ∀ x ∈ chain h, x.2.free = false → x ∈ chain h1) ∧
    (∀ p ∈ out, ∃ h1, free_block h (some p) = some h1 ∧
        ∀ x ∈ chain h, x.2.free = false → x.1 + HEADER_SIZE ≠ p → x ∈ chain h1) := by
  have hi := reachable_inv h out hr
  refine ⟨hi.acc, ?_, ?_⟩
  · intro S hS
    rcases alloc_step h _ out S hi hS with
      ⟨ha, _⟩ | ⟨pre, x, post, _, hl, hq, _, ha, hinv⟩
    · exact ⟨h, none, ha, fun x hx _ => hx⟩
    · refine ⟨_, _, ha, ?_⟩
      intro y hy hyf
      rw [rep_chain _ _ hinv.rep]
      rw [hl] at hy
      apply split_frame pre post x y _ hy
      intro hyx
      rw [hyx, hq.1] at hyf
      simp at hyf
  · intro p hp
    obtain ⟨pre, x, post, h1, hl, hxp, _, hf, hinv, _⟩ := free_step h _ out p hi hp
    refine ⟨h1, hf, ?_⟩
    intro y hy hyf hyp
    rw [rep_chain _ _ hinv.rep]
    rw [hl] at hy
    apply released_frame pre post x y hy hyf
    intro hyx
    rw [hyx] at hyp
    exact hyp hxp

/-! ## A block that is its own successor -/

/-- C5, FIRST_FIT.  On every well-formed chain and for every total size `T`,
`find_free_block(T, FIRST_FIT)` returns; it returns `NULL` exactly when no
block of the chain is free with size at least `T`; otherwise it returns a block
of the chain that is free with size at least `T`, and no such block has a lower
offset. -/
theorem C5_first_fit (h : Heap) (T : Nat) (hw : WellFormed h) :
    ∃ r, find_free_block h T Strategy.FIRST_FIT = some r ∧
      (r = none ↔ ∀ x ∈ chain h, ¬ Qualifies T x) ∧
      (∀ o, r = some o → ∃ b, (o, b) ∈ chain h ∧ Qualifies T (o, b) ∧
        ∀ x ∈ chain h, Qualifies T x → o ≤ x.1) := by
  have hrep := wf_rep h hw
  obtain ⟨r, h1, h2, h3⟩ := first_fit_rep h _ T hrep
  refine ⟨r, h1, h2, ?_⟩
  intro o ho
  obtain ⟨l1, b, l2, hl, hq, hn⟩ := h3 o ho
  refine ⟨b, by rw [hl]; simp, hq, ?_⟩
  intro x hx hxq
  have ht := hrep.tiles
  rw [hl] at ht hx
  obtain ⟨_, _, _, hhi⟩ := tiles_split_order _ _ _ _ _ ht
  rcases List.mem_append.1 hx with hx1 | hx1
  · exact absurd hxq (hn x hx1)
  · rcases List.mem_cons.1 hx1 with hx2 | hx2
    · rw [hx2]
    · have := hhi x hx2
      simp only [] at this
      omega

/-- Witness of C5: a request of total size 100 on `demo_hole`. -/
theorem C5_first_fit_witness :
    ∃ r, find_free_block demo_hole 100 Strategy.FIRST_FIT = some r ∧
      (r = none ↔ ∀ x ∈ chain demo_hole, ¬ Qualifies 100 x) ∧
      (∀ o, r = some o → ∃ b, (o, b) ∈ chain demo_hole ∧ Qualifies 100 (o, b) ∧
        ∀ x ∈ chain demo_hole, Qualifies 100 x → o ≤ x.1) :=
  C5_first_fit demo_hole 100 (by decide)

/-- C6, BEST_FIT minimality.  On every well-formed chain over the arena and
for every total size `T`, `find_free_block(T, BEST_FIT)` returns; it returns
`NULL` exactly when no block is free with size at least `T` (so the initial
value `INT_MAX` of `min_remainder` never hides a qualifying block); otherwise it
returns a free block `b` of size at least `T` whose leftover `size - T` is
minimal among the qualifying blocks, and which has the lowest offset among the
qualifying blocks with that leftover. -/
theorem C6_best_fit (h : Heap) (T : Nat) (hw : WellFormed h) :
    ∃ r, find_free_block h T Strategy.BEST_FIT = some r ∧
      (r = none ↔ ∀ x ∈ chain h, ¬ Qualifies T x) ∧
      (∀ o, r = some o → ∃ b, (o, b) ∈ chain h ∧ Qualifies T (o, b) ∧
        ∀ x ∈ chain h, Qualifies T x →
          b.size - T ≤ x.2.size - T ∧ (x.2.size - T = b.size - T → o ≤ x.1)) := by
  have hrep := wf_rep h hw
  obtain ⟨r, h1, h2, h3⟩ := best_fit_rep h _ T hrep
  refine ⟨r, h1, h2, ?_⟩
  intro o ho
  obtain ⟨l1, b, l2, hl, hq, hlt, hle⟩ := h3 o ho
  refine ⟨b, by rw [hl]; simp, hq, ?_⟩
  intro x hx hxq
  have ht := hrep.tiles
  rw [hl] at ht hx
  obtain ⟨_, _, _, hhi⟩ := tiles_split_order _ _ _ _ _ ht
  have hbT : T ≤ b.size := hq.2
  have hxT : T ≤ x.2.size := hxq.2
  rcases List.mem_append.1 hx with hx1 | hx1
  · have := hlt x hx1 hxq
    exact ⟨by omega, fun heq => by omega⟩
  · rcases List.mem_cons.1 hx1 with hx2 | hx2
    · rw [hx2]
      exact ⟨le_refl _, fun _ => le_refl _⟩
    · have := hhi x hx2
      have := hle x hx2 hxq
      simp only [] at *
      exact ⟨by omega, fun _ => by omega⟩

/-- Witness of C6: a request of total size 100 on `demo_hole`. -/
theorem C6_best_fit_witness :
    ∃ r, find_free_block demo_hole 100 Strategy.BEST_FIT = some r ∧
      (r = none ↔ ∀ x ∈ chain demo_hole, ¬ Qualifies 100 x) ∧
      (∀ o, r = some o → ∃ b, (o, b) ∈ chain demo_hole ∧ Qualifies 100 (o, b) ∧
        ∀ x ∈ chain demo_hole, Qualifies 100 x →
          b.size - 100 ≤ x.2.size - 100 ∧ (x.2.size - 100 = b.size - 100 → o ≤ x.1)) :=
  C6_best_fit demo_hole 100 (by decide)

/-- C7, WORST_FIT agrees with the policy of the specification.  On every
well-formed chain and for every total size `T`, `find_free_block(T, WORST_FIT)`,
which only looks at the free blocks of size at least `T`, returns what the
procedure of the specification returns: scan all free blocks whatever `T`, keep
the earliest block of globally maximal size, return it if its size is at least
`T` and `NULL` otherwise. -/
theorem C7_worst_fit_refines (h : Heap) (T : Nat) (hw : WellFormed h) :
    find_free_block h T Strategy.WORST_FIT = some (worst_fit_spec (chain h) T) := by
  obtain ⟨r, h1, h2, _⟩ := worst_fit_rep h _ T (wf_rep h hw)
  rw [h1, h2]

/-- Witness of C7: a request of total size 100 on `demo_hole`. -/
theorem C7_worst_fit_refines_witness :
    find_free_block demo_hole 100 Strategy.WORST_FIT
      = some (worst_fit_spec (chain demo_hole) 100) :=
  C7_worst_fit_refines demo_hole 100 (by decide)

/-- C8 as stated fails, the quirk does not exist.  There is no well-formed
chain state and total size `T` for which `find_free_block(T, WORST_FIT)` returns
`NULL` while some block of the chain is free with size at least `T`, or while
`find_free_block(T, FIRST_FIT)` returns a block.  And on no memory state at
all, well formed or not, is there a positive total size `T` for which
`find_free_block(T, WORST_FIT)` returns `NULL` while
`find_free_block(T, FIRST_FIT)` returns a block. -/
theorem C8_no_worst_fit_quirk :
    (¬ ∃ (h : Heap) (T : Nat), WellFormed h ∧
      find_free_block h T Strategy.WORST_FIT = some none ∧
      ((∃ x ∈ chain h, Qualifies T x) ∨
        ∃ o, find_free_block h T Strategy.FIRST_FIT = some (some o))) ∧
    (¬ ∃ (h : Heap) (T : Nat), 0 < T ∧
      find_free_block h T Strategy.WORST_FIT = some none ∧
      ∃ o, find_free_block h T Strategy.FIRST_FIT = some (some o)) := by
  constructor
  · rintro ⟨h, T, hw, hworst, hq⟩
    have hrep := wf_rep h hw
    obtain ⟨r, h1, _, h2, _⟩ := worst_fit_rep h _ T hrep
    rw [h1] at hworst
    simp only [Option.some.injEq] at hworst
    have hnone := h2.1 hworst
    rcases hq with ⟨x, hx, hxq⟩ | ⟨o, hfirst⟩
    · exact hnone x hx hxq
    · obtain ⟨r1, h3, _, h4⟩ := first_fit_rep h _ T hrep
      rw [h3] at hfirst
      simp only [Option.some.injEq] at hfirst
      obtain ⟨l1, b, l2, hl, hbq, _⟩ := h4 o hfirst
      exact hnone (o, b) (by rw [hl]; simp) hbq
  · rintro ⟨h, T, hT, hworst, o, hfirst⟩
    exact worst_not_null_of_first h T o hT hfirst hworst

/-- C8, amended.  On every well-formed chain and for every total size `T`,
`find_free_block(T, WORST_FIT)` returns; it returns `NULL` exactly when no block
of the chain is free with size at least `T`, which is exactly when
`find_free_block(T, FIRST_FIT)` returns `NULL`; and a block it returns is a
block of the chain that is free with size at least `T`. -/
theorem C8_worst_fit_fails_only_when_first_fit_fails (h : Heap) (T : Nat)
    (hw : WellFormed h) :
    ∃ r, find_free_block h T Strategy.WORST_FIT = some r ∧
      (r = none ↔ ∀ x ∈ chain h, ¬ Qualifies T x) ∧
      (r = none ↔ find_free_block h T Strategy.FIRST_FIT = some none) ∧
      (∀ o, r = some o → ∃ b, (o, b) ∈ chain h ∧ Qualifies T (o, b)) := by
  have hrep := wf_rep h hw
  obtain ⟨r, h1, _, h2, h3⟩ := worst_fit_rep h _ T hrep
  obtain ⟨r1, h4, h5, _⟩ := first_fit_rep h _ T hrep
  refine ⟨r, h1, h2, ?_, h3⟩
  rw [h4, h2, ← h5]
  simp

/-- Witness of amended C8: a request of total size 700 on `demo_hole`, which
no free block can serve. -/
theorem C8_worst_fit_fails_only_when_first_fit_fails_witness :
    ∃ r, find_free_block demo_hole 700 Strategy.WORST_FIT = some r ∧
      (r = none ↔ ∀ x ∈ chain demo_hole, ¬ Qualifies 700 x) ∧
      (r = none ↔ find_free_block demo_hole 700 Strategy.FIRST_FIT = some none) ∧
      (∀ o, r = some o → ∃ b, (o, b) ∈ chain demo_hole ∧ Qualifies 700 (o, b)) :=
  C8_worst_fit_fails_only_when_first_fit_fails demo_hole 700 (by decide)

/-- C9, allocate and split postcondition.  In every reachable state, for
every `S > 0` whose total size `T = HEADER_SIZE + S + FOOTER_SIZE` does not wrap
and for which the active strategy selects the block at offset `o`:
`allocate_block(S)` returns the pointer `o + HEADER_SIZE`; the selected block
`b` is a free block of the chain of size at least `T`; if
`size(b) >= T + HEADER_SIZE + FOOTER_SIZE + 1`, the chain afterwards has at `o`
an allocated block of size `T` followed by a new free block at `o + T` of size
`size(b) - T` whose successor is the old successor of `b`; otherwise `b` keeps
its size and successor and is only marked allocated; in both cases the blocks
before and after are unchanged. -/
theorem C9_allocate_split (h : Heap) (out : List Nat) (S o : Nat) (hr : Reachable h out)
    (hS0 : 0 < S) (hS : HEADER_SIZE + S + FOOTER_SIZE < SIZE_MOD)
    (hf : find_free_block h (HEADER_SIZE + S + FOOTER_SIZE) h.currStrategy = some (some o)) :
    ∃ h1 pre b post, allocate_block h S = some (h1, some (o + HEADER_SIZE)) ∧
      chain h = pre ++ (o, b) :: post ∧ b.free = true ∧
      HEADER_SIZE + S + FOOTER_SIZE ≤ b.size ∧
      (b.size ≥ HEADER_SIZE + S + FOOTER_SIZE + HEADER_SIZE + FOOTER_SIZE + 1 →
        chain h1 = pre ++
          (o, ⟨HEADER_SIZE + S + FOOTER_SIZE, false, some (o + (HEADER_SIZE + S + FOOTER_SIZE))⟩) ::
          (o + (HEADER_SIZE + S + FOOTER_SIZE),
            ⟨b.size - (HEADER_SIZE + S + FOOTER_SIZE), true, b.next⟩) :: post) ∧
      (¬ (b.size ≥ HEADER_SIZE + S + FOOTER_SIZE + HEADER_SIZE + FOOTER_SIZE + 1) →
        chain h1 = pre ++ (o, ⟨b.size, false, b.next⟩) :: post) := by
  have hi := reachable_inv h out hr
  rcases alloc_step h _ out S hi hS with
    ⟨_, hz | hnone⟩ | ⟨pre, x, post, _, hl, hq, hfind, ha, hinv⟩
  · omega
  · rw [hnone] at hf
    simp at hf
  · rw [hfind] at hf
    simp only [Option.some.injEq] at hf
    obtain ⟨xo, b⟩ := x
    simp only [] at hf
    subst hf
    have hc := rep_chain _ _ hinv.rep
    refine ⟨_, pre, b, post, ha, hl, hq.1, hq.2, ?_, ?_⟩
    · intro hge
      rw [hc]
      simp [split_list, hge]
    · intro hlt
      rw [hc]
      simp [split_list, hlt]

/-- Witness of C9: `allocate_block(50)` under FIRST_FIT on `demo_hole`, which
selects the free block at offset 0. -/
theorem C9_allocate_split_witness :
    ∃ h1 pre b post, allocate_block demo_hole 50 = some (h1, some (0 + HEADER_SIZE)) ∧
      chain demo_hole = pre ++ (0, b) :: post ∧ b.free = true ∧
      HEADER_SIZE + 50 + FOOTER_SIZE ≤ b.size ∧
      (b.size ≥ HEADER_SIZE + 50 + FOOTER_SIZE + HEADER_SIZE + FOOTER_SIZE + 1 →
        chain h1 = pre ++
          (0, ⟨HEADER_SIZE + 50 + FOOTER_SIZE, false,
            some (0 + (HEADER_SIZE + 50 + FOOTER_SIZE))⟩) ::
          (0 + (HEADER_SIZE + 50 + FOOTER_SIZE),
            ⟨b.size - (HEADER_SIZE + 50 + FOOTER_SIZE), true, b.next⟩) :: post) ∧
      (¬ (b.size ≥ HEADER_SIZE + 50 + FOOTER_SIZE + HEADER_SIZE + FOOTER_SIZE + 1) →
        chain h1 = pre ++ (0, ⟨b.size, false, b.next⟩) :: post) :=
  C9_allocate_split demo_hole [156] 50 0 demo_hole_reachable (by decide) (by decide)
    (by decide)

/-- C10, release and coalesce postcondition.  In every reachable state, for
every outstanding pointer `p`, `free_block(p)` returns; the block `b` at offset
`p - HEADER_SIZE` is an allocated block of the chain; and the chain afterwards
is the old one in which `b` is free and has absorbed its successor `n` when
that one was free, and has then been absorbed by its predecessor `q` when that
one was free.  The merged block starts at the lowest offset of the merged
blocks, its size is the sum of their sizes, its successor is the successor of
the last merged block, and the other blocks are unchanged.  When both
neighbours are free the three blocks become one free block in that call. -/
theorem C10_release_coalesce (h : Heap) (out : List Nat) (p : Nat) (hr : Reachable h out)
    (hp : p ∈ out) :
    ∃ h1 pre b post, free_block h (some p) = some h1 ∧
      chain h = pre ++ (p - HEADER_SIZE, b) :: post ∧ b.free = false ∧
      ((∀ pre0 q, pre = pre0 ++ [q] → q.2.free = false) →
        (∀ n post0, post = n :: post0 → n.2.free = false) →
        chain h1 = pre ++ (p - HEADER_SIZE, ⟨b.size, true, b.next⟩) :: post) ∧
      ((∀ pre0 q, pre = pre0 ++ [q] → q.2.free = false) →
        ∀ n post0, post = n :: post0 → n.2.free = true →
        chain h1 = pre ++ (p - HEADER_SIZE, ⟨b.size + n.2.size, true, n.2.next⟩) :: post0) ∧
      (∀ pre0 q, pre = pre0 ++ [q] → q.2.free = true →
        (∀ n post0, post = n :: post0 → n.2.free = false) →
        chain h1 = pre0 ++ (q.1, ⟨q.2.size + b.size, true, b.next⟩) :: post) ∧
      (∀ pre0 q, pre = pre0 ++ [q] → q.2.free = true →
        ∀ n post0, post = n :: post0 → n.2.free = true →
        chain h1
          = pre0 ++ (q.1, ⟨q.2.size + b.size + n.2.size, true, n.2.next⟩) :: post0) := by
  have hi := reachable_inv h out hr
  obtain ⟨pre, x, post, h1, hl, hxp, hxf, hfree, hinv, _⟩ := free_step h _ out p hi hp
  have hc := rep_chain _ _ hinv.rep
  obtain ⟨xo, b⟩ := x
  simp only [] at hxp hxf
  have hxo : xo = p - HEADER_SIZE := by omega
  subst hxo
  refine ⟨h1, pre, b, post, hfree, hl, hxf, ?_, ?_, ?_, ?_⟩
  · intro hq hn
    rw [hc]
    unfold released
    rcases merged_next_cases (p - HEADER_SIZE, ⟨b.size, true, b.next⟩) post with
      ⟨hmn, _⟩ | ⟨n, post0, hpost0, hnfree, _⟩
    · rw [hmn]
      rcases merged_prev_cases pre post (p - HEADER_SIZE, ⟨b.size, true, b.next⟩) with
        ⟨hmp, _⟩ | ⟨pre0, q, hpre0, hqfree, _⟩
      · exact hmp
      · rw [hq pre0 q hpre0] at hqfree
        simp at hqfree
    · rw [hn n post0 hpost0] at hnfree
      simp at hnfree
  · intro hq n post0 hpost0 hnfree
    rw [hc]
    unfold released
    rcases merged_next_cases (p - HEADER_SIZE, ⟨b.size, true, b.next⟩) post with
      ⟨_, hnf⟩ | ⟨n1, post1, hpost1, _, hmn⟩
    · rw [hnf n post0 hpost0] at hnfree
      simp at hnfree
    · rw [hmn]
      rw [hpost0] at hpost1
      simp only [List.cons.injEq] at hpost1
      obtain ⟨hn1, hp1⟩ := hpost1
      subst hn1 hp1
      rcases merged_prev_cases pre post0
          (p - HEADER_SIZE, ⟨b.size + n.2.size, true, n.2.next⟩) with
        ⟨hmp, _⟩ | ⟨pre0, q, hpre0, hqfree, _⟩
      · exact hmp
      · rw [hq pre0 q hpre0] at hqfree
        simp at hqfree
  · intro pre0 q hpre0 hqfree hn
    rw [hc]
    unfold released
    rcases merged_next_cases (p - HEADER_SIZE, ⟨b.size, true, b.next⟩) post with
      ⟨hmn, _⟩ | ⟨n, post0, hpost0, hnfree, _⟩
    · rw [hmn]
      rcases merged_prev_cases pre post (p - HEADER_SIZE, ⟨b.size, true, b.next⟩) with
        ⟨_, hqf⟩ | ⟨pre1, q1, hpre1, _, hmp⟩
      · rw [hqf pre0 q hpre0] at hqfree
        simp at hqfree
      · rw [hmp]
        rw [hpre0] at hpre1
        have h2 := List.append_inj_right' hpre1 rfl
        have h3 := List.append_inj_left' hpre1 rfl
        simp only [List.cons.injEq, and_true] at h2
        subst h2 h3
        simp [hqfree]
    · rw [hn n post0 hpost0] at hnfree
      simp at hnfree
  · intro pre0 q hpre0 hqfree n post0 hpost0 hnfree
    rw [hc]
    unfold released
    rcases merged_next_cases (p - HEADER_SIZE, ⟨b.size, true, b.next⟩) post with
      ⟨_, hnf⟩ | ⟨n1, post1, hpost1, _, hmn⟩
    · rw [hnf n post0 hpost0] at hnfree
      simp at hnfree
    · rw [hmn]
      rw [hpost0] at hpost1
      simp only [List.cons.injEq] at hpost1
      obtain ⟨hn1, hp1⟩ := hpost1
      subst hn1 hp1
      rcases merged_prev_cases pre post0
          (p - HEADER_SIZE, ⟨b.size + n.2.size, true, n.2.next⟩) with
        ⟨_, hqf⟩ | ⟨pre1, q1, hpre1, _, hmp⟩
      · rw [hqf pre0 q hpre0] at hqfree
        simp at hqfree
      · rw [hmp]
        rw [hpre0] at hpre1
        have h2 := List.append_inj_right' hpre1 rfl
        have h3 := List.append_inj_left' hpre1 rfl
        simp only [List.cons.injEq, and_true] at h2
        subst h2 h3
        simp [hqfree, Nat.add_assoc]

/-- Witness of C10: releasing the allocated block of `demo_hole`, whose two
neighbours are free. -/
theorem C10_release_coalesce_witness :
    ∃ h1 pre b post, free_block demo_hole (some 156) = some h1 ∧
      chain demo_hole = pre ++ (156 - HEADER_SIZE, b) :: post ∧ b.free = false ∧
      ((∀ pre0 q, pre = pre0 ++ [q] → q.2.free = false) →
        (∀ n post0, post = n :: post0 → n.2.free = false) →
        chain h1 = pre ++ (156 - HEADER_SIZE, ⟨b.size, true, b.next⟩) :: post) ∧
      ((∀ pre0 q, pre = pre0 ++ [q] → q.2.free = false) →
        ∀ n post0, post = n :: post0 → n.2.free = true →
        chain h1 = pre ++ (156 - HEADER_SIZE, ⟨b.size + n.2.size, true, n.2.next⟩) :: post0) ∧
      (∀ pre0 q, pre = pre0 ++ [q] → q.2.free = true →
        (∀ n post0, post = n :: post0 → n.2.free = false) →
        chain h1 = pre0 ++ (q.1, ⟨q.2.size + b.size, true, b.next⟩) :: post) ∧
      (∀ pre0 q, pre = pre0 ++ [q] → q.2.free = true →
        ∀ n post0, post = n :: post0 → n.2.free = true →
        chain h1
          = pre0 ++ (q.1, ⟨q.2.size + b.size + n.2.size, true, n.2.next⟩) :: post0) :=
  C10_release_coalesce demo_hole [156] 156 demo_hole_reachable (by decide)

/-- C12, zero-size rejection.  In every state whatsoever, whatever the active
strategy, `allocate_block(0)` returns `NULL` and leaves the state unchanged.
The fit strategy is not consulted: the call returns even in the state before
`init_heap`, where `find_free_block` has no result under any strategy. -/
theorem C12_zero_size_rejected :
    (∀ h : Heap, allocate_block h 0 = some (h, none)) ∧
    (∀ (s : Strategy) (T : Nat),
      find_free_block (change_strategy boot s) T s = none ∧
      allocate_block (change_strategy boot s) 0 = some (change_strategy boot s, none)) := by
  refine ⟨fun h => by simp [allocate_block], fun s T => ⟨?_, by simp [allocate_block]⟩⟩
  simp [find_free_block, change_strategy, boot]

/-- C14, the end-to-end scenario under FIRST_FIT.  After `init_heap`,
`allocate_block(100)` returns offset 24 and the chain is 132 allocated, 892
free; `allocate_block(200)` returns offset 156 and the chain is 132 allocated,
232 allocated, 660 free; `free_block` of the first pointer leaves three blocks,
the first one free, with no merge; `allocate_block(50)` returns offset 24 again
and splits the freed region into 82 allocated and 50 free; releasing the two
outstanding pointers, in either order, leaves one free block of 1024 bytes. -/
theorem C14_end_to_end :
    (init_heap boot).currStrategy = Strategy.FIRST_FIT ∧
    HEADER_SIZE + FOOTER_SIZE = 32 ∧ HEAP_SIZE = 1024 ∧
    (allocate_block (init_heap boot) 100).map (fun r => (chain r.1, r.2))
      = some ([(0, ⟨132, false, some 132⟩), (132, ⟨892, true, none⟩)], some 24) ∧
    (allocate_block demo_one 200).map (fun r => (chain r.1, r.2))
      = some ([(0, ⟨132, false, some 132⟩), (132, ⟨232, false, some 364⟩),
          (364, ⟨660, true, none⟩)], some 156) ∧
    (free_block demo_two (some 24)).map chain
      = some [(0, ⟨132, true, some 132⟩), (132, ⟨232, false, some 364⟩),
          (364, ⟨660, true, none⟩)] ∧
    (allocate_block demo_hole 50).map (fun r => (chain r.1, r.2))
      = some ([(0, ⟨82, false, some 82⟩), (82, ⟨50, true, some 132⟩),
          (132, ⟨232, false, some 364⟩), (364, ⟨660, true, none⟩)], some 24) ∧
    (free_all demo_reuse [24, 156]).map chain = some [(0, ⟨1024, true, none⟩)] ∧
    (free_all demo_reuse [156, 24]).map chain = some [(0, ⟨1024, true, none⟩)] := by
  refine ⟨rfl, rfl, rfl, ?_, ?_, ?_, ?_, ?_, ?_⟩ <;> decide

/-! ## Releasing twice -/

theorem merge_forward_free (h : Heap) (b : Nat) :
    ((merge_forward h b).mem b).free = (h.mem b).free := by
  unfold merge_forward
  split
  · split <;> simp
  · rfl

theorem merge_backward_free (h : Heap) (b : Nat) (prev : Option Nat) :
    ((merge_backward h b prev).mem b).free = (h.mem b).free := by
  cases prev with
  | none => rfl
  | some q =>
    simp only [merge_backward]
    split
    · by_cases hq : b = q <;> simp [hq]
    · rfl

/-- In any state, a call of `free_block` that returns leaves the header at
`p - HEADER_SIZE` marked free, and a second call on the same pointer returns
with the state unchanged. -/
theorem free_block_idem (h h1 : Heap) (p : Nat) (hf : free_block h (some p) = some h1) :
    (h1.mem (p - HEADER_SIZE)).free = true ∧ free_block h1 (some p) = some h1 := by
  have key : (h1.mem (p - HEADER_SIZE)).free = true ∧ ¬ (p < HEADER_SIZE) := by
    unfold free_block at hf
    by_cases hlt : p < HEADER_SIZE
    · simp [hlt] at hf
    · simp only [hlt, if_false] at hf
      by_cases hfree : (h.mem (p - HEADER_SIZE)).free = true
      · simp only [hfree, if_true, Option.some.injEq] at hf
        rw [← hf]
        exact ⟨hfree, hlt⟩
      · simp only [hfree, merge_block_eq] at hf
        cases hg : get_prev_block
            (merge_forward (wr_free h (p - HEADER_SIZE) true) (p - HEADER_SIZE))
            (some (p - HEADER_SIZE)) with
        | none =>
          rw [hg] at hf
          simp at hf
        | some prev =>
          rw [hg] at hf
          simp only [Option.map, Bool.false_eq_true, if_false, Option.some.injEq] at hf
          rw [← hf]
          refine ⟨?_, hlt⟩
          show ((merge_backward _ (p - HEADER_SIZE) prev).mem (p - HEADER_SIZE)).free = true
          rw [merge_backward_free, merge_forward_free]
          simp
  refine ⟨key.1, ?_⟩
  unfold free_block
  simp only [key.2, if_false, key.1, if_true]

theorem decomp_unique (l1 l2 m1 m2 : List (Nat × Block)) (x y : Nat × Block) (a e : Nat)
    (ht : Tiles a (l1 ++ x :: l2) e) (hpos : ∀ z ∈ l1 ++ x :: l2, 0 < z.2.size)
    (heq : l1 ++ x :: l2 = m1 ++ y :: m2) (hxy : x.1 = y.1) :
    l1 = m1 ∧ x = y ∧ l2 = m2 := by
  induction l1 generalizing m1 a with
  | nil =>
    cases m1 with
    | nil =>
      simp only [List.nil_append, List.cons.injEq] at heq
      exact ⟨rfl, heq.1, heq.2⟩
    | cons z m1r =>
      simp only [List.nil_append, List.cons_append, List.cons.injEq] at heq
      obtain ⟨hx, ht2⟩ := ht
      have hy : y ∈ l2 := by rw [heq.2]; simp
      have := (tiles_bounds _ _ _ ht2 y hy).1
      have := hpos x (by simp)
      omega
  | cons w l1r ih =>
    cases m1 with
    | nil =>
      simp only [List.nil_append, List.cons_append, List.cons.injEq] at heq
      obtain ⟨hw, ht2⟩ := ht
      have hx : x ∈ l1r ++ x :: l2 := by simp
      have := (tiles_bounds _ _ _ ht2 x hx).1
      have := hpos w (by simp)
      rw [← heq.1] at hxy
      omega
    | cons z m1r =>
      simp only [List.cons_append, List.cons.injEq] at heq
      obtain ⟨hw, ht2⟩ := ht
      obtain ⟨h1, h2, h3⟩ := ih m1r _ ht2
        (fun u hu => hpos u (List.mem_cons_of_mem _ hu)) heq.2
      exact ⟨by rw [heq.1, h1], h2, h3⟩

/-- After the release of a block whose predecessor is free, no block of the
chain starts at the offset of the released block. -/
theorem released_absorbed (pre post : List (Nat × Block)) (q x : Nat × Block) (a e : Nat)
    (ht : Tiles a (pre ++ q :: x :: post) e)
    (hpos : ∀ z ∈ pre ++ q :: x :: post, 0 < z.2.size)
    (ht2 : Tiles a (released (pre ++ [q]) x post) e) (hq : q.2.free = true) :
    ∀ y ∈ released (pre ++ [q]) x post, y.1 ≠ x.1 := by
  obtain ⟨_, hqx, _, _⟩ := tiles_split_order _ _ _ _ _ ht
  have hx1 : x.1 = q.1 + q.2.size := hqx.1
  have hpq := hpos q (by simp)
  have hpx := hpos x (by simp)
  unfold released at ht2 ⊢
  have hcur : ∃ cur rest, merged_next (x.1, ⟨x.2.size, true, x.2.next⟩) post = cur :: rest ∧
      cur.1 = x.1 ∧ x.2.size ≤ cur.2.size := by
    rcases merged_next_cases (x.1, ⟨x.2.size, true, x.2.next⟩) post with
      ⟨hmn, _⟩ | ⟨n, post0, _, _, hmn⟩
    · exact ⟨_, _, hmn, rfl, le_refl _⟩
    · exact ⟨_, _, hmn, rfl, by simp⟩
  obtain ⟨cur, rest, hmn, hc1, hc2⟩ := hcur
  rw [hmn] at ht2 ⊢
  rcases merged_prev_cases (pre ++ [q]) rest cur with
    ⟨_, hqf⟩ | ⟨pre0, q1, hpre0, _, hmp⟩
  · rw [hqf pre q rfl] at hq
    simp at hq
  · have h2 := List.append_inj_right' hpre0 rfl
    have h3 := List.append_inj_left' hpre0 rfl
    simp only [List.cons.injEq, and_true] at h2
    subst h2 h3
    rw [hmp] at ht2 ⊢
    obtain ⟨_, _, hlo, hhi⟩ := tiles_split_order _ _ _ _ _ ht2
    intro y hy
    simp only [List.mem_append, List.mem_cons] at hy
    rcases hy with hy | hy | hy
    · have := hlo y hy
      simp only [] at this
      omega
    · rw [hy]
      simp only []
      omega
    · have := hhi y hy
      simp only [] at this
      omega

/-! ## What a release writes -/

theorem merge_forward_writes (h : Heap) (b : Nat) :
    (∀ k, k ≠ b → (merge_forward h b).mem k = h.mem k) ∧
    (∀ k, (merge_forward h b).footer k ≠ h.footer k →
      ∃ n, (h.mem b).next = some n ∧ b + (h.mem b).size = n ∧
        k = b + ((h.mem b).size + (h.mem n).size) % SIZE_MOD - FOOTER_SIZE) := by
  unfold merge_forward
  cases hn : (h.mem b).next with
  | none => exact ⟨fun _ _ => rfl, fun k hk => absurd rfl hk⟩
  | some n =>
    simp only []
    by_cases hc : (h.mem n).free = true ∧ b + (h.mem b).size = n
    · rw [if_pos hc]
      constructor
      · intro k hk
        simp [hk]
      · intro k hk
        refine ⟨n, rfl, hc.2, ?_⟩
        by_contra hne
        apply hk
        simp [set_footer, wr_next, wr_size, hne]
    · rw [if_neg hc]
      exact ⟨fun _ _ => rfl, fun k hk => absurd rfl hk⟩

theorem merge_backward_writes (h : Heap) (b q : Nat) :
    (∀ k, k ≠ q → (merge_backward h b (some q)).mem k = h.mem k) ∧
    (∀ k, (merge_backward h b (some q)).footer k ≠ h.footer k →
      q + (h.mem q).size = b ∧
        k = q + ((h.mem q).size + (h.mem b).size) % SIZE_MOD - FOOTER_SIZE) := by
  simp only [merge_backward]
  by_cases hc : (h.mem q).free = true ∧ q + (h.mem q).size = b
  · rw [if_pos hc]
    constructor
    · intro k hk
      simp [hk]
    · intro k hk
      refine ⟨hc.2, ?_⟩
      by_contra hne
      apply hk
      simp [set_footer, wr_next, wr_size, hne]
  · rw [if_neg hc]
    exact ⟨fun _ _ => rfl, fun k hk => absurd rfl hk⟩

theorem free_block_form (h h1 : Heap) (b : Nat) (hfree : (h.mem b).free = false)
    (hf : free_block h (some (b + HEADER_SIZE)) = some h1) :
    ∃ prev, get_prev_block (merge_forward (wr_free h b true) b) (some b) = some prev ∧
      h1.mem = (merge_backward (merge_forward (wr_free h b true) b) b prev).mem ∧
      h1.footer = (merge_backward (merge_forward (wr_free h b true) b) b prev).footer := by
  have hge : ¬ (b + HEADER_SIZE < HEADER_SIZE) := by omega
  unfold free_block at hf
  simp only [hge, if_false, Nat.add_sub_cancel, hfree, Bool.false_eq_true,
    merge_block_eq] at hf
  cases hg : get_prev_block (merge_forward (wr_free h b true) b) (some b) with
  | none =>
    rw [hg] at hf
    simp at hf
  | some prev =>
    rw [hg] at hf
    simp only [Option.map, Option.some.injEq] at hf
    rw [← hf]
    exact ⟨prev, rfl, rfl, rfl⟩

/-- The writes of `free_block` on an allocated block `x` of a laid-out chain
whose blocks can each hold a header, a footer and a byte: the only header
records written are the one of `x` and one that ends at or before the start of
`x`; every footer word written starts at or after the end of the header of `x`
and lies in the arena. -/
theorem free_writes (h h1 : Heap) (pre post : List (Nat × Block)) (x : Nat × Block)
    (hr : Rep h (pre ++ x :: post))
    (hmin : ∀ y ∈ pre ++ x :: post, HEADER_SIZE + FOOTER_SIZE + 1 ≤ y.2.size)
    (hx : x.2.free = false) (hf : free_block h (some (x.1 + HEADER_SIZE)) = some h1) :
    (∀ k, h1.mem k ≠ h.mem k → k = x.1 ∨ k + HEADER_SIZE ≤ x.1) ∧
    (∀ k, h1.footer k ≠ h.footer k →
      x.1 + HEADER_SIZE ≤ k ∧ k + FOOTER_SIZE ≤ HEAP_SIZE) := by
  obtain ⟨hpre, hpost, _, _⟩ := tiles_split_order _ _ _ _ _ hr.tiles
  have hxm : x ∈ pre ++ x :: post := by simp
  have hmx := hr.agrees x hxm
  have hxs := hmin x hxm
  have hxb := tiles_bounds _ _ _ hr.tiles x hxm
  have hr0 : Rep (wr_free h x.1 true) (pre ++ [(x.1, ⟨x.2.size, true, x.2.next⟩)] ++ post) := by
    refine rep_replace h _ (pre ++ x :: post) pre _ post x.1 (x.1 + x.2.size) hr
      (fun y hy => List.mem_append_left _ hy)
      (fun y hy => List.mem_append_right _ (List.mem_cons_of_mem _ hy))
      hpre ?_ hpost ?_ ?_ ?_ ?_ ?_
    · simp [Tiles]
    · simp [hr.head]
    · simp only [List.mem_singleton]
      rintro y rfl
      exact hr.pos x hxm
    · simp only [List.mem_singleton]
      rintro y rfl
      exact hr.link x hxm
    · simp only [List.mem_singleton]
      rintro y rfl
      simp [hmx]
    · intro q hq
      have := hr.pos x hxm
      have h1 : q ≠ x.1 := by omega
      simp [h1]
  simp only [List.append_assoc, List.singleton_append] at hr0
  have hrf := merge_forward_rep _ pre post (x.1, ⟨x.2.size, true, x.2.next⟩) hr0
  simp only [] at hrf
  have hcur : ∃ cur rest, merged_next (x.1, ⟨x.2.size, true, x.2.next⟩) post = cur :: rest ∧
      cur.1 = x.1 ∧ x.2.size ≤ cur.2.size := by
    rcases merged_next_cases (x.1, ⟨x.2.size, true, x.2.next⟩) post with
      ⟨hmn, _⟩ | ⟨n, post0, _, _, hmn⟩
    · exact ⟨_, _, hmn, rfl, le_refl _⟩
    · exact ⟨_, _, hmn, rfl, by simp⟩
  obtain ⟨cur, rest, hmn, hc1, hc2⟩ := hcur
  rw [hmn] at hrf
  have hgp := get_prev_rep _ pre rest cur hrf
  rw [hc1] at hgp
  obtain ⟨prev, hg, hm1, hf1⟩ := free_block_form h h1 x.1 (by rw [hmx]; exact hx) hf
  rw [hgp] at hg
  simp only [Option.some.injEq] at hg
  obtain ⟨hfm, hff⟩ := merge_forward_writes (wr_free h x.1 true) x.1
  -- the forward merge only writes a footer at the end of the next block
  have hfwd : ∀ k, (merge_forward (wr_free h x.1 true) x.1).footer k ≠ h.footer k →
      x.1 + HEADER_SIZE ≤ k ∧ k + FOOTER_SIZE ≤ HEAP_SIZE := by
    intro k hk
    obtain ⟨n, hn1, hn2, hn3⟩ := hff k hk
    have hm0 : (wr_free h x.1 true).mem x.1 = ⟨x.2.size, true, x.2.next⟩ := by simp [hmx]
    rw [hm0] at hn1 hn2 hn3
    simp only [] at hn1 hn2 hn3
    cases post with
    | nil =>
      simp only [Tiles] at hpost
      rw [hr.link x hxm] at hn1
      simp [nextOf, ptrAt, hpost] at hn1
    | cons nn post0 =>
      have hnnm : nn ∈ pre ++ x :: nn :: post0 := by simp
      have hnn1 : nn.1 = x.1 + x.2.size := hpost.1
      have hnns := hmin nn hnnm
      have hnnb := tiles_bounds _ _ _ hr.tiles nn hnnm
      have hne : nn.1 ≠ x.1 := by omega
      have hmn2 : (wr_free h x.1 true).mem n = nn.2 := by
        rw [← hn2, ← hnn1]
        simp only [wr_free_mem, hne, if_false]
        exact hr.agrees nn hnnm
      rw [hmn2] at hn3
      have hmod : (x.2.size + nn.2.size) % SIZE_MOD = x.2.size + nn.2.size := by
        apply Nat.mod_eq_of_lt
        unfold HEAP_SIZE at hnnb
        unfold SIZE_MOD
        omega
      rw [hmod] at hn3
      unfold HEADER_SIZE FOOTER_SIZE at *
      omega
  rcases List.eq_nil_or_concat pre with hnil | ⟨pre0, q, hq⟩
  · subst hnil
    simp only [last_off] at hg
    subst hg
    simp only [merge_backward] at hm1 hf1
    constructor
    · intro k hk
      left
      by_contra hne
      apply hk
      rw [hm1, hfm k hne]
      simp [hne]
    · intro k hk
      rw [hf1] at hk
      exact hfwd k hk
  · rw [List.concat_eq_append] at hq
    subst hq
    rw [last_off_concat] at hg
    subst hg
    obtain ⟨hbm, hbf⟩ := merge_backward_writes (merge_forward (wr_free h x.1 true) x.1) x.1 q.1
    rw [List.append_assoc, List.singleton_append] at hrf
    have hqm : q ∈ pre0 ++ q :: cur :: rest := by simp
    have hcm : cur ∈ pre0 ++ q :: cur :: rest := by simp
    have hqx : q.1 + q.2.size = x.1 := by
      obtain ⟨_, h2, _, _⟩ := tiles_split_order _ _ _ _ _ hpre
      simp only [Tiles] at h2
      exact h2
    have hqs := hmin q (by simp)
    have hcb := tiles_bounds _ _ _ hrf.tiles cur hcm
    constructor
    · intro k hk
      by_cases hkx : k = x.1
      · exact Or.inl hkx
      · right
        by_cases hkq : k = q.1
        · rw [hkq]
          unfold HEADER_SIZE FOOTER_SIZE at *
          omega
        · exfalso
          apply hk
          rw [hm1, hbm k hkq, hfm k hkx]
          simp [hkx]
    · intro k hk
      by_cases hkf : (merge_forward (wr_free h x.1 true) x.1).footer k = h.footer k
      · rw [hf1, ← hkf] at hk
        obtain ⟨_, hk2⟩ := hbf k hk
        rw [hrf.agrees q hqm] at hk2
        have hmc : (merge_forward (wr_free h x.1 true) x.1).mem x.1 = cur.2 := by
          have := hrf.agrees cur hcm
          rw [hc1] at this
          exact this
        rw [hmc] at hk2
        have hmod : (q.2.size + cur.2.size) % SIZE_MOD = q.2.size + cur.2.size := by
          apply Nat.mod_eq_of_lt
          unfold HEAP_SIZE at hcb
          unfold SIZE_MOD
          omega
        rw [hmod] at hk2
        unfold HEADER_SIZE FOOTER_SIZE at *
        omega
      · exact hfwd k hkf

/-- C13, double-free safety.  In every reachable state and for every
outstanding pointer `p`, `free_block(p)` returns; in the state it leaves, the
header at `p - HEADER_SIZE` is marked free, so that a second `free_block(p)`
takes the already-free branch, returns, and leaves the very same state, hence
the same chain.  This includes the case where the first call merged the block
of `p` into its free predecessor: then no block of the chain starts at
`p - HEADER_SIZE` any more, and the second call reads the header left behind
there.  That header is intact: besides it, the first call writes at most one
header record, which ends at or before `p - HEADER_SIZE`, and every footer word
it writes starts at or after `p`, where the header ends. -/
theorem C13_double_free (h : Heap) (out : List Nat) (p : Nat) (hr : Reachable h out)
    (hp : p ∈ out) :
    ∃ h1, free_block h (some p) = some h1 ∧
      (h1.mem (p - HEADER_SIZE)).free = true ∧
      free_block h1 (some p) = some h1 ∧
      (∀ pre q b post, chain h = pre ++ q :: (p - HEADER_SIZE, b) :: post →
        q.2.free = true → ∀ y ∈ chain h1, y.1 ≠ p - HEADER_SIZE) ∧
      (∀ k, h1.mem k ≠ h.mem k → k = p - HEADER_SIZE ∨ k + HEADER_SIZE ≤ p - HEADER_SIZE) ∧
      (∀ k, h1.footer k ≠ h.footer k → p ≤ k ∧ k + FOOTER_SIZE ≤ HEAP_SIZE) := by
  have hi := reachable_inv h out hr
  obtain ⟨pre1, x, post1, h1, hl, hxp, hxf, hf, hinv, _⟩ := free_step h _ out p hi hp
  obtain ⟨hfree, hidem⟩ := free_block_idem h h1 p hf
  have hxo : x.1 = p - HEADER_SIZE := by omega
  have hw : (∀ k, h1.mem k ≠ h.mem k → k = x.1 ∨ k + HEADER_SIZE ≤ x.1) ∧
      (∀ k, h1.footer k ≠ h.footer k →
        x.1 + HEADER_SIZE ≤ k ∧ k + FOOTER_SIZE ≤ HEAP_SIZE) := by
    have hrep := hi.rep
    have hmin := hi.minsize
    rw [hl] at hrep hmin
    exact free_writes h h1 pre1 post1 x hrep hmin hxf (by rw [hxp]; exact hf)
  refine ⟨h1, hf, hfree, hidem, ?_, ?_, ?_⟩
  · intro pre q b post hc hq
    have heq : (pre ++ [q]) ++ (p - HEADER_SIZE, b) :: post = pre1 ++ x :: post1 := by
      rw [← hl, hc]
      simp
    have ht := hi.rep.tiles
    have hpos := hi.rep.pos
    rw [hc] at ht hpos
    have ht' : Tiles 0 ((pre ++ [q]) ++ (p - HEADER_SIZE, b) :: post) HEAP_SIZE := by
      simpa using ht
    obtain ⟨h1e, h2e, h3e⟩ := decomp_unique _ _ _ _ _ _ _ _ ht'
      (by simpa using hpos) heq hxo.symm
    subst h1e h2e h3e
    rw [rep_chain h1 _ hinv.rep]
    exact released_absorbed pre post q (p - HEADER_SIZE, b) 0 HEAP_SIZE ht hpos
      hinv.rep.tiles hq
  · intro k hk
    rw [← hxo]
    exact hw.1 k hk
  · intro k hk
    rw [← hxp]
    exact hw.2 k hk

/-- Witness of C13: in `demo_hole` the block of the outstanding pointer 156
has a free predecessor, into which the first release merges it. -/
theorem C13_double_free_witness :
    ∃ h1, free_block demo_hole (some 156) = some h1 ∧
      (h1.mem (156 - HEADER_SIZE)).free = true ∧
      free_block h1 (some 156) = some h1 ∧
      (∀ pre q b post, chain demo_hole = pre ++ q :: (156 - HEADER_SIZE, b) :: post →
        q.2.free = true → ∀ y ∈ chain h1, y.1 ≠ 156 - HEADER_SIZE) ∧
      (∀ k, h1.mem k ≠ demo_hole.mem k →
        k = 156 - HEADER_SIZE ∨ k + HEADER_SIZE ≤ 156 - HEADER_SIZE) ∧
      (∀ k, h1.footer k ≠ demo_hole.footer k → 156 ≤ k ∧ k + FOOTER_SIZE ≤ HEAP_SIZE) :=
  C13_double_free demo_hole [156] 156 demo_hole_reachable (by decide)

/-! ## Requested sizes -/

theorem map_fst_erase (reqs : List (Nat × Nat)) (p S : Nat)
    (hnd : (reqs.map Prod.fst).Nodup) (hm : (p, S) ∈ reqs) :
    (reqs.erase (p, S)).map Prod.fst = (reqs.map Prod.fst).erase p := by
  induction reqs with
  | nil => simp at hm
  | cons r rs ih =>
    simp only [List.map_cons, List.nodup_cons] at hnd
    by_cases hr : r = (p, S)
    · subst hr
      simp
    · have hm2 : (p, S) ∈ rs := by
        rcases List.mem_cons.1 hm with hm1 | hm1
        · exact absurd hm1.symm hr
        · exact hm1
      have hne : r.1 ≠ p := by
        intro heq
        apply hnd.1
        rw [heq]
        exact List.mem_map.2 ⟨(p, S), hm2, rfl⟩
      rw [List.erase_cons_tail (by simpa using hr)]
      simp only [List.map_cons]
      rw [List.erase_cons_tail (by simpa using hne), ih hnd.2 hm2]

theorem split_list_owner (pre post : List (Nat × Block)) (x : Nat × Block) (T : Nat)
    (hq : Qualifies T x) :
    ∃ y ∈ split_list pre x post T, y.1 = x.1 ∧ y.2.free = false ∧ T ≤ y.2.size ∧
      y.2.size ≤ T + (HEADER_SIZE + FOOTER_SIZE) ∧
      (x.2.size ≥ T + HEADER_SIZE + FOOTER_SIZE + 1 → y.2.size = T) ∧
      (¬ (x.2.size ≥ T + HEADER_SIZE + FOOTER_SIZE + 1) → y.2.size = x.2.size) := by
  have hx := hq.2
  by_cases hc : x.2.size ≥ T + HEADER_SIZE + FOOTER_SIZE + 1
  · refine ⟨(x.1, ⟨T, false, some (x.1 + T)⟩), by simp [split_list, hc], rfl, rfl,
      le_refl _, by simp, fun _ => rfl, fun hn => absurd hc hn⟩
  · refine ⟨(x.1, ⟨x.2.size, false, x.2.next⟩), by simp [split_list, hc], rfl, rfl,
      hx, ?_, fun hn => absurd hn hc, fun _ => rfl⟩
    simp only []
    omega

theorem inv_req_alloc (h : Heap) (pre post : List (Nat × Block)) (x : Nat × Block)
    (reqs : List (Nat × Nat)) (S : Nat) (hS : 0 < S)
    (hi : InvReq h (pre ++ x :: post) reqs)
    (hq : Qualifies (HEADER_SIZE + S + FOOTER_SIZE) x)
    (hinv : Inv (split_block h x.1 (HEADER_SIZE + S + FOOTER_SIZE))
      (split_list pre x post (HEADER_SIZE + S + FOOTER_SIZE))
      ((x.1 + HEADER_SIZE) :: reqs.map Prod.fst)) :
    InvReq (split_block h x.1 (HEADER_SIZE + S + FOOTER_SIZE))
      (split_list pre x post (HEADER_SIZE + S + FOOTER_SIZE))
      ((x.1 + HEADER_SIZE, S) :: reqs) := by
  refine ⟨by simpa using hinv, ?_⟩
  intro r hr
  rcases List.mem_cons.1 hr with hr1 | hr1
  · rw [hr1]
    obtain ⟨y, hy, hy1, _, hy3, hy4, _, _⟩ := split_list_owner pre post x _ hq
    exact ⟨hS, y, hy, by rw [hy1], hy3, hy4⟩
  · obtain ⟨hpos, y, hy, hy1, hy2, hy3⟩ := hi.sized r hr1
    refine ⟨hpos, y, ?_, hy1, hy2, hy3⟩
    apply split_frame pre post x y _ hy
    intro hyx
    have hmem : y.1 + HEADER_SIZE ∈ reqs.map Prod.fst := by
      rw [hy1]
      exact List.mem_map.2 ⟨r, hr1, rfl⟩
    have := (hi.inv.acc y hy).2 hmem
    rw [hyx, hq.1] at this
    simp at this

theorem inv_req_release (h h1 : Heap) (pre post : List (Nat × Block)) (x : Nat × Block)
    (reqs : List (Nat × Nat)) (S : Nat)
    (hi : InvReq h (pre ++ x :: post) reqs) (hm : (x.1 + HEADER_SIZE, S) ∈ reqs)
    (hinv : Inv h1 (released pre x post) ((reqs.map Prod.fst).erase (x.1 + HEADER_SIZE))) :
    InvReq h1 (released pre x post) (reqs.erase (x.1 + HEADER_SIZE, S)) := by
  have hmap := map_fst_erase reqs _ S hi.inv.nodup hm
  refine ⟨by rw [hmap]; exact hinv, ?_⟩
  intro r hr
  have hr1 : r ∈ reqs := List.mem_of_mem_erase hr
  have hr2 : r.1 ∈ (reqs.map Prod.fst).erase (x.1 + HEADER_SIZE) := by
    rw [← hmap]
    exact List.mem_map.2 ⟨r, hr, rfl⟩
  rw [hi.inv.nodup.mem_erase_iff] at hr2
  obtain ⟨hpos, y, hy, hy1, hy2, hy3⟩ := hi.sized r hr1
  refine ⟨hpos, y, ?_, hy1, hy2, hy3⟩
  apply released_frame pre post x y hy
  · exact (hi.inv.acc y hy).2 (by rw [hy1]; exact hr2.2)
  · intro hyx
    rw [hyx] at hy1
    exact hr2.1 hy1.symm

/-- Every state reachable with requested sizes satisfies the invariant with
requested sizes, for its own chain. -/
theorem reachable_req_inv (h : Heap) (reqs : List (Nat × Nat)) (hr : ReachableReq h reqs) :
    InvReq h (chain h) reqs := by
  have key : ∃ l, InvReq h l reqs := by
    induction hr with
    | init => exact ⟨_, ⟨by simpa using inv_init, by simp⟩⟩
    | alloc_ok h reqs S h1 p _ hS heq ih =>
      obtain ⟨l, hi⟩ := ih
      rcases alloc_step h l _ S hi.inv hS with
        ⟨ha, _⟩ | ⟨pre, x, post, hS0, hl, hq, _, ha, hinv⟩
      · rw [ha] at heq
        simp at heq
      · rw [ha] at heq
        simp only [Option.some.injEq, Prod.mk.injEq] at heq
        rw [← heq.1, ← heq.2]
        subst hl
        exact ⟨_, inv_req_alloc h pre post x reqs S hS0 hi hq hinv⟩
    | alloc_fail h reqs S h1 _ hS heq ih =>
      obtain ⟨l, hi⟩ := ih
      rcases alloc_step h l _ S hi.inv hS with ⟨ha, _⟩ | ⟨pre, x, post, _, _, _, _, ha, _⟩
      · rw [ha] at heq
        simp only [Option.some.injEq, Prod.mk.injEq, and_true] at heq
        rw [← heq]
        exact ⟨l, hi⟩
      · rw [ha] at heq
        simp at heq
    | release h reqs p S h1 _ hp heq ih =>
      obtain ⟨l, hi⟩ := ih
      have hp2 : p ∈ reqs.map Prod.fst := List.mem_map.2 ⟨(p, S), hp, rfl⟩
      obtain ⟨pre, x, post, h2, hl, hxp, _, hf, hinv, _⟩ := free_step h l _ p hi.inv hp2
      rw [hf] at heq
      simp only [Option.some.injEq] at heq
      rw [← heq]
      subst hl
      rw [← hxp] at hp hinv ⊢
      exact ⟨_, inv_req_release h h2 pre post x reqs S hi hp hinv⟩
    | strategy h reqs s _ ih =>
      obtain ⟨l, hi⟩ := ih
      exact ⟨l, ⟨inv_strategy h l _ s hi.inv, hi.sized⟩⟩
  obtain ⟨l, hi⟩ := key
  rw [rep_chain h l hi.inv.rep]
  exact hi

/-- Forgetting the requested sizes gives a reachable state. -/
theorem reachable_of_req (h : Heap) (reqs : List (Nat × Nat)) (hr : ReachableReq h reqs) :
    Reachable h (reqs.map Prod.fst) := by
  induction hr with
  | init => exact Reachable.init
  | alloc_ok h reqs S h1 p _ hS heq ih => exact Reachable.alloc_ok h _ S h1 p ih hS heq
  | alloc_fail h reqs S h1 _ hS heq ih => exact Reachable.alloc_fail h _ S h1 ih hS heq
  | release h reqs p S h1 hrq hp heq ih =>
    have hnd := (reachable_req_inv h reqs hrq).inv.nodup
    rw [map_fst_erase reqs p S hnd hp]
    exact Reachable.release h _ p h1 ih (List.mem_map.2 ⟨(p, S), hp, rfl⟩) heq
  | strategy h reqs s _ ih => exact Reachable.strategy h _ s ih

/-- Every reachable state is reachable with requested sizes. -/
theorem req_of_reachable (h : Heap) (out : List Nat) (hr : Reachable h out) :
    ∃ reqs, ReachableReq h reqs ∧ reqs.map Prod.fst = out := by
  induction hr with
  | init => exact ⟨[], ReachableReq.init, rfl⟩
  | alloc_ok h out S h1 p _ hS heq ih =>
    obtain ⟨reqs, hrq, hm⟩ := ih
    exact ⟨(p, S) :: reqs, ReachableReq.alloc_ok h reqs S h1 p hrq hS heq, by simp [hm]⟩
  | alloc_fail h out S h1 _ hS heq ih =>
    obtain ⟨reqs, hrq, hm⟩ := ih
    exact ⟨reqs, ReachableReq.alloc_fail h reqs S h1 hrq hS heq, hm⟩
  | release h out p h1 _ hp heq ih =>
    obtain ⟨reqs, hrq, hm⟩ := ih
    rw [← hm] at hp
    obtain ⟨r, hr1, hr2⟩ := List.mem_map.1 hp
    obtain ⟨p1, S⟩ := r
    simp only [] at hr2
    subst hr2
    have hnd := (reachable_req_inv h reqs hrq).inv.nodup
    refine ⟨reqs.erase (p1, S), ReachableReq.release h reqs p1 S h1 hrq hr1 heq, ?_⟩
    rw [map_fst_erase reqs p1 S hnd hr1, hm]
  | strategy h out s _ ih =>
    obtain ⟨reqs, hrq, hm⟩ := ih
    exact ⟨reqs, ReachableReq.strategy h reqs s hrq, hm⟩

theorem tiles_disjoint (l : List (Nat × Block)) (a e : Nat) (ht : Tiles a l e)
    (x y : Nat × Block) (hx : x ∈ l) (hy : y ∈ l) (hne : x.1 ≠ y.1) :
    x.1 + x.2.size ≤ y.1 ∨ y.1 + y.2.size ≤ x.1 := by
  induction l generalizing a with
  | nil => simp at hx
  | cons z r ih =>
    obtain ⟨hz, ht2⟩ := ht
    rcases List.mem_cons.1 hx with hx1 | hx1
    · rcases List.mem_cons.1 hy with hy1 | hy1
      · rw [hx1, hy1] at hne
        exact absurd rfl hne
      · left
        have := (tiles_bounds _ _ _ ht2 y hy1).1
        rw [hx1]
        omega
    · rcases List.mem_cons.1 hy with hy1 | hy1
      · right
        have := (tiles_bounds _ _ _ ht2 x hx1).1
        rw [hy1]
        omega
      · exact ih _ ht2 hx1 hy1

/-! ## Allocation followed by release, and oversized requests -/

theorem split_block_strategy (h : Heap) (b T : Nat) :
    (split_block h b T).currStrategy = h.currStrategy := by
  unfold split_block
  split <;> simp

theorem free_block_eta (x : Nat × Block) (hx : x.2.free = true) :
    (x.1, (⟨x.2.size, true, x.2.next⟩ : Block)) = x := by
  obtain ⟨o, sz, fr, nx⟩ := x
  simp only [] at hx
  subst hx
  rfl

/-- In a reachable state, an allocation whose total size does not wrap,
followed at once by the release of the returned pointer, restores the chain. -/
theorem round_trip (h : Heap) (out : List Nat) (S : Nat) (h1 : Heap) (p : Nat)
    (hr : Reachable h out) (hS : HEADER_SIZE + S + FOOTER_SIZE < SIZE_MOD)
    (ha : allocate_block h S = some (h1, some p)) :
    ∃ h2, free_block h1 (some p) = some h2 ∧ chain h2 = chain h ∧
      h2.currStrategy = h.currStrategy := by
  have hi := reachable_inv h out hr
  rcases alloc_step h _ out S hi hS with
    ⟨ha1, _⟩ | ⟨pre, x, post, _, hl, hq, _, ha1, hinv⟩
  · rw [ha1] at ha
    simp at ha
  · rw [ha1] at ha
    simp only [Option.some.injEq, Prod.mk.injEq] at ha
    obtain ⟨hh1, hp⟩ := ha
    subst hh1 hp
    rw [hl] at hi ⊢
    obtain ⟨hpre, hpost, _, _⟩ := tiles_split_order _ _ _ _ _ hi.rep.tiles
    have hxm : x ∈ pre ++ x :: post := by simp
    have hxT := hq.2
    -- the neighbours of the selected block are allocated
    have hprev : ∀ pre0 q, pre = pre0 ++ [q] → q.2.free = true → False := by
      intro pre0 q hpq hqf
      subst hpq
      obtain ⟨_, h2, _, _⟩ := tiles_split_order _ _ _ _ _ hpre
      simp only [Tiles] at h2
      exact hi.noadj q (by simp) x hxm h2 ⟨hqf, hq.1⟩
    have hnext : ∀ n post0, post = n :: post0 → n.2.free = true → False := by
      intro n post0 hpn hnf
      subst hpn
      exact hi.noadj x hxm n (by simp) hpost.1.symm ⟨hq.1, hnf⟩
    have hrep1 := hinv.rep
    by_cases hc : x.2.size ≥ HEADER_SIZE + S + FOOTER_SIZE + HEADER_SIZE + FOOTER_SIZE + 1
    · have e1 : split_list pre x post (HEADER_SIZE + S + FOOTER_SIZE)
          = pre ++ (x.1, ⟨HEADER_SIZE + S + FOOTER_SIZE, false,
              some (x.1 + (HEADER_SIZE + S + FOOTER_SIZE))⟩) ::
            (x.1 + (HEADER_SIZE + S + FOOTER_SIZE),
              ⟨x.2.size - (HEADER_SIZE + S + FOOTER_SIZE), true, x.2.next⟩) :: post := by
        simp [split_list, hc]
      rw [e1] at hrep1
      obtain ⟨h2, hf, hrep2, hstr⟩ := free_rep _ pre _ _ hrep1 rfl
      refine ⟨h2, hf, ?_, by rw [hstr, split_block_strategy]⟩
      rw [rep_chain h2 _ hrep2]
      unfold released
      have hsz : HEADER_SIZE + S + FOOTER_SIZE + (x.2.size - (HEADER_SIZE + S + FOOTER_SIZE))
          = x.2.size := by omega
      simp only [merged_next, if_true, hsz]
      rcases merged_prev_cases pre post (x.1, ⟨x.2.size, true, x.2.next⟩) with
        ⟨hmp, _⟩ | ⟨pre0, q, hpq, hqf, _⟩
      · rw [hmp, free_block_eta x hq.1]
      · exact absurd hqf (fun hqf1 => hprev pre0 q hpq hqf1)
    · have e1 : split_list pre x post (HEADER_SIZE + S + FOOTER_SIZE)
          = pre ++ (x.1, ⟨x.2.size, false, x.2.next⟩) :: post := by
        simp [split_list, hc]
      rw [e1] at hrep1
      obtain ⟨h2, hf, hrep2, hstr⟩ := free_rep _ pre _ _ hrep1 rfl
      refine ⟨h2, hf, ?_, by rw [hstr, split_block_strategy]⟩
      rw [rep_chain h2 _ hrep2]
      unfold released
      simp only []
      rcases merged_next_cases (x.1, ⟨x.2.size, true, x.2.next⟩) post with
        ⟨hmn, _⟩ | ⟨n, post0, hpn, hnf, _⟩
      · rw [hmn]
        rcases merged_prev_cases pre post (x.1, ⟨x.2.size, true, x.2.next⟩) with
          ⟨hmp, _⟩ | ⟨pre0, q, hpq, hqf, _⟩
        · rw [hmp, free_block_eta x hq.1]
        · exact absurd hqf (fun hqf1 => hprev pre0 q hpq hqf1)
      · exact absurd hnf (fun hnf1 => hnext n post0 hpn hnf1)

/-- In a reachable state, a request larger than the arena can hold, whose
total size does not wrap, is rejected and the state is unchanged. -/
theorem oversized_rejected (h : Heap) (out : List Nat) (S : Nat) (hr : Reachable h out)
    (hbig : HEAP_SIZE - (HEADER_SIZE + FOOTER_SIZE) < S)
    (hS : HEADER_SIZE + S + FOOTER_SIZE < SIZE_MOD) :
    allocate_block h S = some (h, none) := by
  have hi := reachable_inv h out hr
  rcases alloc_step h _ out S hi hS with ⟨ha, _⟩ | ⟨pre, x, post, _, hl, hq, _, _, _⟩
  · exact ha
  · have := tiles_bounds _ _ _ hi.rep.tiles x (by rw [hl]; simp)
    have := hq.2
    unfold HEAP_SIZE HEADER_SIZE FOOTER_SIZE at *
    omega

theorem demo_two_req : ReachableReq demo_two [(156, 200), (24, 100)] :=
  ReachableReq.alloc_ok _ [(24, 100)] 200 _ 156
    (ReachableReq.alloc_ok _ [] 100 _ 24 ReachableReq.init (by decide) rfl) (by decide) rfl

theorem demo_hole_req : ReachableReq demo_hole [(156, 200)] :=
  ReachableReq.release _ [(156, 200), (24, 100)] 24 100 _ demo_two_req (by decide) rfl

/-- C15, payload bounds and non-overlap.  In every reachable state,
outstanding allocations have pairwise distinct pointers; for every outstanding
allocation made by `allocate_block(S)` (with `S > 0` and a total size that does
not wrap) with returned pointer `p`, the owning block `b` is an allocated block
of the chain with `offset(b) + HEADER_SIZE = p` and
`p + S <= offset(b) + size(b) - FOOTER_SIZE <= HEAP_SIZE`, so the payload lies
in the arena after the header of `b` and before its footer; and the payload
ranges of two distinct outstanding allocations are disjoint. -/
theorem C15_payload_bounds (h : Heap) (reqs : List (Nat × Nat)) (hr : ReachableReq h reqs) :
    (reqs.map Prod.fst).Nodup ∧
    (∀ r ∈ reqs, 0 < r.2 ∧ ∃ x ∈ chain h, x.2.free = false ∧ x.1 + HEADER_SIZE = r.1 ∧
      r.1 + r.2 ≤ x.1 + x.2.size - FOOTER_SIZE ∧
      x.1 + x.2.size - FOOTER_SIZE ≤ HEAP_SIZE ∧ x.1 + x.2.size ≤ HEAP_SIZE) ∧
    reqs.Pairwise (fun r s => r.1 + r.2 ≤ s.1 ∨ s.1 + s.2 ≤ r.1) := by
  have hiR := reachable_req_inv h reqs hr
  have hi := hiR.inv
  have hown : ∀ r ∈ reqs, 0 < r.2 ∧ ∃ x ∈ chain h, x.2.free = false ∧
      x.1 + HEADER_SIZE = r.1 ∧ r.1 + r.2 ≤ x.1 + x.2.size - FOOTER_SIZE ∧
      x.1 + x.2.size - FOOTER_SIZE ≤ HEAP_SIZE ∧ x.1 + x.2.size ≤ HEAP_SIZE := by
    intro r hrm
    obtain ⟨hpos, x, hx, hx1, hx2, _⟩ := hiR.sized r hrm
    have hfree := (hi.acc x hx).2 (by rw [hx1]; exact List.mem_map.2 ⟨r, hrm, rfl⟩)
    have hb := tiles_bounds _ _ _ hi.rep.tiles x hx
    refine ⟨hpos, x, hx, hfree, hx1, ?_, ?_, hb.2⟩
    · omega
    · omega
  refine ⟨hi.nodup, hown, ?_⟩
  have hne : reqs.Pairwise (fun r s => r.1 ≠ s.1) := by
    have := hi.nodup
    unfold List.Nodup at this
    exact List.pairwise_map.1 this
  refine List.Pairwise.imp_of_mem ?_ hne
  intro r s hrm hsm hrs
  obtain ⟨_, x, hx, _, hx1, hx2, _, _⟩ := hown r hrm
  obtain ⟨_, y, hy, _, hy1, hy2, _, _⟩ := hown s hsm
  have hmx := hi.minsize x hx
  have hmy := hi.minsize y hy
  have hxy : x.1 ≠ y.1 := by
    intro heq
    apply hrs
    omega
  unfold HEADER_SIZE FOOTER_SIZE at *
  rcases tiles_disjoint _ _ _ hi.rep.tiles x y hx hy hxy with hd | hd
  · left
    omega
  · right
    omega

/-- Witness of C15 at the sample state `demo_two`, with its two outstanding
requests of 200 and 100 bytes. -/
theorem C15_payload_bounds_witness :
    ([(156, 200), (24, 100)].map Prod.fst).Nodup ∧
    (∀ r ∈ [(156, 200), (24, 100)], 0 < r.2 ∧ ∃ x ∈ chain demo_two, x.2.free = false ∧
      x.1 + HEADER_SIZE = r.1 ∧
      r.1 + r.2 ≤ x.1 + x.2.size - FOOTER_SIZE ∧
      x.1 + x.2.size - FOOTER_SIZE ≤ HEAP_SIZE ∧ x.1 + x.2.size ≤ HEAP_SIZE) ∧
    [(156, 200), (24, 100)].Pairwise (fun r s => r.1 + r.2 ≤ s.1 ∨ s.1 + s.2 ≤ r.1) :=
  C15_payload_bounds demo_two [(156, 200), (24, 100)] demo_two_req

/-- C16 fails on the code.  The request `S = 2 ^ 64 - 32` is positive and is
a `size_t` value; its total size `HEADER_SIZE + S + FOOTER_SIZE` wraps to 0.
In the reachable state `demo_one` (132 bytes allocated, 892 free),
`allocate_block(S)` succeeds: it selects the free block at offset 132 and
returns offset 156.  `free_block` of that pointer returns, but the chain is not
the one before the allocation: the block at offset 132 now has size 0 and is
its own successor, where it had size 892 and no successor. -/
theorem C16_round_trip_breaks_on_wrapped_size :
    Reachable demo_one [24] ∧
    0 < 18446744073709551584 ∧ 18446744073709551584 < SIZE_MOD ∧
    (HEADER_SIZE + 18446744073709551584 + FOOTER_SIZE) % SIZE_MOD = 0 ∧
    (allocate_block demo_one 18446744073709551584).map Prod.snd = some (some 156) ∧
    chain demo_one = [(0, ⟨132, false, some 132⟩), (132, ⟨892, true, none⟩)] ∧
    (free_block (run_alloc demo_one 18446744073709551584) (some 156)).map
      (fun h2 => h2.mem 132) = some ⟨0, true, some 132⟩ ∧
    (free_block (run_alloc demo_one 18446744073709551584) (some 156)).map chain
      ≠ some (chain demo_one) := by
  refine ⟨Reachable.alloc_ok _ [] 100 _ 24 Reachable.init (by decide) rfl,
    ?_, ?_, ?_, ?_, ?_, ?_, ?_⟩ <;> decide

/-- C17 fails on the code.  The request `S = 2 ^ 64 - 1`, the largest
`size_t` value, exceeds what the arena can hold; its total size
`HEADER_SIZE + S + FOOTER_SIZE` wraps to 31.  On the state that `init_heap`
leaves, under each of the three strategies, `allocate_block(S)` does not fail:
it returns offset 24, marks the block at offset 0 allocated and changes the
chain. -/
theorem C17_wrapped_size_accepted :
    HEAP_SIZE - (HEADER_SIZE + FOOTER_SIZE) < 18446744073709551615 ∧
    18446744073709551615 < SIZE_MOD ∧
    (HEADER_SIZE + 18446744073709551615 + FOOTER_SIZE) % SIZE_MOD = 31 ∧
    ∀ s : Strategy,
      Reachable (change_strategy (init_heap boot) s) [] ∧
      (allocate_block (change_strategy (init_heap boot) s) 18446744073709551615).map Prod.snd
        = some (some 24) ∧
      (allocate_block (change_strategy (init_heap boot) s) 18446744073709551615).map
        (fun r => (r.1.mem 0).free) = some false ∧
      (allocate_block (change_strategy (init_heap boot) s) 18446744073709551615).map
        (fun r => chain r.1) ≠ some (chain (change_strategy (init_heap boot) s)) := by
  refine ⟨by decide, by decide, by decide, ?_⟩
  intro s
  refine ⟨Reachable.strategy _ _ s Reachable.init, ?_, ?_, ?_⟩ <;> cases s <;> decide

/-- C18 as stated fails: an owning block can have exactly the total size of
the request without having been split.  In the reachable state `demo_hole`,
`allocate_block(100)` under FIRST_FIT selects the free block at offset 0, of
size 132; the total size is 132; the split condition
`size >= total + HEADER_SIZE + FOOTER_SIZE + 1` is false, and the chain keeps
its three blocks; yet the owning block has size 132, the total size. -/
theorem C18_exact_fit_is_not_split :
    ReachableReq demo_hole [(156, 200)] ∧
    find_free_block demo_hole (HEADER_SIZE + 100 + FOOTER_SIZE) demo_hole.currStrategy
      = some (some 0) ∧
    chain demo_hole = [(0, ⟨132, true, some 132⟩), (132, ⟨232, false, some 364⟩),
      (364, ⟨660, true, none⟩)] ∧
    ¬ ((132 : Nat) ≥ HEADER_SIZE + 100 + FOOTER_SIZE + HEADER_SIZE + FOOTER_SIZE + 1) ∧
    (allocate_block demo_hole 100).map (fun r => (chain r.1, r.2))
      = some ([(0, ⟨132, false, some 132⟩), (132, ⟨232, false, some 364⟩),
          (364, ⟨660, true, none⟩)], some 24) ∧
    (132 : Nat) = HEADER_SIZE + 100 + FOOTER_SIZE := by
  refine ⟨demo_hole_req, ?_, ?_, ?_, ?_, ?_⟩ <;> decide

/-- C18, amended.  In every reachable state every block of the chain has size
at least `HEADER_SIZE + FOOTER_SIZE + 1`; for every outstanding allocation made
with request `S` (total size `T = HEADER_SIZE + S + FOOTER_SIZE`, not
wrapping) the owning block is an allocated block of the chain with
`T <= size <= T + (HEADER_SIZE + FOOTER_SIZE)`.  When `allocate_block(S)`
selects the block `b` at offset `o`: if `b` is split
(`size(b) >= T + HEADER_SIZE + FOOTER_SIZE + 1`) the owning block has size
exactly `T`; if `b` is not split the owning block keeps the size of `b`, which
lies between `T` and `T + (HEADER_SIZE + FOOTER_SIZE)` and may be `T` itself.
An allocated block keeps its size until it is released: every call of
`allocate_block`, and every call of `free_block` on another outstanding
pointer, leaves it in the chain unchanged. -/
theorem C18_block_sizes (h : Heap) (reqs : List (Nat × Nat)) (hr : ReachableReq h reqs) :
    (∀ x ∈ chain h, HEADER_SIZE + FOOTER_SIZE + 1 ≤ x.2.size) ∧
    (∀ r ∈ reqs, ∃ x ∈ chain h, x.1 + HEADER_SIZE = r.1 ∧ x.2.free = false ∧
      HEADER_SIZE + r.2 + FOOTER_SIZE ≤ x.2.size ∧
      x.2.size ≤ HEADER_SIZE + r.2 + FOOTER_SIZE + (HEADER_SIZE + FOOTER_SIZE)) ∧
    (∀ S o, 0 < S → HEADER_SIZE + S + FOOTER_SIZE < SIZE_MOD →
      find_free_block h (HEADER_SIZE + S + FOOTER_SIZE) h.currStrategy = some (some o) →
      ∃ h1 b b1, allocate_block h S = some (h1, some (o + HEADER_SIZE)) ∧
        (o, b) ∈ chain h ∧ (o, b1) ∈ chain h1 ∧ b1.free = false ∧
        (b.size ≥ HEADER_SIZE + S + FOOTER_SIZE + HEADER_SIZE + FOOTER_SIZE + 1 →
          b1.size = HEADER_SIZE + S + FOOTER_SIZE) ∧
        (¬ (b.size ≥ HEADER_SIZE + S + FOOTER_SIZE + HEADER_SIZE + FOOTER_SIZE + 1) →
          b1.size = b.size ∧ HEADER_SIZE + S + FOOTER_SIZE ≤ b.size ∧
          b.size ≤ HEADER_SIZE + S + FOOTER_SIZE + (HEADER_SIZE + FOOTER_SIZE))) ∧
    (∀ S, HEADER_SIZE + S + FOOTER_SIZE < SIZE_MOD →
      ∃ h1 r, allocate_block h S = some (h1, r) ∧
        ∀ x ∈ chain h, x.2.free = false → x ∈ chain h1) ∧
    (∀ r ∈ reqs, ∃ h1, free_block h (some r.1) = some h1 ∧
        ∀ x ∈ chain h, x.2.free = false → x.1 + HEADER_SIZE ≠ r.1 → x ∈ chain h1) := by
  have hiR := reachable_req_inv h reqs hr
  have hi := hiR.inv
  refine ⟨hi.minsize, ?_, ?_, ?_, ?_⟩
  · intro r hrm
    obtain ⟨_, x, hx, hx1, hx2, hx3⟩ := hiR.sized r hrm
    have hfree := (hi.acc x hx).2 (by rw [hx1]; exact List.mem_map.2 ⟨r, hrm, rfl⟩)
    exact ⟨x, hx, hx1, hfree, hx2, hx3⟩
  · intro S o hS0 hS hf
    rcases alloc_step h _ _ S hi hS with
      ⟨_, hz | hnone⟩ | ⟨pre, x, post, _, hl, hq, hfind, ha, hinv⟩
    · omega
    · rw [hnone] at hf
      simp at hf
    · rw [hfind] at hf
      simp only [Option.some.injEq] at hf
      obtain ⟨y, hy, hy1, hy2, _, _, hy5, hy6⟩ :=
        split_list_owner pre post x (HEADER_SIZE + S + FOOTER_SIZE) hq
      have hc := rep_chain _ _ hinv.rep
      refine ⟨_, x.2, y.2, by rw [← hf]; exact ha, ?_, ?_, hy2, hy5, ?_⟩
      · rw [hl, ← hf]
        simp
      · rw [hc, ← hf, ← hy1]
        exact hy
      · intro hn
        have := hq.2
        refine ⟨hy6 hn, this, ?_⟩
        omega
  · intro S hS
    rcases alloc_step h _ _ S hi hS with
      ⟨ha, _⟩ | ⟨pre, x, post, _, hl, hq, _, ha, hinv⟩
    · exact ⟨h, none, ha, fun x hx _ => hx⟩
    · refine ⟨_, _, ha, ?_⟩
      intro y hy hyf
      rw [rep_chain _ _ hinv.rep]
      rw [hl] at hy
      apply split_frame pre post x y _ hy
      intro hyx
      rw [hyx, hq.1] at hyf
      simp at hyf
  · intro r hrm
    have hp : r.1 ∈ reqs.map Prod.fst := List.mem_map.2 ⟨r, hrm, rfl⟩
    obtain ⟨pre, x, post, h1, hl, hxp, _, hf, hinv, _⟩ := free_step h _ _ r.1 hi hp
    refine ⟨h1, hf, ?_⟩
    intro y hy hyf hyp
    rw [rep_chain _ _ hinv.rep]
    rw [hl] at hy
    apply released_frame pre post x y hy hyf
    intro hyx
    rw [hyx] at hyp
    exact hyp hxp

/-- Witness of amended C18 at the sample state `demo_two`, with its two
outstanding requests of 200 and 100 bytes. -/
theorem C18_block_sizes_witness :
    (∀ x ∈ chain demo_two, HEADER_SIZE + FOOTER_SIZE + 1 ≤ x.2.size) ∧
    (∀ r ∈ [(156, 200), (24, 100)], ∃ x ∈ chain demo_two, x.1 + HEADER_SIZE = r.1 ∧
      x.2.free = false ∧
      HEADER_SIZE + r.2 + FOOTER_SIZE ≤ x.2.size ∧
      x.2.size ≤ HEADER_SIZE + r.2 + FOOTER_SIZE + (HEADER_SIZE + FOOTER_SIZE)) ∧
    (∀ S o, 0 < S → HEADER_SIZE + S + FOOTER_SIZE < SIZE_MOD →
      find_free_block demo_two (HEADER_SIZE + S + FOOTER_SIZE) demo_two.currStrategy
        = some (some o) →
      ∃ h1 b b1, allocate_block demo_two S = some (h1, some (o + HEADER_SIZE)) ∧
        (o, b) ∈ chain demo_two ∧ (o, b1) ∈ chain h1 ∧ b1.free = false ∧
        (b.size ≥ HEADER_SIZE + S + FOOTER_SIZE + HEADER_SIZE + FOOTER_SIZE + 1 →
          b1.size = HEADER_SIZE + S + FOOTER_SIZE) ∧
        (¬ (b.size ≥ HEADER_SIZE + S + FOOTER_SIZE + HEADER_SIZE + FOOTER_SIZE + 1) →
          b1.size = b.size ∧ HEADER_SIZE + S + FOOTER_SIZE ≤ b.size ∧
          b.size ≤ HEADER_SIZE + S + FOOTER_SIZE + (HEADER_SIZE + FOOTER_SIZE))) ∧
    (∀ S, HEADER_SIZE + S + FOOTER_SIZE < SIZE_MOD →
      ∃ h1 r, allocate_block demo_two S = some (h1, r) ∧
        ∀ x ∈ chain demo_two, x.2.free = false → x ∈ chain h1) ∧
    (∀ r ∈ [(156, 200), (24, 100)], ∃ h1, free_block demo_two (some r.1) = some h1 ∧
        ∀ x ∈ chain demo_two, x.2.free = false → x.1 + HEADER_SIZE ≠ r.1 →
          x ∈ chain h1) :=
  C18_block_sizes demo_two [(156, 200), (24, 100)] demo_two_req

end HeapManagement
